import Mathlib

/-!
# Table-of-contents generator (`scripts/generateToc.js`)

A shallow embedding of the script and the properties of its three stages:
`createFolderTree` (scan), `createContentMap` (flatten) and
`createContentMarkdown` (render), together with the module constant
`excludedArray`.

Modelling conventions.

* A JavaScript string is a list of characters (`JsString`).
* A thrown exception is `none` in an `Option` result; `undefined` as the value
  of an entry's `title` is `none` as well.
* A plain object is the list of its own enumerable string-keyed properties,
  kept in the order in which `for ... in`, `Object.keys` and `Object.assign`
  enumerate them: array-index keys in ascending numeric order first, all other
  keys in the order of their creation afterwards (`JsObject`).  The accessor
  key `__proto__` is outside the model.
* The file system is a finite tree (`FsEntry`); `lstatSync` does not follow
  symbolic links, so a link is a `file` leaf.
* `path` is the POSIX flavour of Node's `path` module.
-/

set_option autoImplicit false

namespace GenerateToc

/-! ## Strings -/

/-- A JavaScript string value. -/
abbrev JsString := List Char

/-- `s.indexOf(t)`: position of the first occurrence of `t` in `s`
(`none` stands for `-1`). -/
def indexOf : JsString → JsString → Option Nat
  | [], t => if t.isEmpty then some 0 else none
  | c :: cs, t =>
    if t.isPrefixOf (c :: cs) then some 0 else (indexOf cs t).map (· + 1)

/-- `s.includes(t)`, the same test as `s.indexOf(t) >= 0`. -/
def includes (s t : JsString) : Bool := (indexOf s t).isSome

/-- Worker of `split`: `skip` characters of a separator just matched are still
to be passed over, `cur` is the current segment, last character first. -/
def splitGo (sep : JsString) : JsString → Nat → JsString → List JsString
  | [], _, cur => [cur.reverse]
  | _ :: cs, skip + 1, cur => splitGo sep cs skip cur
  | c :: cs, 0, cur =>
    if sep.isPrefixOf (c :: cs) then cur.reverse :: splitGo sep cs (sep.length - 1) []
    else splitGo sep cs 0 (c :: cur)

/-- `s.split(sep)` for a non-empty separator string. -/
def split (s sep : JsString) : List JsString := splitGo sep s 0 []

/-- `parts.join(sep)`. -/
def join (sep : JsString) : List JsString → JsString
  | [] => []
  | [x] => x
  | x :: y :: rest => x ++ sep ++ join sep (y :: rest)

/-- Worker of `lastIndexOf`: `i` is the current position, `last` the last
match seen so far. -/
def lastIndexOfGo (c : Char) : JsString → Int → Int → Int
  | [], _, last => last
  | x :: xs, i, last => lastIndexOfGo c xs (i + 1) (if x = c then i else last)

/-- `s.lastIndexOf(c)` for a one-character string `c`; `-1` when absent. -/
def lastIndexOf (s : JsString) (c : Char) : Int := lastIndexOfGo c s 0 (-1)

/-- `s.substring(i)`. -/
def substring (s : JsString) (i : Int) : JsString := s.drop i.toNat

/-- `s.replace(c, '')` for a one-character string pattern `c`: only the first
occurrence is replaced. -/
def replaceFirst (s : JsString) (c : Char) : JsString := s.erase c

/-- `s.charAt(0).toUpperCase() + s.slice(1)`; `toUpperCase` is the library's
upper-casing of a one-character string. -/
def capitalize (toUpperCase : Char → JsString) : JsString → JsString
  | [] => []
  | c :: cs => toUpperCase c ++ cs

/-- Upper-casing restricted to the ASCII letters, used for concrete evaluation. -/
def asciiUpper (c : Char) : JsString :=
  if 'a'.toNat ≤ c.toNat ∧ c.toNat ≤ 'z'.toNat then [Char.ofNat (c.toNat - 32)] else [c]

/-! ## `path.join` (POSIX) -/

/-- One step of `normalizeString`: the effect of the next `/`-separated segment
on the segments kept so far (most recent first). -/
def normalizeStep (allowAboveRoot : Bool) (res : List JsString) (seg : JsString) :
    List JsString :=
  if seg = [] ∨ seg = ['.'] then res
  else if seg = ['.', '.'] then
    match res with
    | [] => if allowAboveRoot then [seg] else []
    | top :: below =>
      if top = ['.', '.'] then (if allowAboveRoot then seg :: res else res) else below
  else seg :: res

/-- Segments that `normalizeString(path, allowAboveRoot, '/')` keeps, in order. -/
def normalizeSegments (allowAboveRoot : Bool) (path : JsString) : List JsString :=
  ((split path ['/']).foldl (normalizeStep allowAboveRoot) []).reverse

/-- `path.posix.normalize`. -/
def normalize (path : JsString) : JsString :=
  if path = [] then ['.']
  else
    let isAbsolute := path.head? = some '/'
    let trailingSeparator := path.getLast? = some '/'
    let res := join ['/'] (normalizeSegments (!isAbsolute) path)
    if res = [] then
      if isAbsolute then ['/'] else if trailingSeparator then ['.', '/'] else ['.']
    else
      (if isAbsolute then ['/'] else []) ++ res ++ (if trailingSeparator then ['/'] else [])

/-- `path.join(a, b)`. -/
def pathJoin (a b : JsString) : JsString :=
  if a = [] then (if b = [] then ['.'] else normalize b)
  else if b = [] then normalize a
  else normalize (a ++ '/' :: b)

/-! ## Plain objects -/

/-- Numeric value of a string of decimal digits. -/
def digitsValue (k : JsString) : Nat := k.foldl (fun n c => 10 * n + (c.toNat - '0'.toNat)) 0

/-- The array index a property key denotes, if it is one: a canonical decimal
numeral of a value below `2^32 - 1`. -/
def arrayIndex (k : JsString) : Option Nat :=
  if k ≠ [] ∧ k.all Char.isDigit ∧ (k = ['0'] ∨ k.head? ≠ some '0') ∧ digitsValue k < 4294967295
  then some (digitsValue k) else none

/-- Own enumerable properties of a plain object, in enumeration order. -/
abbrev JsObject (α : Type) := List (JsString × α)

namespace JsObject

variable {α : Type}

/-- `Object.keys(o)`, also the order of `for (k in o)`. -/
def keys (o : JsObject α) : List JsString := o.map Prod.fst

/-- `o[k]`. -/
def get (o : JsObject α) (k : JsString) : Option α := (o.find? (fun p => p.1 == k)).map Prod.snd

/-- `k in o` for own properties. -/
def has (o : JsObject α) (k : JsString) : Bool := o.any (fun p => p.1 == k)

/-- Place of a new array-index key `n`: before the first property that is not
an array index or has a larger index. -/
def insertIndex (n : Nat) (k : JsString) (v : α) : JsObject α → JsObject α
  | [] => [(k, v)]
  | p :: rest =>
    match arrayIndex p.1 with
    | some m => if m < n then p :: insertIndex n k v rest else (k, v) :: p :: rest
    | none => (k, v) :: p :: rest

/-- `o[k] = v`: an existing property keeps its place; a new one is created, at
its numeric place when `k` is an array index and last otherwise. -/
def set (o : JsObject α) (k : JsString) (v : α) : JsObject α :=
  if has o k then o.map (fun p => if p.1 = k then (k, v) else p)
  else
    match arrayIndex k with
    | some n => insertIndex n k v o
    | none => o ++ [(k, v)]

/-- `Object.assign(target, source)`. -/
def assign (target source : JsObject α) : JsObject α :=
  source.foldl (fun t p => set t p.1 p.2) target

end JsObject

/-! ## The exclusion list -/

/-- The name of the generated index document. -/
def TOC_FILE_NAME : JsString := "README.md".toList

/-- The title of the root index document. -/
def MAIN_HEADER : JsString := "Edge Development Conventions".toList

/-- The chain `.toString().split('\n').filter(...).map(...)` applied to the
text of `.gitignore`. -/
def excludedArrayOfText (text : JsString) : List JsString :=
  ((split text ['\n']).filter (fun str => !str.isEmpty && !includes str ['#'])).map
    (fun str => replaceFirst str '/')

/-- The module constant `excludedArray`; `readFileSync` is the file system's
read operation, which throws (`none`) for a file that does not exist, and `cwd`
is `process.cwd()`. -/
def excludedArray (readFileSync : JsString → Option JsString) (cwd : JsString) :
    Option (List JsString) :=
  (readFileSync (pathJoin cwd ".gitignore".toList)).map excludedArrayOfText

/-! ## The file system and the tree scanner -/

/-- What a path names: a file with its text, or a directory with the names
`readdirSync` lists and what each of them names. -/
inductive FsEntry where
  | file (content : JsString)
  | dir (children : List (JsString × FsEntry))

/-- The object `{ files, folders }` that `createFolderTree` returns. -/
inductive TreeNode where
  | mk (files : List JsString) (folders : List (JsString × TreeNode))

/-- `node.files`. -/
def TreeNode.files : TreeNode → List JsString
  | .mk files _ => files

/-- `node.folders`. -/
def TreeNode.folders : TreeNode → JsObject TreeNode
  | .mk _ folders => folders

/-- The test `excludedArray.includes(fullFilePath)`: equality with an element. -/
def excludedArrayContains (excludedArray : List JsString) (fullFilePath : JsString) : Bool :=
  excludedArray.contains fullFilePath

mutual
/-- The statement `if (fs.lstatSync(fullFilePath).isDirectory()) { ... }` of the
loop body: `entry` is what the file system has at `fullFilePath`.  The
recursive call `createFolderTree(fullFilePath, include, excludes)` on a
directory is the loop over that directory's listing started from the empty
node. -/
def scanDirectory (excludedArray : List JsString) (includeText : JsString)
    (excludes : List JsString) (fullFilePath fileName : JsString) :
    FsEntry → TreeNode → TreeNode
  | .dir children, result =>
    let child := scanLoop excludedArray includeText excludes fullFilePath children (.mk [] [])
    if child.files.length > 0 ∨ (JsObject.keys child.folders).length > 0 then
      TreeNode.mk result.files (JsObject.set result.folders fileName child)
    else result
  | .file _, result => result
/-- The loop `for (const fileName of filePaths)` of `createFolderTree` and the
`return result` after it: `filePaths` are the children still to visit, each
with what the file system has there, and `result` is the node built so far. -/
def scanLoop (excludedArray : List JsString) (includeText : JsString)
    (excludes : List JsString) (startPath : JsString) :
    List (JsString × FsEntry) → TreeNode → TreeNode
  | [], result => result
  | (fileName, entry) :: filePaths, result =>
    let fullFilePath := pathJoin startPath fileName
    if excludedArrayContains excludedArray fullFilePath then
      scanLoop excludedArray includeText excludes startPath filePaths result
    else
      let result1 :=
        scanDirectory excludedArray includeText excludes fullFilePath fileName entry result
      let result2 :=
        if (indexOf fullFilePath includeText).isSome then
          let dirname := substring startPath (lastIndexOf startPath '/' + 1)
          if (split fileName ['.']).head? ≠ some dirname then
            TreeNode.mk (result1.files ++ [fileName]) result1.folders
          else result1
        else result1
      scanLoop excludedArray includeText excludes startPath filePaths result2
end

/-- `createFolderTree(startPath, include, excludes)`; `excludedArray` is the
module constant and `found` is what the file system has at `startPath`:
nothing (`existsSync` is false) or a directory listing. -/
def createFolderTree (excludedArray : List JsString) (startPath includeText : JsString)
    (excludes : List JsString) (found : Option (List (JsString × FsEntry))) : TreeNode :=
  match found with
  | none => .mk [] []
  | some filePaths => scanLoop excludedArray includeText excludes startPath filePaths (.mk [] [])

/-! ## The content map -/

/-- A navigation entry `{ indent, file, title }`; `title` is `none` when it is
`undefined`. -/
structure Entry where
  indent : Nat
  file : JsString
  title : Option JsString
  deriving DecidableEq

/-- The content map: directory path to entry list. -/
abbrev ContentMap := JsObject (List Entry)

/-- The separator of the title convention. -/
def NBSP : JsString := " &nbsp; ".toList

/-- The expression `markdownFile.toString().split('\n')[0].split(' &nbsp; ')[1]`
(`split` never returns an empty array, so element `0` exists). -/
def titleOf (markdownFile : JsString) : Option JsString :=
  (split ((split markdownFile ['\n']).headD []) NBSP).get? 1

/-- The loop `for (const file of files)` of `createContentMap`; `content` is
the array built so far, and a failing read throws. -/
def filesLoop (readFileSync : JsString → Option JsString) (startPath : JsString) :
    List JsString → List Entry → Option (List Entry)
  | [], content => some content
  | file :: files, content =>
    if file = TOC_FILE_NAME then filesLoop readFileSync startPath files content
    else
      match readFileSync (pathJoin startPath file) with
      | none => none
      | some markdownFile =>
        filesLoop readFileSync startPath files
          (content ++ [{ indent := 0, file := file, title := titleOf markdownFile }])

/-- The variables of the folder loop of `createContentMap`: the array `content`,
the object `result`, and whether `result[startPath]` still is the array
`content` (an `Object.assign` that brings its own `startPath` property
replaces it by another array). -/
structure MapState where
  content : List Entry
  result : ContentMap
  aliased : Bool

/-- The entry of a sub-folder's list as it is copied into the parent's list. -/
def adjust (folder : JsString) (fileContent : Entry) : Entry :=
  { fileContent with file := folder ++ '/' :: fileContent.file, indent := fileContent.indent + 1 }

/-- The object `folderNameContent`: the link entry of a sub-folder. -/
def folderNameContent (toUpperCase : Char → JsString) (folder : JsString) : Entry :=
  { indent := 0, file := pathJoin folder TOC_FILE_NAME, title := some (capitalize toUpperCase folder) }

mutual
/-- `createContentMap(contentTree, startPath)`. -/
def createContentMap (readFileSync : JsString → Option JsString)
    (toUpperCase : Char → JsString) : TreeNode → JsString → Option ContentMap
  | .mk files folders, startPath =>
    match filesLoop readFileSync startPath files [] with
    | none => none
    | some content =>
      (foldersLoop readFileSync toUpperCase startPath folders
        ⟨content, [(startPath, content)], true⟩).map MapState.result
/-- The loop `for (const folder in folders)` of `createContentMap`. -/
def foldersLoop (readFileSync : JsString → Option JsString)
    (toUpperCase : Char → JsString) (startPath : JsString) :
    List (JsString × TreeNode) → MapState → Option MapState
  | [], st => some st
  | (folder, subFolder) :: folders, st =>
    let subFolderPath := pathJoin startPath folder
    match createContentMap readFileSync toUpperCase subFolder subFolderPath with
    | none => none
    | some subFolderContent =>
      let result1 := JsObject.assign st.result subFolderContent
      let aliased1 := st.aliased && !JsObject.has subFolderContent startPath
      match JsObject.get subFolderContent subFolderPath with
      | none => none
      | some subList =>
        let content1 := st.content ++ folderNameContent toUpperCase folder :: subList.map (adjust folder)
        let result2 := if aliased1 then JsObject.set result1 startPath content1 else result1
        foldersLoop readFileSync toUpperCase startPath folders ⟨content1, result2, aliased1⟩
end

/-! ## Rendering -/

/-- A rendered document `{ path, data }`. -/
structure Document where
  path : JsString
  data : JsString
  deriving DecidableEq

/-- A value inside a template literal: `undefined` prints as that word. -/
def titleText : Option JsString → JsString
  | none => "undefined".toList
  | some title => title

/-- The line of one entry. -/
def entryLine (e : Entry) : JsString :=
  List.replicate (e.indent * 2) ' ' ++ "* [".toList ++ titleText e.title ++ "](".toList ++
    e.file ++ ")\n".toList

/-- The header of the document of directory `key`. -/
def headerOf (toUpperCase : Char → JsString) (key : JsString) : JsString :=
  let dirname := (split key ['/']).getLastD []
  if dirname = ['.'] then "# ".toList ++ MAIN_HEADER
  else "# [<](../".toList ++ TOC_FILE_NAME ++ ") &nbsp; ".toList ++
    capitalize toUpperCase dirname ++ " Conventions".toList

/-- `createContentMarkdown(contentMap)`. -/
def createContentMarkdown (toUpperCase : Char → JsString) (contentMap : ContentMap) :
    List Document :=
  (JsObject.keys contentMap).map fun key =>
    let content := (((JsObject.get contentMap key).getD []).map entryLine).flatten
    { path := key ++ '/' :: TOC_FILE_NAME,
      data := headerOf toUpperCase key ++ "\n\n## Table of Contents\n\n".toList ++ content }

/-! ## Reference definitions used in the statements -/

/-- The exclusion list in the words of its description: the lines of the
text, blank lines and lines with the comment marker dropped, and a single
leading `/` stripped from each remaining line. -/
def excludedArrayAsDescribed (text : JsString) : List JsString :=
  ((split text ['\n']).filter (fun l => decide (l ≠ [] ∧ '#' ∉ l))).map
    (fun l => match l with
      | '/' :: rest => rest
      | _ => l)

/-- Whether the loop of `createFolderTree` at `startPath` pushes the child
`fileName` to `files`: it is not excluded, its joined path contains the include
string, and the self-name test lets it pass. -/
def pushesFile (excludedArray : List JsString) (includeText startPath fileName : JsString) :
    Bool :=
  !excludedArrayContains excludedArray (pathJoin startPath fileName) &&
    (indexOf (pathJoin startPath fileName) includeText).isSome &&
    decide ((split fileName ['.']).head? ≠
      some (substring startPath (lastIndexOf startPath '/' + 1)))

/-- The property that the loop of `createFolderTree` at `startPath` adds to
`folders` for a child, if it adds one: the child is a directory, not excluded,
and its own scan is not empty. -/
def keptFolder (excludedArray : List JsString) (includeText : JsString)
    (excludes : List JsString) (startPath : JsString) (c : JsString × FsEntry) :
    Option (JsString × TreeNode) :=
  match c.2 with
  | .dir children =>
    if excludedArrayContains excludedArray (pathJoin startPath c.1) then none
    else
      let child :=
        scanLoop excludedArray includeText excludes (pathJoin startPath c.1) children (.mk [] [])
      if child.files.length > 0 ∨ (JsObject.keys child.folders).length > 0 then some (c.1, child)
      else none
  | .file _ => none

/-- The pruning test `child.files.length > 0 || Object.keys(child.folders).length > 0`. -/
def TreeNode.nonEmpty (t : TreeNode) : Bool :=
  decide (t.files.length > 0 ∨ (JsObject.keys t.folders).length > 0)

mutual
/-- Every node stored under a `folders` mapping of `t`, at any depth, passes `P`. -/
def TreeNode.everyFolder (P : TreeNode → Bool) : TreeNode → Bool
  | .mk _ folders => everyFolderList P folders
/-- Every node stored in the mapping `folders`, or below it, passes `P`. -/
def everyFolderList (P : TreeNode → Bool) : List (JsString × TreeNode) → Bool
  | [] => true
  | (_, sub) :: rest => P sub && sub.everyFolder P && everyFolderList P rest
end

mutual
/-- Number of entries of the `files` lists in the subtree of `t`. -/
def TreeNode.fileCount : TreeNode → Nat
  | .mk files folders => files.length + fileCountList folders
/-- Number of entries of the `files` lists in the subtrees of a mapping. -/
def fileCountList : List (JsString × TreeNode) → Nat
  | [] => 0
  | (_, sub) :: rest => sub.fileCount + fileCountList rest
end

/-- The subtree of `t` holds at least one file. -/
def TreeNode.hasFile (t : TreeNode) : Bool := decide (0 < t.fileCount)

/-- A directory-entry name as `readdirSync` returns it: not empty, without
`/`, and neither `.` nor `..`. -/
def validName (f : JsString) : Bool :=
  decide (f ≠ [] ∧ '/' ∉ f ∧ f ≠ ['.'] ∧ f ≠ ['.', '.'])

/-- The segments that `path.join` keeps of a path. -/
def pathSegments (p : JsString) : List JsString :=
  normalizeSegments (!decide (p.head? = some '/')) p

/-- The shape of the segments `normalizeString` has kept so far (most recent
first): names, on top of `..` segments only when going above the root is
allowed. -/
def GoodStack (allowAboveRoot : Bool) : List JsString → Prop
  | [] => True
  | top :: below =>
    GoodStack allowAboveRoot below ∧
      (validName top = true ∨
        (top = ['.', '.'] ∧ allowAboveRoot = true ∧ ∀ x ∈ below, x = ['.', '.']))

/-- A property key that a directory scan can create: a directory-entry name
other than the accessor key `__proto__`. -/
def entryName (f : JsString) : Bool := validName f && decide (f ≠ "__proto__".toList)

mutual
/-- A tree node as the scanner builds them: at every depth the keys of
`folders` are directory-entry names and each occurs once. -/
def TreeNode.wellFormed : TreeNode → Bool
  | .mk _ folders => wellFormedList folders
/-- The same for the properties of a `folders` object. -/
def wellFormedList : List (JsString × TreeNode) → Bool
  | [] => true
  | (f, sub) :: rest =>
    entryName f && !rest.any (fun q => q.1 == f) && sub.wellFormed && wellFormedList rest
end

mutual
/-- The joined paths of all folders below a tree node at path `p`. -/
def folderPaths : TreeNode → JsString → List JsString
  | .mk _ folders, p => folderPathsList folders p
/-- The joined paths of the folders of a `folders` object and below. -/
def folderPathsList : List (JsString × TreeNode) → JsString → List JsString
  | [], _ => []
  | (f, sub) :: rest, p =>
    pathJoin p f :: (folderPaths sub (pathJoin p f) ++ folderPathsList rest p)
end

mutual
/-- Every read of `createContentMap(node, p)` succeeds. -/
def readsOk (readFileSync : JsString → Option JsString) : TreeNode → JsString → Bool
  | .mk files folders, p =>
    files.all (fun file => decide (file = TOC_FILE_NAME) ||
      (readFileSync (pathJoin p file)).isSome) && readsOkList readFileSync folders p
/-- Every read below the folders of a `folders` object succeeds. -/
def readsOkList (readFileSync : JsString → Option JsString) :
    List (JsString × TreeNode) → JsString → Bool
  | [], _ => true
  | (f, sub) :: rest, p =>
    readsOk readFileSync sub (pathJoin p f) && readsOkList readFileSync rest p
end

/-- The entries of the files of a directory at path `p`: one per file other
than the index document, at indent 0, titled from the text read. -/
def fileEntries (readFileSync : JsString → Option JsString) (p : JsString)
    (files : List JsString) : List Entry :=
  (files.filter (fun file => decide (file ≠ TOC_FILE_NAME))).map
    (fun file => { indent := 0, file := file, title := (readFileSync (pathJoin p file)).bind titleOf })

mutual
/-- The list of the directory of a tree node at path `p`: the file entries,
then one block per folder. -/
def ownEntries (readFileSync : JsString → Option JsString) (toUpperCase : Char → JsString) :
    TreeNode → JsString → List Entry
  | .mk files folders, p =>
    fileEntries readFileSync p files ++ folderBlocks readFileSync toUpperCase folders p
/-- The blocks of the folders: the link entry, then the folder's own list
adjusted. -/
def folderBlocks (readFileSync : JsString → Option JsString) (toUpperCase : Char → JsString) :
    List (JsString × TreeNode) → JsString → List Entry
  | [], _ => []
  | (f, sub) :: rest, p =>
    (folderNameContent toUpperCase f ::
      (ownEntries readFileSync toUpperCase sub (pathJoin p f)).map (adjust f)) ++
      folderBlocks readFileSync toUpperCase rest p
end

mutual
/-- The properties expected of `createContentMap(node, p)`, in tree order. -/
def expectedMap (readFileSync : JsString → Option JsString) (toUpperCase : Char → JsString) :
    TreeNode → JsString → List (JsString × List Entry)
  | .mk files folders, p =>
    (p, fileEntries readFileSync p files ++ folderBlocks readFileSync toUpperCase folders p) ::
      expectedMapList readFileSync toUpperCase folders p
/-- The properties expected from the folders of a `folders` object. -/
def expectedMapList (readFileSync : JsString → Option JsString)
    (toUpperCase : Char → JsString) :
    List (JsString × TreeNode) → JsString → List (JsString × List Entry)
  | [], _ => []
  | (f, sub) :: rest, p =>
    expectedMap readFileSync toUpperCase sub (pathJoin p f) ++
      expectedMapList readFileSync toUpperCase rest p
end

/-- The documents of the example tree `docs/a.md`, `docs/sub/b.md`. -/
def exampleRead (path : JsString) : Option JsString :=
  if path = "docs/a.md".toList then some "# &nbsp; Alpha".toList
  else if path = "docs/sub/b.md".toList then some "# &nbsp; Beta".toList
  else none

/-- The listing of the example directory `docs`. -/
def exampleListing : List (JsString × FsEntry) :=
  [("a.md".toList, .file "# &nbsp; Alpha".toList),
    ("sub".toList, .dir [("b.md".toList, .file "# &nbsp; Beta".toList)])]

mutual
/-- A directory entry as a file system holds it: below a directory, every
listed name is a directory-entry name and is listed once. -/
def FsEntry.wellFormed : FsEntry → Bool
  | .file _ => true
  | .dir children => listingWellFormed children
/-- The same for the listing of a directory. -/
def listingWellFormed : List (JsString × FsEntry) → Bool
  | [] => true
  | (name, entry) :: rest =>
    entryName name && !rest.any (fun c => c.1 == name) && entry.wellFormed &&
      listingWellFormed rest
end

mutual
/-- The directories the scanner visits at and below what `path` names, each
with the node its scan returns. -/
def visitedBelow (excludedArray : List JsString) (includeText : JsString)
    (excludes : List JsString) (path : JsString) : FsEntry → List (JsString × TreeNode)
  | .file _ => []
  | .dir children =>
    (path, scanLoop excludedArray includeText excludes path children (.mk [] [])) ::
      visitedDirs excludedArray includeText excludes path children
/-- The directories the scanner visits below `startPath`, whose listing is
given: the sub-directories that are not excluded, and what it visits below
them. -/
def visitedDirs (excludedArray : List JsString) (includeText : JsString)
    (excludes : List JsString) (startPath : JsString) :
    List (JsString × FsEntry) → List (JsString × TreeNode)
  | [] => []
  | (name, entry) :: rest =>
    (if excludedArrayContains excludedArray (pathJoin startPath name) then []
      else visitedBelow excludedArray includeText excludes (pathJoin startPath name) entry) ++
      visitedDirs excludedArray includeText excludes startPath rest
end

/-- The paths of the visited directories that are not pruned as empty. -/
def keptDirs (excludedArray : List JsString) (includeText : JsString)
    (excludes : List JsString) (startPath : JsString)
    (filePaths : List (JsString × FsEntry)) : List JsString :=
  ((visitedDirs excludedArray includeText excludes startPath filePaths).filter
    (fun d => d.2.nonEmpty)).map Prod.fst

/-- A nested list in the sense of the renderer: the first entry, if there is
one, has indent 0, and every later entry is at most one level deeper than the
entry right before it. -/
def nestedList (l : List Entry) : Prop :=
  (∀ e, l.head? = some e → e.indent = 0) ∧
    List.Chain' (fun a b : Entry => b.indent ≤ a.indent + 1) l

mutual
/-- The directories of a tree node at path `p`: the node itself and every
folder below it, each with its joined path, in the order of the expected
map. -/
def subNodes : TreeNode → JsString → List (JsString × TreeNode)
  | .mk files folders, p => (p, .mk files folders) :: subNodesList folders p
/-- The directories at and below the folders of a `folders` object. -/
def subNodesList : List (JsString × TreeNode) → JsString → List (JsString × TreeNode)
  | [], _ => []
  | (f, sub) :: rest, p => subNodes sub (pathJoin p f) ++ subNodesList rest p
end

/-- Ascending numeric order of two array-index keys. -/
def indexLe {α : Type} (a b : JsString × α) : Prop :=
  ∃ i j, arrayIndex a.1 = some i ∧ arrayIndex b.1 = some j ∧ i ≤ j

/-- The path `path.join` gives when the names of `chain` are joined to `p`
one after the other, as the recursion of `createContentMap` does. -/
def joinAll (p : JsString) (chain : List JsString) : JsString := chain.foldl pathJoin p

mutual
/-- The node and every node below it pass `P`. -/
def TreeNode.everyNode (P : TreeNode → Bool) : TreeNode → Bool
  | .mk files folders => P (.mk files folders) && everyNodeList P folders
/-- Every node at or below the folders of a `folders` object passes `P`. -/
def everyNodeList (P : TreeNode → Bool) : List (JsString × TreeNode) → Bool
  | [] => true
  | (_, sub) :: rest => sub.everyNode P && everyNodeList P rest
end

/-- The names in `files` are directory-entry names. -/
def validFiles (t : TreeNode) : Bool := t.files.all validName

/-- No name is listed twice in `files`. -/
def filesOnce (t : TreeNode) : Bool := decide t.files.Nodup

/-- The node reached from `t` by following the folder names of `chain`. -/
def descend : List JsString → TreeNode → Option TreeNode
  | [], t => some t
  | f :: chain, t => (JsObject.get t.folders f).bind (descend chain)

mutual
/-- Number of files other than the index document in the subtree of a node. -/
def TreeNode.docCount : TreeNode → Nat
  | .mk files folders =>
    (files.filter (fun file => decide (file ≠ TOC_FILE_NAME))).length + docCountList folders
/-- The same over the folders of a `folders` object. -/
def docCountList : List (JsString × TreeNode) → Nat
  | [] => 0
  | (_, sub) :: rest => sub.docCount + docCountList rest
end

mutual
/-- Number of folders below a node, at any depth. -/
def TreeNode.folderCount : TreeNode → Nat
  | .mk _ folders => folderCountList folders
/-- Number of folders in and below a `folders` object. -/
def folderCountList : List (JsString × TreeNode) → Nat
  | [] => 0
  | (_, sub) :: rest => 1 + sub.folderCount + folderCountList rest
end

/-- What an entry of the list of directory `d` points at, `nodes` being the
directories at and below `d` with their joined paths: either it is the link of
the folder `f` reached along `chain`, or the entry of a file `x` listed in the
directory reached along `chain`. -/
def EntryTarget (nodes : List (JsString × TreeNode)) (d : JsString) (e : Entry) : Prop :=
  (∃ (chain : List JsString) (f : JsString) (n : TreeNode),
      (∀ s ∈ chain, validName s = true) ∧ validName f = true ∧
        e.file = join ['/'] (chain ++ [f, TOC_FILE_NAME]) ∧ e.indent = chain.length ∧
        (joinAll d (chain ++ [f]), n) ∈ nodes) ∨
    (∃ (chain : List JsString) (x : JsString) (n : TreeNode),
      (∀ s ∈ chain, validName s = true) ∧ validName x = true ∧ x ≠ TOC_FILE_NAME ∧
        e.file = join ['/'] (chain ++ [x]) ∧ e.indent = chain.length ∧
        (joinAll d chain, n) ∈ nodes ∧ x ∈ n.files)

/-! ## The script and the file system it writes to -/

/-- What the directory with listing `l` has under `name`: the first entry of
that name. -/
def entryOf (name : JsString) : List (JsString × FsEntry) → Option FsEntry
  | [] => none
  | c :: rest => if c.1 = name then some c.2 else entryOf name rest

/-- The listing with what the first entry called `name` names replaced by
`entry` (the entry keeps its place in the listing). -/
def replaceEntry (name : JsString) (entry : FsEntry) :
    List (JsString × FsEntry) → List (JsString × FsEntry)
  | [] => []
  | c :: rest =>
    if c.1 = name then (c.1, entry) :: rest else c :: replaceEntry name entry rest

/-- The listing with a new entry at position `n` (at the end when the listing
is shorter); the entries already there keep their relative order. -/
def insertAt (n : Nat) (c : JsString × FsEntry) (l : List (JsString × FsEntry)) :
    List (JsString × FsEntry) :=
  l.take n ++ c :: l.drop n

/-- The text of the file that the segments of a relative path name below the
directory with listing `l`; nothing when there is no such file. -/
def fileAt : List JsString → List (JsString × FsEntry) → Option JsString
  | [], _ => none
  | [name], l =>
    match entryOf name l with
    | some (.file content) => some content
    | _ => none
  | name :: seg :: rest, l =>
    match entryOf name l with
    | some (.dir children) => fileAt (seg :: rest) children
    | _ => none

/-- Writing `data` to the file that the segments of a relative path name:
the directories on the way must exist and the last segment must not name a
directory; an existing file gets the new text and keeps its place, a new file
is listed at the position `place` chooses for it. Nothing (`none`) is the
thrown error. -/
def writeAt (place : List (JsString × FsEntry) → JsString → Nat) :
    List JsString → List (JsString × FsEntry) → JsString → Option (List (JsString × FsEntry))
  | [], _, _ => none
  | [name], l, data =>
    match entryOf name l with
    | some (.dir _) => none
    | some (.file _) => some (replaceEntry name (.file data) l)
    | none => some (insertAt (place l name) (name, .file data) l)
  | name :: seg :: rest, l, data =>
    match entryOf name l with
    | some (.dir children) =>
      (writeAt place (seg :: rest) children data).map
        (fun children1 => replaceEntry name (.dir children1) l)
    | _ => none

/-- `fs.readFileSync(path)` for a relative path, `root` being the listing of
the working directory. -/
def fs.readFileSync (root : List (JsString × FsEntry)) (path : JsString) : Option JsString :=
  fileAt (pathSegments path) root

/-- `fs.writeFileSync(path, data)` for a relative path: the file system after
the call, or the thrown error. -/
def fs.writeFileSync (place : List (JsString × FsEntry) → JsString → Nat)
    (root : List (JsString × FsEntry)) (path data : JsString) :
    Option (List (JsString × FsEntry)) :=
  writeAt place (pathSegments path) root data

/-- The statement `tocMarkdown.forEach(({ path, data }) => fs.writeFileSync(path, data))`. -/
def writeDocuments (place : List (JsString × FsEntry) → JsString → Nat) :
    List Document → List (JsString × FsEntry) → Option (List (JsString × FsEntry))
  | [], root => some root
  | doc :: rest, root =>
    match fs.writeFileSync place root doc.path doc.data with
    | none => none
    | some root1 => writeDocuments place rest root1

/-- The four statements at the end of the script, run in the working directory
with listing `root`: the rendered documents and the file system after they are
written. `excludedArray` is the module constant, which the default value of
`excludes` refers to; the defaults of `startPath` and `include` are `.` and
`.md`. -/
def generateToc (excludedArray : List JsString) (toUpperCase : Char → JsString)
    (place : List (JsString × FsEntry) → JsString → Nat) (root : List (JsString × FsEntry)) :
    Option (List Document × List (JsString × FsEntry)) :=
  let folderTree := createFolderTree excludedArray ['.'] ".md".toList excludedArray (some root)
  match createContentMap (fs.readFileSync root) toUpperCase folderTree ['.'] with
  | none => none
  | some tocMap =>
    let tocMarkdown := createContentMarkdown toUpperCase tocMap
    (writeDocuments place tocMarkdown root).map (fun root1 => (tocMarkdown, root1))

mutual
/-- A tree node without the index document in its `files`, at every depth. -/
def stripToc : TreeNode → TreeNode
  | .mk files folders =>
    .mk (files.filter (fun file => decide (file ≠ TOC_FILE_NAME))) (stripTocList folders)
/-- The same for the properties of a `folders` object. -/
def stripTocList : List (JsString × TreeNode) → List (JsString × TreeNode)
  | [] => []
  | (f, sub) :: rest => (f, stripToc sub) :: stripTocList rest
end

/-- The directories named by `chain`, one inside the other below the directory
at `startPath` with listing `l`, all exist and the scanner keeps each of them:
none is excluded and none is pruned as empty. -/
def keptChain (excludedArray : List JsString) (includeText : JsString)
    (excludes : List JsString) :
    JsString → List JsString → List (JsString × FsEntry) → Bool
  | _, [], _ => true
  | startPath, g :: chain, l =>
    match entryOf g l with
    | some (.dir children) =>
      !excludedArrayContains excludedArray (pathJoin startPath g) &&
        (createFolderTree excludedArray (pathJoin startPath g) includeText excludes
          (some children)).nonEmpty &&
        keptChain excludedArray includeText excludes (pathJoin startPath g) chain children
    | _ => false

/-- What holds of the file system `s` while the documents of the directories
named by `chains` are written to the file system `root`: the scanner still
keeps every one of these directories, the scan is the scan of `root` up to
the index documents listed in `files`, and every file not called `README.md`
has the text it has in `root`. -/
def TocInvariant (excludedArray : List JsString) (chains : List (List JsString))
    (root s : List (JsString × FsEntry)) : Prop :=
  (∀ chain ∈ chains,
      keptChain excludedArray ".md".toList excludedArray ['.'] chain s = true) ∧
    stripToc (createFolderTree excludedArray ['.'] ".md".toList excludedArray (some s)) =
      stripToc (createFolderTree excludedArray ['.'] ".md".toList excludedArray (some root)) ∧
    ∀ segs : List JsString, segs.getLast? ≠ some TOC_FILE_NAME → fileAt segs s = fileAt segs root

/-- The documents the script renders in a working directory with the example
listing. -/
def exampleDocuments : List Document :=
  [⟨"./README.md".toList,
      "# Edge Development Conventions\n\n## Table of Contents\n\n* [Alpha](a.md)\n* [Sub](sub/README.md)\n  * [Beta](sub/b.md)\n".toList⟩,
    ⟨"sub/README.md".toList,
      "# [<](../README.md) &nbsp; Sub Conventions\n\n## Table of Contents\n\n* [Beta](b.md)\n".toList⟩]

/-- The example listing after these documents are written, a new file being
listed first. -/
def exampleListingAfter : List (JsString × FsEntry) :=
  [("README.md".toList,
      .file "# Edge Development Conventions\n\n## Table of Contents\n\n* [Alpha](a.md)\n* [Sub](sub/README.md)\n  * [Beta](sub/b.md)\n".toList),
    ("a.md".toList, .file "# &nbsp; Alpha".toList),
    ("sub".toList, .dir
      [("README.md".toList,
          .file "# [<](../README.md) &nbsp; Sub Conventions\n\n## Table of Contents\n\n* [Beta](b.md)\n".toList),
        ("b.md".toList, .file "# &nbsp; Beta".toList)])]

/-! # Theorems -/

/-! ## Strings -/

theorem splitGo_skip (sep : JsString) (x b : JsString) (cur : JsString) :
    splitGo sep (x ++ b) x.length cur = splitGo sep b 0 cur := by
  induction x with
  | nil => simp
  | cons c cs ih => simp [splitGo, ih]

theorem splitGo_none (sep : JsString) (hsep : sep ≠ []) :
    ∀ (s cur : JsString), ¬ sep <:+: s → splitGo sep s 0 cur = [cur.reverse ++ s]
  | [], cur, _ => by simp [splitGo]
  | c :: cs, cur, h => by
    have hp : sep.isPrefixOf (c :: cs) = false := by
      cases hb : sep.isPrefixOf (c :: cs) with
      | false => rfl
      | true =>
        exact absurd (List.IsPrefix.isInfix (List.isPrefixOf_iff_prefix.mp hb)) h
    have hcs : ¬ sep <:+: cs := fun hi => h (hi.trans (List.suffix_cons c cs).isInfix)
    rw [splitGo, if_neg (by simp [hp]), splitGo_none sep hsep cs (c :: cur) hcs]
    simp

theorem splitGo_first (sep : JsString) (hsep : sep ≠ []) :
    ∀ (a b cur : JsString),
      (∀ a' b', a ++ sep ++ b = a' ++ sep ++ b' → a.length ≤ a'.length) →
      splitGo sep (a ++ sep ++ b) 0 cur = (cur.reverse ++ a) :: splitGo sep b 0 []
  | [], b, cur, _ => by
    obtain ⟨c, cs, rfl⟩ := List.exists_cons_of_ne_nil hsep
    have hp : (c :: cs).isPrefixOf (c :: (cs ++ b)) = true :=
      List.isPrefixOf_iff_prefix.mpr ⟨b, by simp⟩
    have := splitGo_skip (c :: cs) cs b []
    simp only [List.nil_append, List.cons_append, splitGo, hp, if_true, List.append_nil]
    simpa using this
  | x :: a, b, cur, h => by
    have hp : sep.isPrefixOf (x :: (a ++ sep ++ b)) = false := by
      cases hb : sep.isPrefixOf (x :: (a ++ sep ++ b)) with
      | false => rfl
      | true =>
        obtain ⟨t, ht⟩ := List.isPrefixOf_iff_prefix.mp hb
        have := h [] t (by simp [ht])
        simp at this
    have ih := splitGo_first sep hsep a b (x :: cur) (by
      intro a' b' e
      have := h (x :: a') b' (by simp [e] )
      simpa using this)
    have e : (x :: a) ++ sep ++ b = x :: (a ++ sep ++ b) := by simp
    rw [e, splitGo, if_neg (by rw [hp]; simp), ih]
    simp

theorem splitGo_char_append (c : Char) :
    ∀ (p f cur : JsString),
      splitGo [c] (p ++ c :: f) 0 cur = splitGo [c] p 0 cur ++ splitGo [c] f 0 []
  | [], f, cur => by simp [splitGo]
  | x :: xs, f, cur => by
    by_cases hx : c = x
    · subst hx
      simp [splitGo, splitGo_char_append c xs f []]
    · simp [splitGo, hx, splitGo_char_append c xs f (x :: cur)]

theorem splitGo_char_notin (c : Char) :
    ∀ (s cur : JsString), c ∉ s → splitGo [c] s 0 cur = [cur.reverse ++ s]
  | [], cur, _ => by simp [splitGo]
  | x :: xs, cur, h => by
    have hx : ¬ c = x := fun e => h (by simp [e])
    have hxs : c ∉ xs := fun e => h (by simp [e])
    simp [splitGo, hx, splitGo_char_notin c xs (x :: cur) hxs]

theorem split_char_notin (c : Char) (s : JsString) (h : c ∉ s) : split s [c] = [s] := by
  simp [split, splitGo_char_notin c s [] h]

theorem split_char_append (c : Char) (p f : JsString) :
    split (p ++ c :: f) [c] = split p [c] ++ split f [c] := by
  simp [split, splitGo_char_append]

theorem split_char_cons (c : Char) (a b : JsString) (h : c ∉ a) :
    split (a ++ c :: b) [c] = a :: split b [c] := by
  rw [split_char_append, split_char_notin c a h]; rfl

theorem splitGo_ne_nil (sep : JsString) : ∀ (s : JsString) (k : Nat) (cur : JsString),
    splitGo sep s k cur ≠ []
  | [], _, _ => by simp [splitGo]
  | _ :: cs, k + 1, cur => by rw [splitGo]; exact splitGo_ne_nil sep cs k cur
  | c :: cs, 0, cur => by
    rw [splitGo]; split
    · simp
    · exact splitGo_ne_nil sep cs 0 (c :: cur)

theorem split_ne_nil (s sep : JsString) : split s sep ≠ [] := splitGo_ne_nil sep s 0 []

theorem splitGo_char_mem (c : Char) :
    ∀ (s cur : JsString), c ∉ cur → ∀ l ∈ splitGo [c] s 0 cur, c ∉ l
  | [], cur, hc, l, hl => by
    simp [splitGo] at hl; subst hl; simpa using hc
  | x :: xs, cur, hc, l, hl => by
    by_cases hx : c = x
    · subst hx
      simp [splitGo] at hl
      rcases hl with rfl | hl
      · simpa using hc
      · exact splitGo_char_mem c xs [] (by simp) l hl
    · simp [splitGo, hx] at hl
      exact splitGo_char_mem c xs (x :: cur) (by simp [hx, hc]) l hl

theorem split_char_mem (c : Char) (s : JsString) : ∀ l ∈ split s [c], c ∉ l :=
  splitGo_char_mem c s [] (by simp)

theorem join_splitGo_char (c : Char) :
    ∀ (s cur : JsString), join [c] (splitGo [c] s 0 cur) = cur.reverse ++ s
  | [], cur => by simp [splitGo, join]
  | x :: xs, cur => by
    by_cases hx : c = x
    · subst hx
      have := join_splitGo_char c xs []
      obtain ⟨y, ys, hy⟩ := List.exists_cons_of_ne_nil (splitGo_ne_nil [c] xs 0 [])
      rw [hy] at this
      simp [splitGo, hy, join, this]
    · simp [splitGo, hx, join_splitGo_char c xs (x :: cur)]

theorem join_split_char (c : Char) (s : JsString) : join [c] (split s [c]) = s := by
  simp [split, join_splitGo_char]

theorem includes_iff_substring : ∀ (s t : JsString), includes s t = true ↔ t <:+: s
  | [], t => by
    cases t <;> simp [includes, indexOf]
  | c :: cs, t => by
    have ih := includes_iff_substring cs t
    simp only [includes] at ih
    rw [List.infix_cons_iff, ← ih, ← List.isPrefixOf_iff_prefix]
    simp only [includes, indexOf]
    split <;> simp_all

theorem includes_char (s : JsString) (c : Char) : includes s [c] = true ↔ c ∈ s := by
  rw [includes_iff_substring]
  constructor
  · rintro ⟨a, b, rfl⟩; simp
  · intro h
    obtain ⟨a, b, rfl⟩ := List.append_of_mem h
    exact ⟨a, b, by simp⟩

theorem replaceFirst_notin (l : JsString) (c : Char) (h : c ∉ l) : replaceFirst l c = l :=
  List.erase_of_not_mem h

theorem replaceFirst_first (a b : JsString) (c : Char) (h : c ∉ a) :
    replaceFirst (a ++ c :: b) c = a ++ b := by
  simp [replaceFirst, List.erase_append_right _ h]

/-! ## Paths -/

theorem validName_iff (f : JsString) :
    validName f = true ↔ f ≠ [] ∧ '/' ∉ f ∧ f ≠ ['.'] ∧ f ≠ ['.', '.'] := by
  simp [validName]

theorem normalizeStep_valid (allow : Bool) (res : List JsString) (f : JsString)
    (hf : validName f = true) : normalizeStep allow res f = f :: res := by
  obtain ⟨h1, _, h3, h4⟩ := (validName_iff f).mp hf
  rw [normalizeStep.eq_def, if_neg (by rintro (h | h) <;> contradiction), if_neg h4]

theorem GoodStack.no_slash (allow : Bool) :
    ∀ stk : List JsString, GoodStack allow stk → ∀ x ∈ stk, x ≠ [] ∧ '/' ∉ x
  | [], _, x, hx => absurd hx (List.not_mem_nil _)
  | top :: below, h, x, hx => by
    rcases List.mem_cons.mp hx with rfl | hx
    · rcases h.2 with hv | ⟨rfl, _, _⟩
      · exact ⟨((validName_iff _).mp hv).1, ((validName_iff _).mp hv).2.1⟩
      · exact ⟨by decide, by decide⟩
    · exact GoodStack.no_slash allow below h.1 x hx

theorem normalizeStep_good (allow : Bool) (res : List JsString) (seg : JsString)
    (hres : GoodStack allow res) (hseg : '/' ∉ seg) :
    GoodStack allow (normalizeStep allow res seg) := by
  rw [normalizeStep.eq_def]
  split
  · exact hres
  · next h1 =>
    split
    · next h2 =>
      subst h2
      cases res with
      | nil =>
        cases allow
        · exact trivial
        · exact ⟨trivial, Or.inr ⟨rfl, rfl, fun x hx => absurd hx (List.not_mem_nil _)⟩⟩
      | cons top below =>
        dsimp only
        split
        · next ht =>
          subst ht
          cases allow
          · exact hres
          · refine ⟨hres, Or.inr ⟨rfl, rfl, ?_⟩⟩
            intro x hx
            rcases List.mem_cons.mp hx with rfl | hx
            · rfl
            · rcases hres.2 with hv | ⟨_, _, hall⟩
              · exact absurd hv (by decide)
              · exact hall x hx
        · exact hres.1
    · next h2 =>
      refine ⟨hres, Or.inl ?_⟩
      rw [validName_iff]
      exact ⟨fun e => h1 (Or.inl e), hseg, fun e => h1 (Or.inr e), h2⟩

theorem foldl_normalizeStep_good (allow : Bool) :
    ∀ (segs : List JsString) (res : List JsString), (∀ s ∈ segs, '/' ∉ s) →
      GoodStack allow res → GoodStack allow (segs.foldl (normalizeStep allow) res)
  | [], _, _, h => h
  | seg :: segs, res, hs, h => by
    rw [List.foldl_cons]
    exact foldl_normalizeStep_good allow segs _ (fun s hs' => hs s (List.mem_cons_of_mem _ hs'))
      (normalizeStep_good allow res seg h (hs seg (List.mem_cons_self _ _)))

/-- Replaying kept segments through `normalizeString` keeps them all. -/
theorem foldl_normalizeStep_replay (allow : Bool) :
    ∀ stk : List JsString, GoodStack allow stk →
      stk.reverse.foldl (normalizeStep allow) [] = stk
  | [], _ => rfl
  | top :: below, h => by
    rw [List.reverse_cons, List.foldl_append, foldl_normalizeStep_replay allow below h.1]
    rcases h.2 with hv | ⟨rfl, ha, hall⟩
    · simp [normalizeStep_valid allow below top hv]
    · subst ha
      cases below with
      | nil => rfl
      | cons t b =>
        have := hall t (List.mem_cons_self _ _)
        subst this
        rfl

theorem split_join_slash :
    ∀ st : List JsString, st ≠ [] → (∀ s ∈ st, '/' ∉ s) → split (join ['/'] st) ['/'] = st
  | [], h, _ => absurd rfl h
  | [x], _, hs => by
    rw [join]; exact split_char_notin _ _ (hs x (List.mem_cons_self _ _))
  | x :: y :: rest, _, hs => by
    rw [join]
    have := split_join_slash (y :: rest) (by simp)
      (fun s h => hs s (List.mem_cons_of_mem _ h))
    simp only [List.append_assoc, List.singleton_append]
    rw [split_char_cons _ _ _ (hs x (List.mem_cons_self _ _)), this]

theorem join_head (x : JsString) (hx : x ≠ []) :
    ∀ rest : List JsString, (join ['/'] (x :: rest)).head? = x.head?
  | [] => rfl
  | y :: rest => by
    rw [join]
    obtain ⟨c, cs, rfl⟩ := List.exists_cons_of_ne_nil hx
    rfl

theorem join_ne_nil (x : JsString) (hx : x ≠ []) (rest : List JsString) :
    join ['/'] (x :: rest) ≠ [] := by
  intro h
  have := join_head x hx rest
  rw [h] at this
  obtain ⟨c, cs, rfl⟩ := List.exists_cons_of_ne_nil hx
  simp at this

theorem pathSegments_good (p : JsString) :
    GoodStack (!decide (p.head? = some '/'))
      ((split p ['/']).foldl (normalizeStep (!decide (p.head? = some '/'))) []) :=
  foldl_normalizeStep_good _ _ _ (split_char_mem '/' p) trivial

theorem getLast_ne_slash (f : JsString) (hf : '/' ∉ f) (hne : f ≠ []) (p : JsString) :
    (p ++ f).getLast? ≠ some '/' := by
  rw [List.getLast?_append_of_ne_nil _ hne]
  intro h
  exact hf (List.mem_of_getLast?_eq_some h)

theorem head_append_of_ne_nil (p q : JsString) (hp : p ≠ []) : (p ++ q).head? = p.head? := by
  obtain ⟨c, cs, rfl⟩ := List.exists_cons_of_ne_nil hp
  rfl

theorem normalize_append_valid (p f : JsString) (hf : validName f = true) :
    normalize (p ++ '/' :: f) =
      (if p.head? = some '/' ∨ p = [] then ['/'] else []) ++
        join ['/'] ((((split p ['/']).foldl
          (normalizeStep (!decide (p.head? = some '/' ∨ p = []))) []).reverse) ++ [f]) := by
  obtain ⟨h1, h2, _, _⟩ := (validName_iff f).mp hf
  have hhead : (p ++ '/' :: f).head? = some '/' ↔ (p.head? = some '/' ∨ p = []) := by
    cases p with
    | nil => simp
    | cons c cs => simp
  have hlast : ¬ (p ++ '/' :: f).getLast? = some '/' := by
    have := getLast_ne_slash f h2 h1 (p ++ ['/'])
    simpa using this
  have hsegs : normalizeSegments (!decide ((p ++ '/' :: f).head? = some '/')) (p ++ '/' :: f) =
      ((split p ['/']).foldl
          (normalizeStep (!decide (p.head? = some '/' ∨ p = []))) []).reverse ++ [f] := by
    have e : decide ((p ++ '/' :: f).head? = some '/') = decide (p.head? = some '/' ∨ p = []) :=
      decide_eq_decide.mpr hhead
    rw [normalizeSegments, e, split_char_append, split_char_notin _ _ h2, List.foldl_append]
    simp [normalizeStep_valid _ _ f hf]
  have hres : join ['/'] (((split p ['/']).foldl
      (normalizeStep (!decide (p.head? = some '/' ∨ p = []))) []).reverse ++ [f]) ≠ [] := by
    cases hr : ((split p ['/']).foldl
      (normalizeStep (!decide (p.head? = some '/' ∨ p = []))) []).reverse with
    | nil => simpa [join] using h1
    | cons x rest =>
      have hg : GoodStack (!decide (p.head? = some '/' ∨ p = []))
          ((split p ['/']).foldl (normalizeStep (!decide (p.head? = some '/' ∨ p = []))) []) :=
        foldl_normalizeStep_good _ _ _ (split_char_mem '/' p) trivial
      have hx : x ≠ [] := by
        have hmem : x ∈ (split p ['/']).foldl
            (normalizeStep (!decide (p.head? = some '/' ∨ p = []))) [] := by
          rw [← List.mem_reverse, hr]; exact List.mem_cons_self _ _
        exact (GoodStack.no_slash _ _ hg x hmem).1
      exact join_ne_nil x hx _
  rw [normalize, if_neg (by simp)]
  simp only [hsegs]
  rw [if_neg hres]
  simp only [hhead, hlast, if_false, List.append_nil]

theorem head_ne_slash_of_valid (f : JsString) (hf : validName f = true) :
    ¬ f.head? = some '/' := by
  obtain ⟨_, h2, _, _⟩ := (validName_iff f).mp hf
  intro h
  exact h2 (List.mem_of_mem_head? (by rw [h]; rfl))

theorem normalize_valid (f : JsString) (hf : validName f = true) : normalize f = f := by
  obtain ⟨h1, h2, _, _⟩ := (validName_iff f).mp hf
  have hhead := head_ne_slash_of_valid f hf
  have hlast : ¬ f.getLast? = some '/' := by
    have := getLast_ne_slash f h2 h1 []
    simpa using this
  have hsegs : normalizeSegments (!decide (f.head? = some '/')) f = [f] := by
    rw [normalizeSegments, split_char_notin _ _ h2]
    simp [normalizeStep_valid _ _ f hf]
  rw [normalize, if_neg h1]
  simp only [hsegs]
  simp only [join, if_neg h1, hhead, hlast, if_false, List.nil_append, List.append_nil]

/-- Joining a directory-entry name to a path appends it to the segments the
path normalises to. -/
theorem pathJoin_valid (p f : JsString) (hf : validName f = true) :
    pathJoin p f =
      (if p.head? = some '/' then ['/'] else []) ++ join ['/'] (pathSegments p ++ [f]) := by
  obtain ⟨h1, _, _, _⟩ := (validName_iff f).mp hf
  by_cases hp : p = []
  · subst hp
    rw [pathJoin, if_pos rfl, if_neg h1, normalize_valid f hf]
    rfl
  · rw [pathJoin, if_neg hp, if_neg h1, normalize_append_valid p f hf]
    have e : (p.head? = some '/' ∨ p = []) ↔ p.head? = some '/' :=
      ⟨fun h => h.elim id (fun h => absurd h hp), Or.inl⟩
    simp only [e]
    rfl

theorem pathJoin_head (p f : JsString) (hf : validName f = true) :
    (pathJoin p f).head? = some '/' ↔ p.head? = some '/' := by
  rw [pathJoin_valid p f hf]
  by_cases hp : p.head? = some '/'
  · simp [hp]
  · simp only [hp, if_false, List.nil_append, iff_false]
    have hg := pathSegments_good p
    cases hr : pathSegments p with
    | nil =>
      simpa [join] using head_ne_slash_of_valid f hf
    | cons x rest =>
      have hmem : x ∈ (split p ['/']).foldl
          (normalizeStep (!decide (p.head? = some '/'))) [] := by
        have : x ∈ pathSegments p := by rw [hr]; exact List.mem_cons_self _ _
        rw [pathSegments, normalizeSegments] at this
        exact List.mem_reverse.mp this
      have hx := GoodStack.no_slash _ _ hg x hmem
      rw [List.cons_append, join_head x hx.1]
      intro h
      exact hx.2 (List.mem_of_mem_head? (by rw [h]; rfl))

theorem pathSegments_pathJoin (p f : JsString) (hf : validName f = true) :
    pathSegments (pathJoin p f) = pathSegments p ++ [f] := by
  have hhead := pathJoin_head p f hf
  have hd : decide ((pathJoin p f).head? = some '/') = decide (p.head? = some '/') :=
    decide_eq_decide.mpr hhead
  have hg := pathSegments_good p
  have hrep := foldl_normalizeStep_replay _ _ hg
  have hslash : ∀ s ∈ pathSegments p ++ [f], '/' ∉ s := by
    intro s hs
    rcases List.mem_append.mp hs with hs | hs
    · rw [pathSegments, normalizeSegments] at hs
      exact (GoodStack.no_slash _ _ hg s (List.mem_reverse.mp hs)).2
    · rw [List.mem_singleton.mp hs]
      exact ((validName_iff f).mp hf).2.1
  have hsplit := split_join_slash (pathSegments p ++ [f]) (by simp) hslash
  have hfold : (pathSegments p ++ [f]).foldl (normalizeStep (!decide (p.head? = some '/'))) [] =
      f :: (split p ['/']).foldl (normalizeStep (!decide (p.head? = some '/'))) [] := by
    rw [List.foldl_append]
    have : pathSegments p = ((split p ['/']).foldl
        (normalizeStep (!decide (p.head? = some '/'))) []).reverse := rfl
    rw [this, hrep]
    simp [normalizeStep_valid _ _ f hf]
  conv_lhs => rw [pathSegments, normalizeSegments, hd, pathJoin_valid p f hf]
  by_cases hp : p.head? = some '/'
  · rw [if_pos hp]
    have : (['/'] : JsString) ++ join ['/'] (pathSegments p ++ [f]) =
        [] ++ '/' :: join ['/'] (pathSegments p ++ [f]) := rfl
    rw [this, split_char_cons _ _ _ (by simp), hsplit, List.foldl_cons]
    have e : normalizeStep (!decide (p.head? = some '/')) [] [] = [] := by
      simp [normalizeStep]
    rw [e, hfold]
    simp [pathSegments, normalizeSegments]
  · rw [if_neg hp, List.nil_append, hsplit, hfold]
    simp [pathSegments, normalizeSegments]

/-- The link to a folder's index document is the folder name, `/`, and the
index file name. -/
theorem pathJoin_toc (folder : JsString) (hf : validName folder = true) :
    pathJoin folder TOC_FILE_NAME = folder ++ '/' :: TOC_FILE_NAME := by
  have h2 := ((validName_iff folder).mp hf).2.1
  rw [pathJoin_valid folder TOC_FILE_NAME (by decide),
    if_neg (head_ne_slash_of_valid folder hf)]
  have : pathSegments folder = [folder] := by
    rw [pathSegments, normalizeSegments, split_char_notin _ _ h2]
    simp [normalizeStep_valid _ _ folder hf]
  rw [this]
  simp [join]

/-! ## The exclusion list -/

/-- C9, as stated, fails: for the one-line text `build/` the list holds
`build`, where stripping only a leading separator would keep `build/`. -/
theorem excludedArray_strips_inner_slash :
    excludedArrayOfText "build/".toList = ["build".toList] ∧
      excludedArrayOfText "build/".toList ≠ excludedArrayAsDescribed "build/".toList := by
  decide

/-- C9, amended: the exclusion list is made of the newline-separated lines of
the text (`lines` joined by newlines give the text back and no line holds a
newline), with the empty lines and the lines containing `#` dropped, and with
the first `/` of each remaining line removed wherever it stands: a line
without `/` is unchanged, and `a/b` with no `/` in `a` becomes `ab`. -/
theorem excludedArray_lines (text : JsString) :
    ∃ lines : List JsString,
      lines ≠ [] ∧ join ['\n'] lines = text ∧ (∀ l ∈ lines, '\n' ∉ l) ∧
      excludedArrayOfText text =
        (lines.filter (fun l => decide (l ≠ [] ∧ '#' ∉ l))).map (fun l => replaceFirst l '/') ∧
      (∀ l : JsString, '/' ∉ l → replaceFirst l '/' = l) ∧
      (∀ a b : JsString, '/' ∉ a → replaceFirst (a ++ '/' :: b) '/' = a ++ b) := by
  refine ⟨split text ['\n'], split_ne_nil _ _, join_split_char _ _, split_char_mem _ _, ?_,
    fun l h => replaceFirst_notin l '/' h, fun a b h => replaceFirst_first a b '/' h⟩
  unfold excludedArrayOfText
  congr 1
  apply List.filter_congr
  intro l _
  have := includes_char l '#'
  by_cases h : '#' ∈ l
  · simp [h, this.mpr h]
  · have h2 : includes l ['#'] = false := by
      cases hb : includes l ['#'] with
      | false => rfl
      | true => exact absurd (this.mp hb) h
    cases l <;> simp [h, h2]

/-- C10, as stated, fails: on a file system without any file the read
throws and there is no exclusion list, empty or not. -/
theorem excludedArray_missing_file_throws :
    excludedArray (fun _ => none) "/repo".toList ≠ some [] := by
  decide

/-- C10, amended: when `.gitignore` does not exist in the working directory
the read throws and the error propagates (no exclusion list is built); an
existing `.gitignore` without text yields the empty exclusion list. -/
theorem excludedArray_missing_or_empty (readFileSync : JsString → Option JsString)
    (cwd : JsString) :
    (readFileSync (pathJoin cwd ".gitignore".toList) = none →
        excludedArray readFileSync cwd = none) ∧
      (readFileSync (pathJoin cwd ".gitignore".toList) = some [] →
        excludedArray readFileSync cwd = some []) := by
  constructor
  · intro h; rw [excludedArray, h]; rfl
  · intro h; rw [excludedArray, h]; rfl

/-- At a working directory without `.gitignore` the list is not built, and at
one with an empty `.gitignore` it is empty. -/
theorem excludedArray_missing_or_empty_witness :
    excludedArray (fun _ => none) "/repo".toList = none ∧
      excludedArray (fun _ => some []) "/repo".toList = some [] :=
  ⟨(excludedArray_missing_or_empty (fun _ => none) "/repo".toList).1 rfl,
    (excludedArray_missing_or_empty (fun _ => some []) "/repo".toList).2 rfl⟩

/-! ## Titles -/

theorem NBSP_ne_nil : NBSP ≠ [] := by decide

theorem split_first (sep : JsString) (hsep : sep ≠ []) (a b : JsString)
    (h : ∀ a' b', a ++ sep ++ b = a' ++ sep ++ b' → a.length ≤ a'.length) :
    split (a ++ sep ++ b) sep = a :: split b sep := by
  simpa [split] using splitGo_first sep hsep a b [] h

theorem split_none (sep : JsString) (hsep : sep ≠ []) (s : JsString) (h : ¬ sep <:+: s) :
    split s sep = [s] := by
  simpa [split] using splitGo_none sep hsep s [] h

theorem firstLine_eq (text line : JsString) (hnl : '\n' ∉ line)
    (h : text = line ∨ ∃ rest, text = line ++ '\n' :: rest) :
    (split text ['\n']).headD [] = line := by
  rcases h with rfl | ⟨rest, rfl⟩
  · rw [split_char_notin _ _ hnl]; rfl
  · rw [split_char_cons _ _ _ hnl]; rfl

/-- C6, as stated, fails: when the separator occurs twice in the first line
the title stops before the second occurrence instead of running to the end of
the line (for `# &nbsp; A &nbsp; B` it is `A`). -/
theorem titleOf_stops_at_second_separator :
    ¬ ∀ (text line a b : JsString), '\n' ∉ line →
        (text = line ∨ ∃ rest, text = line ++ '\n' :: rest) →
        line = a ++ NBSP ++ b →
        (∀ a' b', line = a' ++ NBSP ++ b' → a.length ≤ a'.length) →
        titleOf text = some b := by
  intro h
  have h1 := h "# &nbsp; A &nbsp; B".toList "# &nbsp; A &nbsp; B".toList "#".toList
    "A &nbsp; B".toList (by decide) (Or.inl rfl) (by decide)
    (by
      intro a' b' e
      cases a' with
      | nil => exact absurd e (by simp [NBSP])
      | cons x xs => simp)
  exact absurd h1 (by decide)

/-- C6, amended: for a document whose first line `line` contains the
separator, first at `line = a ++ " &nbsp; " ++ b`, the title is the part of `b`
before the next occurrence of the separator in `b`: all of `b`, up to the end
of the line, when `b` does not contain the separator, and `c` when the
separator occurs in `b` first at `b = c ++ " &nbsp; " ++ d`. -/
theorem titleOf_second_segment (text line a b : JsString)
    (hnl : '\n' ∉ line) (hline : text = line ∨ ∃ rest, text = line ++ '\n' :: rest)
    (hsep : line = a ++ NBSP ++ b)
    (hfirst : ∀ a' b', line = a' ++ NBSP ++ b' → a.length ≤ a'.length) :
    (¬ NBSP <:+: b → titleOf text = some b) ∧
      (∀ c d, b = c ++ NBSP ++ d →
        (∀ c' d', b = c' ++ NBSP ++ d' → c.length ≤ c'.length) → titleOf text = some c) := by
  subst hsep
  have h1 : split (a ++ NBSP ++ b) NBSP = a :: split b NBSP :=
    split_first NBSP NBSP_ne_nil a b hfirst
  constructor
  · intro hb
    rw [titleOf, firstLine_eq text _ hnl hline, h1, split_none NBSP NBSP_ne_nil b hb]
    rfl
  · intro c d hcd hc
    subst hcd
    rw [titleOf, firstLine_eq text _ hnl hline, h1, split_first NBSP NBSP_ne_nil c d hc]
    rfl

/-- The title of a document starting with the line `# &nbsp; A &nbsp; B` is `A`. -/
theorem titleOf_second_segment_witness :
    titleOf "# &nbsp; A &nbsp; B\nmore".toList = some "A".toList :=
  (titleOf_second_segment "# &nbsp; A &nbsp; B\nmore".toList "# &nbsp; A &nbsp; B".toList
    "#".toList "A &nbsp; B".toList (by decide) (Or.inr ⟨"more".toList, by decide⟩) (by decide)
    (by
      intro a' b' h
      cases a' with
      | nil => exact absurd h (by simp [NBSP])
      | cons x xs => simp)).2 "A".toList "B".toList (by decide)
    (by
      intro c' d' h
      cases c' with
      | nil => exact absurd h (by simp [NBSP])
      | cons x xs => simp)

/-! ## Plain objects -/

theorem JsObject.get_nil {α : Type} (k : JsString) :
    JsObject.get ([] : JsObject α) k = none := rfl

theorem JsObject.get_cons {α : Type} (p : JsString × α) (rest : JsObject α) (k : JsString) :
    JsObject.get (p :: rest) k = if p.1 = k then some p.2 else JsObject.get rest k := by
  unfold JsObject.get
  by_cases hp : p.1 = k
  · rw [List.find?_cons_of_pos _ (by simpa using hp), if_pos hp]; rfl
  · rw [List.find?_cons_of_neg _ (by simpa using hp), if_neg hp]

theorem JsObject.keys_cons {α : Type} (p : JsString × α) (rest : JsObject α) :
    JsObject.keys (p :: rest) = p.1 :: JsObject.keys rest := rfl

theorem JsObject.get_some_mem_keys {α : Type} (o : JsObject α) (k : JsString) (v : α)
    (h : JsObject.get o k = some v) : k ∈ JsObject.keys o := by
  induction o with
  | nil => exact absurd h (by rw [JsObject.get_nil]; exact Option.noConfusion)
  | cons p rest ih =>
    rw [JsObject.get_cons] at h
    rw [JsObject.keys_cons]
    by_cases hp : p.1 = k
    · exact hp ▸ List.mem_cons_self _ _
    · rw [if_neg hp] at h
      exact List.mem_cons_of_mem _ (ih h)

theorem JsObject.has_iff_mem_keys {α : Type} (o : JsObject α) (k : JsString) :
    JsObject.has o k = true ↔ k ∈ JsObject.keys o := by
  unfold JsObject.has JsObject.keys
  rw [List.any_eq_true, List.mem_map]
  constructor
  · rintro ⟨p, hp, hk⟩; exact ⟨p, hp, by simpa using hk⟩
  · rintro ⟨p, hp, hk⟩; exact ⟨p, hp, by simpa using hk⟩

theorem JsObject.insertIndex_perm {α : Type} (n : Nat) (k : JsString) (v : α) :
    ∀ o : JsObject α, (JsObject.insertIndex n k v o).Perm ((k, v) :: o)
  | [] => List.Perm.refl _
  | p :: rest => by
    rw [JsObject.insertIndex]
    split
    · split
      · exact ((JsObject.insertIndex_perm n k v rest).cons p).trans (List.Perm.swap _ _ _)
      · exact List.Perm.refl _
    · exact List.Perm.refl _

theorem JsObject.set_perm {α : Type} (o : JsObject α) (k : JsString) (v : α)
    (h : k ∉ JsObject.keys o) : (JsObject.set o k v).Perm ((k, v) :: o) := by
  have hh : JsObject.has o k = false := by
    cases hb : JsObject.has o k with
    | false => rfl
    | true => exact absurd ((JsObject.has_iff_mem_keys o k).mp hb) h
  rw [JsObject.set, hh]
  simp only [Bool.false_eq_true, if_false]
  split
  · exact JsObject.insertIndex_perm _ k v o
  · exact List.perm_append_comm

theorem JsObject.set_of_mem {α : Type} (o : JsObject α) (k : JsString) (v : α)
    (h : k ∈ JsObject.keys o) :
    JsObject.set o k v = o.map (fun p => if p.1 = k then (k, v) else p) := by
  rw [JsObject.set, (JsObject.has_iff_mem_keys o k).mpr h]; rfl

theorem JsObject.keys_set_of_mem {α : Type} (o : JsObject α) (k : JsString) (v : α)
    (h : k ∈ JsObject.keys o) : JsObject.keys (JsObject.set o k v) = JsObject.keys o := by
  rw [JsObject.set_of_mem o k v h]
  unfold JsObject.keys
  rw [List.map_map]
  apply List.map_congr_left
  intro p _
  by_cases hp : p.1 = k <;> simp [hp]

theorem JsObject.mem_keys_set {α : Type} (o : JsObject α) (k : JsString) (v : α) (k' : JsString) :
    k' ∈ JsObject.keys (JsObject.set o k v) ↔ k' = k ∨ k' ∈ JsObject.keys o := by
  by_cases h : k ∈ JsObject.keys o
  · rw [JsObject.keys_set_of_mem o k v h]
    constructor
    · exact Or.inr
    · rintro (rfl | h') <;> assumption
  · have := (JsObject.set_perm o k v h).map Prod.fst
    unfold JsObject.keys
    rw [this.mem_iff, List.map_cons, List.mem_cons]

theorem JsObject.mem_set {α : Type} (o : JsObject α) (k : JsString) (v : α) (p : JsString × α)
    (hp : p ∈ JsObject.set o k v) : p = (k, v) ∨ p ∈ o := by
  by_cases h : k ∈ JsObject.keys o
  · rw [JsObject.set_of_mem o k v h, List.mem_map] at hp
    obtain ⟨q, hq, rfl⟩ := hp
    by_cases hqk : q.1 = k
    · left; simp [hqk]
    · right; simpa [hqk] using hq
  · have := @List.Perm.mem_iff _ p _ _ (JsObject.set_perm o k v h)
    rw [this] at hp
    simpa using hp

theorem JsObject.get_perm {α : Type} {o o' : JsObject α} (h : o.Perm o')
    (hn : (JsObject.keys o).Nodup) (k : JsString) : JsObject.get o k = JsObject.get o' k := by
  induction h with
  | nil => rfl
  | cons p _ ih =>
    rw [JsObject.get_cons, JsObject.get_cons, ih (List.nodup_cons.mp hn).2]
  | swap p q l =>
    rw [JsObject.get_cons, JsObject.get_cons, JsObject.get_cons, JsObject.get_cons]
    have hne : q.1 ≠ p.1 := by
      intro e
      have := (List.nodup_cons.mp hn).1
      exact this (by rw [e]; exact List.mem_cons_self _ _)
    by_cases h1 : p.1 = k
    · have h2 : ¬ q.1 = k := fun e => hne (e.trans h1.symm)
      simp [h1, h2]
    · simp [h1]
  | trans h1 _ ih1 ih2 =>
    rw [ih1 hn, ih2 ((h1.map Prod.fst).nodup_iff.mp hn)]

theorem JsObject.get_eq_none {α : Type} (o : JsObject α) (k : JsString)
    (h : k ∉ JsObject.keys o) : JsObject.get o k = none := by
  cases hg : JsObject.get o k with
  | none => rfl
  | some v => exact absurd (JsObject.get_some_mem_keys o k v hg) h

theorem JsObject.get_map_replace {α : Type} (k : JsString) (v : α) (k' : JsString) :
    ∀ o : JsObject α, k ∈ JsObject.keys o →
      JsObject.get (o.map (fun p => if p.1 = k then (k, v) else p)) k' =
        if k' = k then some v else JsObject.get o k'
  | [], h => absurd h (List.not_mem_nil _)
  | p :: rest, h => by
    rw [List.map_cons, JsObject.get_cons, JsObject.get_cons]
    by_cases hp : p.1 = k
    · by_cases e : k' = k
      · simp [hp, e]
      · have e' : ¬ k = k' := fun x => e x.symm
        have ih : JsObject.get (rest.map (fun p => if p.1 = k then (k, v) else p)) k' =
            JsObject.get rest k' := by
          by_cases hr : k ∈ JsObject.keys rest
          · rw [JsObject.get_map_replace k v k' rest hr, if_neg e]
          · have : rest.map (fun p => if p.1 = k then (k, v) else p) = rest := by
              conv_rhs => rw [← List.map_id rest]
              apply List.map_congr_left
              intro q hq
              have : ¬ q.1 = k := fun x => hr (x ▸ List.mem_map.mpr ⟨q, hq, rfl⟩)
              simp [this]
            rw [this]
        simp [hp, e, e', ih]
    · have hr : k ∈ JsObject.keys rest := by
        rw [JsObject.keys_cons] at h
        rcases List.mem_cons.mp h with h | h
        · exact absurd h.symm hp
        · exact h
      have ih := JsObject.get_map_replace k v k' rest hr
      by_cases e : k' = k
      · have : ¬ p.1 = k' := fun x => hp (x.trans e)
        simpa [hp, e, this] using ih
      · simp [hp, e, ih]

theorem JsObject.get_set {α : Type} (o : JsObject α) (k : JsString) (v : α) (k' : JsString)
    (hn : (JsObject.keys o).Nodup) :
    JsObject.get (JsObject.set o k v) k' = if k' = k then some v else JsObject.get o k' := by
  by_cases h : k ∈ JsObject.keys o
  · rw [JsObject.set_of_mem o k v h, JsObject.get_map_replace k v k' o h]
  · have hp := JsObject.set_perm o k v h
    have hn' : (JsObject.keys (JsObject.set o k v)).Nodup := by
      unfold JsObject.keys
      rw [(hp.map Prod.fst).nodup_iff, List.map_cons]
      exact List.nodup_cons.mpr ⟨h, hn⟩
    rw [JsObject.get_perm hp hn', JsObject.get_cons]
    by_cases e : k' = k
    · simp [e]
    · have : ¬ k = k' := fun x => e x.symm
      simp [e, this]

/-! ## The tree scanner -/

theorem excludedArrayContains_iff (excludedArray : List JsString) (fullFilePath : JsString) :
    excludedArrayContains excludedArray fullFilePath = true ↔ fullFilePath ∈ excludedArray := by
  simp [excludedArrayContains]

theorem TreeNode.mk_files_folders (t : TreeNode) : TreeNode.mk t.files t.folders = t := by
  cases t; rfl

theorem TreeNode.files_mk (files : List JsString) (folders : List (JsString × TreeNode)) :
    (TreeNode.mk files folders).files = files := rfl

theorem TreeNode.folders_mk (files : List JsString) (folders : List (JsString × TreeNode)) :
    (TreeNode.mk files folders).folders = folders := rfl

theorem scanDirectory_files (excludedArray : List JsString) (includeText : JsString)
    (excludes : List JsString) (fullFilePath fileName : JsString) (entry : FsEntry)
    (result : TreeNode) :
    (scanDirectory excludedArray includeText excludes fullFilePath fileName entry result).files =
      result.files := by
  cases entry with
  | file content => rw [scanDirectory]
  | dir children =>
    rw [scanDirectory]
    split <;> rfl

theorem scanDirectory_folders (excludedArray : List JsString) (includeText : JsString)
    (excludes : List JsString) (startPath fileName : JsString) (entry : FsEntry)
    (result : TreeNode)
    (hex : excludedArrayContains excludedArray (pathJoin startPath fileName) = false) :
    (scanDirectory excludedArray includeText excludes (pathJoin startPath fileName) fileName
        entry result).folders =
      match keptFolder excludedArray includeText excludes startPath (fileName, entry) with
      | some p => JsObject.set result.folders p.1 p.2
      | none => result.folders := by
  cases entry with
  | file content => rw [scanDirectory]; rfl
  | dir children =>
    rw [scanDirectory]
    simp only [keptFolder, hex]
    split <;> simp_all [TreeNode.folders_mk]

/-- The result of the scan loop in closed form: the files are those of the
accumulator followed by the names that pass the three tests, in listing order,
and the folders are those of the accumulator with the kept sub-directories
assigned in listing order. -/
theorem scanLoop_eq (excludedArray : List JsString) (includeText : JsString)
    (excludes : List JsString) (startPath : JsString) :
    ∀ (filePaths : List (JsString × FsEntry)) (result : TreeNode),
      scanLoop excludedArray includeText excludes startPath filePaths result =
        .mk (result.files ++
            (filePaths.map Prod.fst).filter (pushesFile excludedArray includeText startPath))
          ((filePaths.filterMap (keptFolder excludedArray includeText excludes startPath)).foldl
            (fun o p => JsObject.set o p.1 p.2) result.folders)
  | [], result => by cases result; simp [scanLoop, TreeNode.files, TreeNode.folders]
  | (fileName, entry) :: filePaths, result => by
    rw [scanLoop]
    by_cases hex : excludedArrayContains excludedArray (pathJoin startPath fileName) = true
    · rw [if_pos hex, scanLoop_eq excludedArray includeText excludes startPath filePaths result]
      have h1 : pushesFile excludedArray includeText startPath fileName = false := by
        simp [pushesFile, hex]
      have h2 : keptFolder excludedArray includeText excludes startPath (fileName, entry) =
          none := by
        cases entry <;> simp [keptFolder, hex]
      simp [h1, h2]
    · rw [if_neg hex, scanLoop_eq excludedArray includeText excludes startPath filePaths _]
      have hex' : excludedArrayContains excludedArray (pathJoin startPath fileName) = false := by
        simpa using hex
      have hfo := scanDirectory_folders excludedArray includeText excludes startPath fileName
        entry result hex'
      have hfi := scanDirectory_files excludedArray includeText excludes
        (pathJoin startPath fileName) fileName entry result
      by_cases hp : pushesFile excludedArray includeText startPath fileName = true
      · have hp' := hp
        simp only [pushesFile, hex', Bool.not_false, Bool.true_and, Bool.and_eq_true,
          decide_eq_true_eq] at hp'
        dsimp only
        rw [if_pos hp'.1, if_pos hp'.2]
        simp only [TreeNode.files_mk, TreeNode.folders_mk, hfi, hfo, List.map_cons,
          List.filter_cons, hp, List.filterMap_cons, if_true, List.append_assoc,
          List.singleton_append]
        cases hk : keptFolder excludedArray includeText excludes startPath (fileName, entry) <;>
          simp
      · have hp' : pushesFile excludedArray includeText startPath fileName = false := by
          simpa using hp
        have hq : ¬ ((indexOf (pathJoin startPath fileName) includeText).isSome = true ∧
            (split fileName ['.']).head? ≠
              some (substring startPath (lastIndexOf startPath '/' + 1))) := by
          intro hq
          apply hp
          simp only [pushesFile, hex', Bool.not_false, Bool.true_and, Bool.and_eq_true,
            decide_eq_true_eq]
          exact hq
        have hr : (if (indexOf (pathJoin startPath fileName) includeText).isSome = true then
            (if (split fileName ['.']).head? ≠
                some (substring startPath (lastIndexOf startPath '/' + 1)) then
              TreeNode.mk ((scanDirectory excludedArray includeText excludes
                (pathJoin startPath fileName) fileName entry result).files ++ [fileName])
                (scanDirectory excludedArray includeText excludes
                  (pathJoin startPath fileName) fileName entry result).folders
            else scanDirectory excludedArray includeText excludes
                (pathJoin startPath fileName) fileName entry result)
            else scanDirectory excludedArray includeText excludes
                (pathJoin startPath fileName) fileName entry result) =
            scanDirectory excludedArray includeText excludes
                (pathJoin startPath fileName) fileName entry result := by
          by_cases h1 : (indexOf (pathJoin startPath fileName) includeText).isSome = true
          · rw [if_pos h1, if_neg (fun h2 => hq ⟨h1, h2⟩)]
          · rw [if_neg h1]
        dsimp only
        rw [hr, hfi, hfo]
        simp only [List.map_cons, List.filter_cons, hp', List.filterMap_cons]
        cases hk : keptFolder excludedArray includeText excludes startPath (fileName, entry) <;>
          simp

theorem lastIndexOfGo_notin (c : Char) :
    ∀ (s : JsString) (i last : Int), c ∉ s → lastIndexOfGo c s i last = last
  | [], _, _, _ => rfl
  | x :: xs, i, last, h => by
    have hx : ¬ x = c := fun e => h (by simp [e])
    have hxs : c ∉ xs := fun e => h (by simp [e])
    rw [lastIndexOfGo, if_neg hx, lastIndexOfGo_notin c xs (i + 1) last hxs]

theorem lastIndexOfGo_last (c : Char) (base : JsString) (hbase : c ∉ base) :
    ∀ (d : JsString) (i last : Int),
      lastIndexOfGo c (d ++ c :: base) i last = i + d.length
  | [], i, last => by
    simp [lastIndexOfGo, lastIndexOfGo_notin c base (i + 1) i hbase]
  | x :: d, i, last => by
    rw [List.cons_append, lastIndexOfGo, lastIndexOfGo_last c base hbase d (i + 1) _]
    simp only [List.length_cons, Nat.cast_succ]
    ring

/-- The name the scanner compares with is the text of `startPath` after its
last `/`, and all of `startPath` when it has none. -/
theorem dirname_eq (startPath base : JsString) (hbase : '/' ∉ base)
    (h : startPath = base ∨ ∃ d, startPath = d ++ '/' :: base) :
    substring startPath (lastIndexOf startPath '/' + 1) = base := by
  rcases h with rfl | ⟨d, rfl⟩
  · rw [lastIndexOf, lastIndexOfGo_notin _ _ _ _ hbase]; rfl
  · rw [lastIndexOf, lastIndexOfGo_last _ _ hbase]
    have : ((0 : Int) + (d.length : Int) + 1).toNat = d.length + 1 := by omega
    rw [substring, this]
    simp

theorem head_split_dot (fileName stem : JsString) (hstem : '.' ∉ stem)
    (h : fileName = stem ∨ ∃ r, fileName = stem ++ '.' :: r) :
    (split fileName ['.']).head? = some stem := by
  rcases h with rfl | ⟨r, rfl⟩
  · rw [split_char_notin _ _ hstem]; rfl
  · rw [split_char_cons _ _ _ hstem]; rfl

theorem createFolderTree_files (excludedArray : List JsString) (startPath includeText : JsString)
    (excludes : List JsString) (filePaths : List (JsString × FsEntry)) :
    (createFolderTree excludedArray startPath includeText excludes (some filePaths)).files =
      (filePaths.map Prod.fst).filter (pushesFile excludedArray includeText startPath) := by
  rw [createFolderTree, scanLoop_eq]
  rfl

theorem pushesFile_iff (excludedArray : List JsString) (includeText startPath fileName : JsString) :
    pushesFile excludedArray includeText startPath fileName = true ↔
      pathJoin startPath fileName ∉ excludedArray ∧
      includeText <:+: pathJoin startPath fileName ∧
      (split fileName ['.']).head? ≠
        some (substring startPath (lastIndexOf startPath '/' + 1)) := by
  have h1 := excludedArrayContains_iff excludedArray (pathJoin startPath fileName)
  have h2 := includes_iff_substring (pathJoin startPath fileName) includeText
  unfold includes at h2
  simp only [pushesFile, Bool.and_eq_true, Bool.not_eq_true', decide_eq_true_eq, ← h2, ← h1,
    and_assoc]
  simp

/-- C5, as stated, fails: in the directory `v1.0` the file `v1.0.md`, whose name
is the directory's base name followed by one extension segment, is listed in
`files`; and in the directory `foo` the file `foo.bar.md`, whose name without
its extension segment is `foo.bar`, is suppressed. -/
theorem createFolderTree_self_name_first_dot :
    createFolderTree [] ".".toList ".md".toList []
        (some [("v1.0".toList, .dir [("v1.0.md".toList, .file [])]),
          ("foo".toList, .dir [("foo.bar.md".toList, .file []), ("x.md".toList, .file [])])]) =
      .mk [] [("v1.0".toList, .mk ["v1.0.md".toList] []), ("foo".toList, .mk ["x.md".toList] [])] ∧
    "v1.0.md".toList = "v1.0".toList ++ '.' :: "md".toList ∧
    "foo.bar.md".toList = "foo.bar".toList ++ '.' :: "md".toList :=
  ⟨rfl, rfl, rfl⟩

/-- C5, amended: for every directory scanned by `createFolderTree`, a child
whose name up to its first `.` (`stem`: the whole name when it has no `.`)
equals the text of `startPath` after its last `/` (`base`) never appears in
that directory's `files`; a child for which the two differ is not suppressed:
it is in `files` exactly when it is listed, its joined path is not excluded
and contains the include string. -/
theorem createFolderTree_self_name (excludedArray : List JsString)
    (startPath includeText : JsString) (excludes : List JsString)
    (filePaths : List (JsString × FsEntry)) (fileName stem base : JsString)
    (hstem : '.' ∉ stem) (hname : fileName = stem ∨ ∃ r, fileName = stem ++ '.' :: r)
    (hbase : '/' ∉ base) (hpath : startPath = base ∨ ∃ d, startPath = d ++ '/' :: base) :
    (stem = base →
      fileName ∉
        (createFolderTree excludedArray startPath includeText excludes (some filePaths)).files) ∧
    (stem ≠ base →
      (fileName ∈
          (createFolderTree excludedArray startPath includeText excludes (some filePaths)).files ↔
        fileName ∈ filePaths.map Prod.fst ∧ pathJoin startPath fileName ∉ excludedArray ∧
          includeText <:+: pathJoin startPath fileName)) := by
  rw [createFolderTree_files]
  have hd := dirname_eq startPath base hbase hpath
  have hs := head_split_dot fileName stem hstem hname
  constructor
  · intro e hmem
    have := (pushesFile_iff _ _ _ _).mp (List.mem_filter.mp hmem).2
    rw [hd, hs, e] at this
    exact this.2.2 rfl
  · intro hne
    rw [List.mem_filter, pushesFile_iff, hd, hs]
    constructor
    · rintro ⟨h1, h2, h3, _⟩; exact ⟨h1, h2, h3⟩
    · rintro ⟨h1, h2, h3⟩
      exact ⟨h1, h2, h3, fun e => hne (Option.some.inj e)⟩

/-- In the directory `docs`, `docs.md` is suppressed and `a.md` is listed. -/
theorem createFolderTree_self_name_witness :
    "docs.md".toList ∉
        (createFolderTree [] "docs".toList ".md".toList []
          (some [("docs.md".toList, .file []), ("a.md".toList, .file [])])).files ∧
      "a.md".toList ∈
        (createFolderTree [] "docs".toList ".md".toList []
          (some [("docs.md".toList, .file []), ("a.md".toList, .file [])])).files :=
  ⟨(createFolderTree_self_name [] "docs".toList ".md".toList []
      [("docs.md".toList, .file []), ("a.md".toList, .file [])] "docs.md".toList "docs".toList
      "docs".toList (by decide) (Or.inr ⟨"md".toList, by decide⟩) (by decide) (Or.inl rfl)).1 rfl,
    ((createFolderTree_self_name [] "docs".toList ".md".toList []
      [("docs.md".toList, .file []), ("a.md".toList, .file [])] "a.md".toList "a".toList
      "docs".toList (by decide) (Or.inr ⟨"md".toList, by decide⟩) (by decide) (Or.inl rfl)).2
      (by decide)).mpr ⟨by decide, by decide, ⟨"docs/a".toList, [], by decide⟩⟩⟩

/-! ### Pruning -/

theorem everyFolderList_iff (P : TreeNode → Bool) :
    ∀ l : List (JsString × TreeNode),
      everyFolderList P l = true ↔ ∀ p ∈ l, P p.2 = true ∧ p.2.everyFolder P = true
  | [] => by simp [everyFolderList]
  | (f, sub) :: rest => by
    rw [everyFolderList, Bool.and_eq_true, Bool.and_eq_true, everyFolderList_iff P rest]
    constructor
    · rintro ⟨⟨h1, h2⟩, h3⟩ p hp
      rcases List.mem_cons.mp hp with rfl | hp
      · exact ⟨h1, h2⟩
      · exact h3 p hp
    · intro h
      exact ⟨h (f, sub) (List.mem_cons_self _ _), fun p hp => h p (List.mem_cons_of_mem _ hp)⟩

theorem everyFolderList_set (P : TreeNode → Bool) (o : JsObject TreeNode) (k : JsString)
    (v : TreeNode) (ho : everyFolderList P o = true) (hv : P v = true)
    (hv' : v.everyFolder P = true) : everyFolderList P (JsObject.set o k v) = true := by
  rw [everyFolderList_iff] at ho ⊢
  intro p hp
  rcases JsObject.mem_set o k v p hp with rfl | hp
  · exact ⟨hv, hv'⟩
  · exact ho p hp

theorem TreeNode.everyFolder_eq (P : TreeNode → Bool) (t : TreeNode) :
    t.everyFolder P = everyFolderList P t.folders := by
  cases t; rw [TreeNode.everyFolder]; rfl

/-- The scan loop keeps the pruning invariant of its accumulator. -/
theorem scanLoop_everyFolder (excludedArray : List JsString) (includeText : JsString)
    (excludes : List JsString) :
    ∀ (filePaths : List (JsString × FsEntry)) (startPath : JsString) (result : TreeNode),
      everyFolderList TreeNode.nonEmpty result.folders = true →
      everyFolderList TreeNode.nonEmpty
        (scanLoop excludedArray includeText excludes startPath filePaths result).folders = true
  | [], _, result, h => by rw [scanLoop]; exact h
  | (fileName, .file content) :: filePaths, startPath, result, h => by
    rw [scanLoop]
    split
    · exact scanLoop_everyFolder excludedArray includeText excludes filePaths startPath result h
    · apply scanLoop_everyFolder excludedArray includeText excludes filePaths startPath
      dsimp only
      rw [scanDirectory]
      split
      · split
        · exact h
        · exact h
      · exact h
  | (fileName, .dir children) :: filePaths, startPath, result, h => by
    have ih := scanLoop_everyFolder excludedArray includeText excludes children
      (pathJoin startPath fileName) (.mk [] []) rfl
    rw [scanLoop]
    split
    · exact scanLoop_everyFolder excludedArray includeText excludes filePaths startPath result h
    · apply scanLoop_everyFolder excludedArray includeText excludes filePaths startPath
      have key : everyFolderList TreeNode.nonEmpty
          (scanDirectory excludedArray includeText excludes (pathJoin startPath fileName)
            fileName (.dir children) result).folders = true := by
        rw [scanDirectory]
        split
        · next hne =>
          rw [TreeNode.folders_mk]
          refine everyFolderList_set _ _ _ _ h ?_ ?_
          · simpa [TreeNode.nonEmpty] using hne
          · rw [TreeNode.everyFolder_eq]; exact ih
        · exact h
      dsimp only
      split
      · split
        · exact key
        · exact key
      · exact key

theorem fileCountList_pos_of_mem :
    ∀ (l : List (JsString × TreeNode)) (p : JsString × TreeNode),
      p ∈ l → 0 < p.2.fileCount → 0 < fileCountList l
  | [], _, h, _ => absurd h (List.not_mem_nil _)
  | (f, sub) :: rest, p, h, hp => by
    rw [fileCountList]
    rcases List.mem_cons.mp h with rfl | h
    · exact Nat.lt_of_lt_of_le hp (Nat.le_add_right _ _)
    · exact Nat.lt_of_lt_of_le (fileCountList_pos_of_mem rest p h hp) (Nat.le_add_left _ _)

/-- A non-empty node below which every folder is non-empty holds a file. -/
theorem TreeNode.fileCount_pos :
    ∀ t : TreeNode, t.everyFolder TreeNode.nonEmpty = true → t.nonEmpty = true →
      0 < t.fileCount
  | .mk files [], _, hne => by
    rw [TreeNode.fileCount]
    have : 0 < files.length := by simpa [TreeNode.nonEmpty, TreeNode.files, TreeNode.folders,
      JsObject.keys] using hne
    omega
  | .mk files ((f, sub) :: rest), hall, _ => by
    rw [TreeNode.everyFolder, everyFolderList, Bool.and_eq_true, Bool.and_eq_true] at hall
    have := TreeNode.fileCount_pos sub hall.1.2 hall.1.1
    rw [TreeNode.fileCount, fileCountList]
    omega

mutual
theorem TreeNode.everyFolder_hasFile :
    ∀ t : TreeNode, t.everyFolder TreeNode.nonEmpty = true →
      t.everyFolder TreeNode.hasFile = true
  | .mk _ folders, h => by
    rw [TreeNode.everyFolder] at h ⊢
    exact everyFolderList_hasFile folders h
theorem everyFolderList_hasFile :
    ∀ l : List (JsString × TreeNode), everyFolderList TreeNode.nonEmpty l = true →
      everyFolderList TreeNode.hasFile l = true
  | [], _ => rfl
  | (_, sub) :: rest, h => by
    rw [everyFolderList, Bool.and_eq_true, Bool.and_eq_true] at h ⊢
    refine ⟨⟨?_, TreeNode.everyFolder_hasFile sub h.1.2⟩, everyFolderList_hasFile rest h.2⟩
    simpa [TreeNode.hasFile] using TreeNode.fileCount_pos sub h.1.2 h.1.1
end

theorem JsObject.mem_keys_foldl_set {α : Type} (k : JsString) :
    ∀ (ps : List (JsString × α)) (o : JsObject α),
      k ∈ JsObject.keys (ps.foldl (fun o p => JsObject.set o p.1 p.2) o) ↔
        k ∈ JsObject.keys o ∨ k ∈ ps.map Prod.fst
  | [], o => by
    rw [List.foldl_nil, List.map_nil]
    exact ⟨Or.inl, fun h => h.elim id (fun h => absurd h (List.not_mem_nil _))⟩
  | p :: ps, o => by
    rw [List.foldl_cons, JsObject.mem_keys_foldl_set k ps, JsObject.mem_keys_set, List.map_cons,
      List.mem_cons]
    constructor
    · rintro ((h | h) | h)
      · exact Or.inr (Or.inl h)
      · exact Or.inl h
      · exact Or.inr (Or.inr h)
    · rintro (h | h | h)
      · exact Or.inl (Or.inr h)
      · exact Or.inl (Or.inl h)
      · exact Or.inr h

theorem keptFolder_some (excludedArray : List JsString) (includeText : JsString)
    (excludes : List JsString) (startPath : JsString) (c : JsString × FsEntry)
    (p : JsString × TreeNode)
    (h : keptFolder excludedArray includeText excludes startPath c = some p) :
    ∃ children, c.2 = .dir children ∧
      p = (c.1, createFolderTree excludedArray (pathJoin startPath c.1) includeText excludes
        (some children)) ∧
      pathJoin startPath c.1 ∉ excludedArray ∧ p.2.nonEmpty = true := by
  obtain ⟨name, entry⟩ := c
  cases entry with
  | file content => simp [keptFolder] at h
  | dir children =>
    refine ⟨children, rfl, ?_⟩
    simp only [keptFolder] at h
    split at h
    · exact absurd h (by simp)
    · next hex =>
      split at h
      · next hne =>
        have hp := Option.some.inj h
        subst hp
        refine ⟨rfl, ?_, ?_⟩
        · rw [← excludedArrayContains_iff]; exact hex
        · simpa [TreeNode.nonEmpty] using hne
      · exact absurd h (by simp)

theorem keptFolder_dir (excludedArray : List JsString) (includeText : JsString)
    (excludes : List JsString) (startPath fileName : JsString)
    (children : List (JsString × FsEntry))
    (hex : pathJoin startPath fileName ∉ excludedArray)
    (hne : (createFolderTree excludedArray (pathJoin startPath fileName) includeText excludes
      (some children)).nonEmpty = true) :
    keptFolder excludedArray includeText excludes startPath (fileName, .dir children) =
      some (fileName, createFolderTree excludedArray (pathJoin startPath fileName) includeText
        excludes (some children)) := by
  have hex' : excludedArrayContains excludedArray (pathJoin startPath fileName) = false := by
    cases hb : excludedArrayContains excludedArray (pathJoin startPath fileName) with
    | false => rfl
    | true => exact absurd ((excludedArrayContains_iff _ _).mp hb) hex
  simp only [keptFolder, hex']
  rw [if_neg (by simp), if_pos (by simpa [TreeNode.nonEmpty, createFolderTree] using hne)]
  rfl

theorem createFolderTree_folders (excludedArray : List JsString)
    (startPath includeText : JsString) (excludes : List JsString)
    (filePaths : List (JsString × FsEntry)) :
    (createFolderTree excludedArray startPath includeText excludes (some filePaths)).folders =
      (filePaths.filterMap (keptFolder excludedArray includeText excludes startPath)).foldl
        (fun o p => JsObject.set o p.1 p.2) [] := by
  rw [createFolderTree, scanLoop_eq]
  rfl

/-- A name is a key of `folders` exactly when a listed child of that name is a
kept folder. -/
theorem mem_keys_createFolderTree (excludedArray : List JsString)
    (startPath includeText : JsString) (excludes : List JsString)
    (filePaths : List (JsString × FsEntry)) (k : JsString) :
    k ∈ JsObject.keys
        (createFolderTree excludedArray startPath includeText excludes (some filePaths)).folders ↔
      ∃ c ∈ filePaths, c.1 = k ∧
        (keptFolder excludedArray includeText excludes startPath c).isSome = true := by
  rw [createFolderTree_folders, JsObject.mem_keys_foldl_set, List.mem_map]
  constructor
  · rintro (h | ⟨p, hp, rfl⟩)
    · exact absurd h (List.not_mem_nil _)
    · obtain ⟨c, hc, hk⟩ := List.mem_filterMap.mp hp
      obtain ⟨children, _, hpe, _⟩ := keptFolder_some _ _ _ _ c p hk
      exact ⟨c, hc, by rw [hpe], by rw [hk]; rfl⟩
  · rintro ⟨c, hc, rfl, hk⟩
    obtain ⟨p, hp⟩ := Option.isSome_iff_exists.mp hk
    obtain ⟨children, _, hpe, _⟩ := keptFolder_some _ _ _ _ c p hp
    exact Or.inr ⟨p, List.mem_filterMap.mpr ⟨c, hc, hp⟩, by rw [hpe]⟩

theorem eq_of_mem_of_nodup_fst {β : Type} :
    ∀ (l : List (JsString × β)), (l.map Prod.fst).Nodup →
      ∀ p q : JsString × β, p ∈ l → q ∈ l → p.1 = q.1 → p = q
  | [], _, p, _, hp, _, _ => absurd hp (List.not_mem_nil _)
  | x :: rest, hn, p, q, hp, hq, e => by
    rw [List.map_cons, List.nodup_cons] at hn
    rcases List.mem_cons.mp hp with hp | hp <;> rcases List.mem_cons.mp hq with hq | hq
    · rw [hp, hq]
    · exact absurd (List.mem_map.mpr ⟨q, hq, by rw [← e, hp]⟩) hn.1
    · exact absurd (List.mem_map.mpr ⟨p, hp, by rw [e, hq]⟩) hn.1
    · exact eq_of_mem_of_nodup_fst rest hn.2 p q hp hq e

/-- C7: in every tree returned by `createFolderTree`, every node stored under a
`folders` mapping, at any depth, has a non-empty `files` list or a non-empty
`folders` mapping, and so holds at least one file somewhere in its subtree;
and a sub-directory (of a directory that lists each name once) whose own scan
yields no file and no kept sub-folder is not a key of its parent's `folders`. -/
theorem createFolderTree_pruned (excludedArray : List JsString)
    (startPath includeText : JsString) (excludes : List JsString)
    (found : Option (List (JsString × FsEntry))) :
    (createFolderTree excludedArray startPath includeText excludes found).everyFolder
        TreeNode.nonEmpty = true ∧
      (createFolderTree excludedArray startPath includeText excludes found).everyFolder
        TreeNode.hasFile = true ∧
      ∀ (filePaths : List (JsString × FsEntry)) (fileName : JsString)
        (children : List (JsString × FsEntry)),
        found = some filePaths → (filePaths.map Prod.fst).Nodup →
        (fileName, FsEntry.dir children) ∈ filePaths →
        (createFolderTree excludedArray (pathJoin startPath fileName) includeText excludes
          (some children)).nonEmpty = false →
        fileName ∉ JsObject.keys
          (createFolderTree excludedArray startPath includeText excludes found).folders := by
  have h1 : (createFolderTree excludedArray startPath includeText excludes found).everyFolder
      TreeNode.nonEmpty = true := by
    rw [TreeNode.everyFolder_eq]
    cases found with
    | none => rfl
    | some filePaths =>
      exact scanLoop_everyFolder excludedArray includeText excludes filePaths startPath _ rfl
  refine ⟨h1, TreeNode.everyFolder_hasFile _ h1, ?_⟩
  intro filePaths fileName children hfound hnodup hmem hempty hkey
  subst hfound
  obtain ⟨c, hc, hck, hk⟩ := (mem_keys_createFolderTree _ _ _ _ _ _).mp hkey
  have hceq := eq_of_mem_of_nodup_fst filePaths hnodup c _ hc hmem hck
  subst hceq
  obtain ⟨p, hp⟩ := Option.isSome_iff_exists.mp hk
  obtain ⟨children', hdir, hpe, _, hne⟩ := keptFolder_some _ _ _ _ _ p hp
  have : children' = children := by
    have := hdir
    simp only [FsEntry.dir.injEq] at this
    exact this.symm
  subst this
  rw [hpe] at hne
  rw [hempty] at hne
  exact absurd hne (by simp)

/-- The scan of a tree with an empty directory, a directory holding only an
empty directory, and a directory with a file keeps only the last one. -/
theorem createFolderTree_pruned_witness :
    "empty".toList ∉ JsObject.keys
      (createFolderTree [] ".".toList ".md".toList []
        (some [("empty".toList, .dir []), ("outer".toList, .dir [("inner".toList, .dir [])]),
          ("docs".toList, .dir [("a.md".toList, .file [])])])).folders :=
  (createFolderTree_pruned [] ".".toList ".md".toList []
    (some [("empty".toList, .dir []), ("outer".toList, .dir [("inner".toList, .dir [])]),
      ("docs".toList, .dir [("a.md".toList, .file [])])])).2.2 _ "empty".toList [] rfl
    (by decide) (by simp) (by decide)

/-! ## The content map -/

theorem entryName_valid (f : JsString) (h : entryName f = true) : validName f = true := by
  rw [entryName, Bool.and_eq_true] at h
  exact h.1

theorem wellFormedList_cons (f : JsString) (sub : TreeNode) (rest : List (JsString × TreeNode)) :
    wellFormedList ((f, sub) :: rest) = true ↔
      entryName f = true ∧ f ∉ JsObject.keys rest ∧ sub.wellFormed = true ∧
        wellFormedList rest = true := by
  rw [wellFormedList, Bool.and_eq_true, Bool.and_eq_true, Bool.and_eq_true]
  have : (!rest.any (fun q => q.1 == f)) = true ↔ f ∉ JsObject.keys rest := by
    rw [← JsObject.has_iff_mem_keys]
    show (!JsObject.has rest f) = true ↔ _
    generalize JsObject.has rest f = b
    cases b <;> decide
  rw [this]
  tauto

mutual
/-- The path of a folder below a node at `p` normalises to the segments of
`p` followed by the names on the way down. -/
theorem folderPaths_segments :
    ∀ (node : TreeNode) (p : JsString), node.wellFormed = true →
      ∀ k ∈ folderPaths node p, ∃ g chain, pathSegments k = pathSegments p ++ g :: chain
  | .mk _ folders, p, h, k, hk => by
    rw [folderPaths] at hk
    rw [TreeNode.wellFormed] at h
    obtain ⟨g, chain, _, e⟩ := folderPathsList_segments folders p h k hk
    exact ⟨g, chain, e⟩
theorem folderPathsList_segments :
    ∀ (fl : List (JsString × TreeNode)) (p : JsString), wellFormedList fl = true →
      ∀ k ∈ folderPathsList fl p,
        ∃ g chain, g ∈ JsObject.keys fl ∧ pathSegments k = pathSegments p ++ g :: chain
  | [], _, _, k, hk => absurd hk (List.not_mem_nil _)
  | (f, sub) :: rest, p, h, k, hk => by
    obtain ⟨hf, _, hsub, hrest⟩ := (wellFormedList_cons f sub rest).mp h
    have hseg := pathSegments_pathJoin p f (entryName_valid f hf)
    rw [folderPathsList] at hk
    rcases List.mem_cons.mp hk with rfl | hk
    · exact ⟨f, [], List.mem_cons_self _ _, hseg⟩
    · rcases List.mem_append.mp hk with hk | hk
      · obtain ⟨g, chain, e⟩ := folderPaths_segments sub (pathJoin p f) hsub k hk
        refine ⟨f, g :: chain, List.mem_cons_self _ _, ?_⟩
        rw [e, hseg]
        simp
      · obtain ⟨g, chain, hg, e⟩ := folderPathsList_segments rest p hrest k hk
        exact ⟨g, chain, List.mem_cons_of_mem _ hg, e⟩
end

theorem not_mem_folderPathsList_self (fl : List (JsString × TreeNode)) (p : JsString)
    (h : wellFormedList fl = true) : p ∉ folderPathsList fl p := by
  intro hk
  obtain ⟨g, chain, _, e⟩ := folderPathsList_segments fl p h p hk
  have := congrArg List.length e
  simp at this

theorem not_mem_folderPaths_self (node : TreeNode) (p : JsString)
    (h : node.wellFormed = true) : p ∉ folderPaths node p := by
  intro hk
  obtain ⟨g, chain, e⟩ := folderPaths_segments node p h p hk
  have := congrArg List.length e
  simp at this

mutual
/-- No two folders of a well-formed tree have the same joined path. -/
theorem folderPaths_nodup :
    ∀ (node : TreeNode) (p : JsString), node.wellFormed = true → (folderPaths node p).Nodup
  | .mk _ folders, p, h => by
    rw [folderPaths]
    rw [TreeNode.wellFormed] at h
    exact folderPathsList_nodup folders p h
theorem folderPathsList_nodup :
    ∀ (fl : List (JsString × TreeNode)) (p : JsString), wellFormedList fl = true →
      (folderPathsList fl p).Nodup
  | [], _, _ => List.nodup_nil
  | (f, sub) :: rest, p, h => by
    obtain ⟨hf, hnot, hsub, hrest⟩ := (wellFormedList_cons f sub rest).mp h
    have hseg := pathSegments_pathJoin p f (entryName_valid f hf)
    rw [folderPathsList, List.nodup_cons, List.mem_append, List.nodup_append]
    refine ⟨?_, folderPaths_nodup sub (pathJoin p f) hsub, folderPathsList_nodup rest p hrest, ?_⟩
    · rintro (hk | hk)
      · exact not_mem_folderPaths_self sub (pathJoin p f) hsub hk
      · obtain ⟨g, chain, hg, e⟩ := folderPathsList_segments rest p hrest _ hk
        rw [hseg] at e
        have := List.append_cancel_left e
        simp only [List.cons.injEq] at this
        exact hnot (this.1 ▸ hg)
    · intro k hk1 hk2
      obtain ⟨g1, chain1, e1⟩ := folderPaths_segments sub (pathJoin p f) hsub k hk1
      obtain ⟨g2, chain2, hg2, e2⟩ := folderPathsList_segments rest p hrest k hk2
      rw [hseg, e2] at e1
      have := List.append_cancel_left (by simpa using e1 : pathSegments p ++ g2 :: chain2 =
        pathSegments p ++ f :: g1 :: chain1)
      simp only [List.cons.injEq] at this
      exact hnot (this.1 ▸ hg2)
end

mutual
theorem keys_expectedMap (readFileSync : JsString → Option JsString)
    (toUpperCase : Char → JsString) :
    ∀ (node : TreeNode) (p : JsString),
      JsObject.keys (expectedMap readFileSync toUpperCase node p) = p :: folderPaths node p
  | .mk _ folders, p => by
    rw [expectedMap, folderPaths, JsObject.keys_cons,
      keys_expectedMapList readFileSync toUpperCase folders p]
theorem keys_expectedMapList (readFileSync : JsString → Option JsString)
    (toUpperCase : Char → JsString) :
    ∀ (fl : List (JsString × TreeNode)) (p : JsString),
      JsObject.keys (expectedMapList readFileSync toUpperCase fl p) = folderPathsList fl p
  | [], _ => rfl
  | (f, sub) :: rest, p => by
    rw [expectedMapList, folderPathsList]
    unfold JsObject.keys
    rw [List.map_append]
    have h1 := keys_expectedMap readFileSync toUpperCase sub (pathJoin p f)
    have h2 := keys_expectedMapList readFileSync toUpperCase rest p
    unfold JsObject.keys at h1 h2
    rw [h1, h2]
    rfl
end

theorem filesLoop_eq (readFileSync : JsString → Option JsString) (p : JsString) :
    ∀ (files : List JsString) (content content' : List Entry),
      filesLoop readFileSync p files content = some content' →
      content' = content ++ fileEntries readFileSync p files
  | [], content, content', h => by
    rw [filesLoop] at h
    rw [← Option.some.inj h]
    simp [fileEntries]
  | file :: files, content, content', h => by
    rw [filesLoop] at h
    split at h
    · next hf =>
      rw [filesLoop_eq readFileSync p files content content' h]
      simp [fileEntries, hf]
    · next hf =>
      split at h
      · exact absurd h (by simp)
      · next text ht =>
        rw [filesLoop_eq readFileSync p files _ content' h]
        simp [fileEntries, hf, ht]

theorem filesLoop_some (readFileSync : JsString → Option JsString) (p : JsString) :
    ∀ (files : List JsString) (content : List Entry),
      files.all (fun file => decide (file = TOC_FILE_NAME) ||
        (readFileSync (pathJoin p file)).isSome) = true →
      ∃ content', filesLoop readFileSync p files content = some content'
  | [], content, _ => ⟨content, rfl⟩
  | file :: files, content, h => by
    rw [List.all_cons, Bool.and_eq_true] at h
    rw [filesLoop]
    split
    · exact filesLoop_some readFileSync p files content h.2
    · next hf =>
      have : (readFileSync (pathJoin p file)).isSome = true := by
        simpa [hf] using h.1
      obtain ⟨text, ht⟩ := Option.isSome_iff_exists.mp this
      rw [ht]
      exact filesLoop_some readFileSync p files _ h.2

theorem JsObject.assign_perm {α : Type} :
    ∀ (s t : JsObject α), (∀ k ∈ JsObject.keys s, k ∉ JsObject.keys t) →
      (JsObject.keys s).Nodup → (JsObject.assign t s).Perm (t ++ s)
  | [], t, _, _ => by rw [JsObject.assign, List.foldl_nil, List.append_nil]
  | x :: xs, t, hd, hn => by
    rw [JsObject.keys_cons, List.nodup_cons] at hn
    have hx : x.1 ∉ JsObject.keys t := hd x.1 (List.mem_cons_self _ _)
    have hp := JsObject.set_perm t x.1 x.2 hx
    have ih := JsObject.assign_perm xs (JsObject.set t x.1 x.2) (by
      intro k hk hk'
      rcases (JsObject.mem_keys_set t x.1 x.2 k).mp hk' with rfl | hk'
      · exact hn.1 hk
      · exact hd k (List.mem_cons_of_mem _ hk) hk') hn.2
    have e : JsObject.assign t (x :: xs) = JsObject.assign (JsObject.set t x.1 x.2) xs := rfl
    rw [e]
    refine ih.trans ?_
    refine (List.Perm.append_right xs hp).trans ?_
    simpa using (List.perm_middle : List.Perm (t ++ x :: xs) (x :: (t ++ xs))).symm

theorem JsObject.mem_of_get {α : Type} :
    ∀ (o : JsObject α) (k : JsString) (v : α), JsObject.get o k = some v → (k, v) ∈ o
  | [], k, v, h => absurd h (by rw [JsObject.get_nil]; exact Option.noConfusion)
  | x :: rest, k, v, h => by
    rw [JsObject.get_cons] at h
    by_cases hx : x.1 = k
    · rw [if_pos hx] at h
      have : x = (k, v) := by rw [← hx, ← Option.some.inj h]
      rw [this]; exact List.mem_cons_self _ _
    · rw [if_neg hx] at h
      exact List.mem_cons_of_mem _ (JsObject.mem_of_get rest k v h)

theorem JsObject.map_replace_of_not_mem {α : Type} (o : JsObject α) (k : JsString) (v : α)
    (h : k ∉ JsObject.keys o) : o.map (fun p => if p.1 = k then (k, v) else p) = o := by
  conv_rhs => rw [← List.map_id o]
  apply List.map_congr_left
  intro q hq
  have : ¬ q.1 = k := fun x => h (x ▸ List.mem_map.mpr ⟨q, hq, rfl⟩)
  rw [if_neg this]; rfl

theorem JsObject.set_self {α : Type} (o : JsObject α) (k : JsString) (v : α)
    (hg : JsObject.get o k = some v) (hn : (JsObject.keys o).Nodup) :
    JsObject.set o k v = o := by
  rw [JsObject.set_of_mem o k v (JsObject.get_some_mem_keys o k v hg)]
  conv_rhs => rw [← List.map_id o]
  apply List.map_congr_left
  intro q hq
  by_cases hqk : q.1 = k
  · rw [if_pos hqk]
    exact (eq_of_mem_of_nodup_fst o hn q (k, v) hq (JsObject.mem_of_get o k v hg) hqk).symm
  · rw [if_neg hqk]; rfl

theorem JsObject.set_set {α : Type} (o : JsObject α) (k : JsString) (a b : α)
    (h : k ∈ JsObject.keys o) :
    JsObject.set (JsObject.set o k a) k b = JsObject.set o k b := by
  have h' : k ∈ JsObject.keys (JsObject.set o k a) := by
    rw [JsObject.keys_set_of_mem o k a h]; exact h
  rw [JsObject.set_of_mem _ k b h', JsObject.set_of_mem o k a h, JsObject.set_of_mem o k b h,
    List.map_map]
  apply List.map_congr_left
  intro q _
  by_cases hq : q.1 = k <;> simp [hq]

theorem JsObject.set_append_perm {α : Type} (a o s : JsObject α) (k : JsString) (v : α)
    (hperm : a.Perm (o ++ s)) (hk : k ∈ JsObject.keys o) (hs : k ∉ JsObject.keys s) :
    (JsObject.set a k v).Perm (JsObject.set o k v ++ s) := by
  have hka : k ∈ JsObject.keys a := by
    unfold JsObject.keys
    rw [(hperm.map Prod.fst).mem_iff, List.map_append]
    exact List.mem_append_left _ hk
  rw [JsObject.set_of_mem a k v hka, JsObject.set_of_mem o k v hk]
  have := hperm.map (fun p => if p.1 = k then (k, v) else p)
  rw [List.map_append, JsObject.map_replace_of_not_mem s k v hs] at this
  exact this

theorem get_expectedMap_self (readFileSync : JsString → Option JsString)
    (toUpperCase : Char → JsString) (node : TreeNode) (p : JsString) :
    JsObject.get (expectedMap readFileSync toUpperCase node p) p =
      some (ownEntries readFileSync toUpperCase node p) := by
  cases node
  rw [expectedMap, ownEntries, JsObject.get_cons, if_pos rfl]

theorem JsObject.keys_append {α : Type} (a b : JsObject α) :
    JsObject.keys (a ++ b) = JsObject.keys a ++ JsObject.keys b := by
  unfold JsObject.keys; exact List.map_append _ _ _

theorem JsObject.keys_perm {α : Type} {a b : JsObject α} (h : a.Perm b) :
    (JsObject.keys a).Perm (JsObject.keys b) := h.map Prod.fst

mutual
/-- The map built by `createContentMap` on a well-formed tree holds exactly the
expected properties. -/
theorem createContentMap_perm (readFileSync : JsString → Option JsString)
    (toUpperCase : Char → JsString) :
    ∀ (node : TreeNode) (p : JsString) (m : ContentMap), node.wellFormed = true →
      createContentMap readFileSync toUpperCase node p = some m →
      m.Perm (expectedMap readFileSync toUpperCase node p)
  | .mk files folders, p, m, hwf, h => by
    rw [TreeNode.wellFormed] at hwf
    rw [createContentMap] at h
    split at h
    · exact absurd h (by simp)
    · next content hc =>
      have hcontent := filesLoop_eq readFileSync p files [] content hc
      rw [List.nil_append] at hcontent
      cases hl : foldersLoop readFileSync toUpperCase p folders ⟨content, [(p, content)], true⟩ with
      | none => rw [hl] at h; exact absurd h (by simp)
      | some st' =>
        rw [hl] at h
        have hm : st'.result = m := Option.some.inj h
        have hn : (JsObject.keys [(p, content)] ++ folderPathsList folders p).Nodup := by
          show (p :: folderPathsList folders p).Nodup
          exact List.nodup_cons.mpr ⟨not_mem_folderPathsList_self folders p hwf,
            folderPathsList_nodup folders p hwf⟩
        obtain ⟨_, hcont, hperm⟩ := foldersLoop_perm readFileSync toUpperCase folders p
          ⟨content, [(p, content)], true⟩ st' hwf hl rfl
          (by rw [JsObject.get_cons, if_pos rfl]) hn
        rw [← hm, expectedMap]
        have e : JsObject.set [(p, content)] p st'.content = [(p, st'.content)] := by
          rw [JsObject.set_of_mem _ _ _ (List.mem_cons_self _ _)]
          simp
        rw [e, hcont, hcontent] at hperm
        exact hperm
theorem foldersLoop_perm (readFileSync : JsString → Option JsString)
    (toUpperCase : Char → JsString) :
    ∀ (fl : List (JsString × TreeNode)) (p : JsString) (st st' : MapState),
      wellFormedList fl = true →
      foldersLoop readFileSync toUpperCase p fl st = some st' →
      st.aliased = true → JsObject.get st.result p = some st.content →
      (JsObject.keys st.result ++ folderPathsList fl p).Nodup →
      st'.aliased = true ∧
        st'.content = st.content ++ folderBlocks readFileSync toUpperCase fl p ∧
        st'.result.Perm (JsObject.set st.result p st'.content ++
          expectedMapList readFileSync toUpperCase fl p)
  | [], p, st, st', _, h, hal, hget, hn => by
    rw [foldersLoop] at h
    have e : st = st' := Option.some.inj h
    subst e
    rw [folderPathsList, List.append_nil] at hn
    rw [folderBlocks, expectedMapList, List.append_nil, List.append_nil,
      JsObject.set_self _ _ _ hget hn]
    exact ⟨hal, rfl, List.Perm.refl _⟩
  | (f, sub) :: rest, p, st, st', hwf, h, hal, hget, hn => by
    obtain ⟨hf, hnot, hsubwf, hrestwf⟩ := (wellFormedList_cons f sub rest).mp hwf
    rw [foldersLoop] at h
    dsimp only at h
    split at h
    · exact absurd h (by simp)
    · next subMap hsub =>
      have ihsub := createContentMap_perm readFileSync toUpperCase sub (pathJoin p f) subMap
        hsubwf hsub
      have hkeys : (JsObject.keys subMap).Perm
          (pathJoin p f :: folderPaths sub (pathJoin p f)) := by
        rw [← keys_expectedMap readFileSync toUpperCase]
        exact JsObject.keys_perm ihsub
      rw [folderPathsList] at hn
      have hn1 : (JsObject.keys st.result ++ (pathJoin p f :: folderPaths sub (pathJoin p f))
          ++ folderPathsList rest p).Nodup := by
        simpa using hn
      have hn2 := (List.nodup_append.mp hn1).1
      have hnres := (List.nodup_append.mp hn2).1
      have hnsub : (JsObject.keys subMap).Nodup :=
        hkeys.nodup_iff.mpr (List.nodup_append.mp hn2).2.1
      have hdisj : ∀ k ∈ JsObject.keys subMap, k ∉ JsObject.keys st.result := by
        intro k hk hk'
        exact (List.nodup_append.mp hn2).2.2 hk' (hkeys.mem_iff.mp hk)
      have hassign := JsObject.assign_perm subMap st.result hdisj hnsub
      have hpmem : p ∈ JsObject.keys st.result := JsObject.get_some_mem_keys _ _ _ hget
      have hpsub : p ∉ JsObject.keys subMap := fun hk => hdisj p hk hpmem
      have hhas : JsObject.has subMap p = false := by
        cases hb : JsObject.has subMap p with
        | false => rfl
        | true => exact absurd ((JsObject.has_iff_mem_keys _ _).mp hb) hpsub
      have hown : JsObject.get subMap (pathJoin p f) =
          some (ownEntries readFileSync toUpperCase sub (pathJoin p f)) := by
        rw [JsObject.get_perm ihsub hnsub, get_expectedMap_self]
      rw [hown] at h
      dsimp only at h
      rw [hal, hhas] at h
      simp only [Bool.not_false, Bool.and_self, if_true] at h
      have hkA : (JsObject.keys (JsObject.assign st.result subMap)).Perm
          (JsObject.keys st.result ++ JsObject.keys subMap) := by
        rw [← JsObject.keys_append]; exact JsObject.keys_perm hassign
      have hnA : (JsObject.keys (JsObject.assign st.result subMap)).Nodup := by
        rw [hkA.nodup_iff]
        exact (List.Perm.append_left _ hkeys).nodup_iff.mpr hn2
      have hpA : p ∈ JsObject.keys (JsObject.assign st.result subMap) :=
        hkA.mem_iff.mpr (List.mem_append_left _ hpmem)
      have ih := foldersLoop_perm readFileSync toUpperCase rest p _ st' hrestwf h rfl
        (by rw [JsObject.get_set _ _ _ _ hnA, if_pos rfl])
        (by
          rw [JsObject.keys_set_of_mem _ _ _ hpA]
          refine (List.Perm.append_right _ (hkA.trans (List.Perm.append_left _ hkeys))).nodup_iff.mpr
            hn1)
      obtain ⟨hal', hcont', hperm'⟩ := ih
      refine ⟨hal', ?_, ?_⟩
      · rw [hcont', folderBlocks]
        simp
      · dsimp only at hperm'
        rw [JsObject.set_set _ _ _ _ hpA] at hperm'
        rw [expectedMapList]
        refine hperm'.trans ?_
        have h1 := JsObject.set_append_perm _ _ _ p st'.content hassign hpmem hpsub
        have h2 := (h1.trans (List.Perm.append_left _ ihsub)).append_right
          (expectedMapList readFileSync toUpperCase rest p)
        simpa using h2
end

theorem JsObject.get_of_mem_keys {α : Type} :
    ∀ (o : JsObject α) (k : JsString), k ∈ JsObject.keys o → ∃ v, JsObject.get o k = some v
  | [], k, h => absurd h (List.not_mem_nil _)
  | x :: rest, k, h => by
    rw [JsObject.get_cons]
    by_cases hx : x.1 = k
    · exact ⟨x.2, by rw [if_pos hx]⟩
    · rw [if_neg hx]
      rw [JsObject.keys_cons] at h
      rcases List.mem_cons.mp h with h | h
      · exact absurd h.symm hx
      · exact JsObject.get_of_mem_keys rest k h

theorem JsObject.get_of_mem {α : Type} (o : JsObject α) (k : JsString) (v : α)
    (hn : (JsObject.keys o).Nodup) (h : (k, v) ∈ o) : JsObject.get o k = some v := by
  obtain ⟨w, hw⟩ := JsObject.get_of_mem_keys o k (List.mem_map.mpr ⟨(k, v), h, rfl⟩)
  have := eq_of_mem_of_nodup_fst o hn (k, w) (k, v) (JsObject.mem_of_get o k w hw) h rfl
  rw [hw, (Prod.mk.inj this).2]

mutual
/-- On a well-formed tree whose reads succeed, `createContentMap` returns a map. -/
theorem createContentMap_some (readFileSync : JsString → Option JsString)
    (toUpperCase : Char → JsString) :
    ∀ (node : TreeNode) (p : JsString), node.wellFormed = true →
      readsOk readFileSync node p = true →
      ∃ m, createContentMap readFileSync toUpperCase node p = some m
  | .mk files folders, p, hwf, hr => by
    rw [TreeNode.wellFormed] at hwf
    rw [readsOk, Bool.and_eq_true] at hr
    obtain ⟨content, hc⟩ := filesLoop_some readFileSync p files [] hr.1
    obtain ⟨st', hst⟩ := foldersLoop_some readFileSync toUpperCase folders p
      ⟨content, [(p, content)], true⟩ hwf hr.2
    refine ⟨st'.result, ?_⟩
    rw [createContentMap, hc]
    dsimp only
    rw [hst]
    rfl
theorem foldersLoop_some (readFileSync : JsString → Option JsString)
    (toUpperCase : Char → JsString) :
    ∀ (fl : List (JsString × TreeNode)) (p : JsString) (st : MapState),
      wellFormedList fl = true → readsOkList readFileSync fl p = true →
      ∃ st', foldersLoop readFileSync toUpperCase p fl st = some st'
  | [], _, st, _, _ => ⟨st, rfl⟩
  | (f, sub) :: rest, p, st, hwf, hr => by
    obtain ⟨_, _, hsubwf, hrestwf⟩ := (wellFormedList_cons f sub rest).mp hwf
    rw [readsOkList, Bool.and_eq_true] at hr
    obtain ⟨subMap, hsub⟩ := createContentMap_some readFileSync toUpperCase sub (pathJoin p f)
      hsubwf hr.1
    have hperm := createContentMap_perm readFileSync toUpperCase sub (pathJoin p f) subMap
      hsubwf hsub
    have hmem : pathJoin p f ∈ JsObject.keys subMap := by
      rw [(JsObject.keys_perm hperm).mem_iff, keys_expectedMap]
      exact List.mem_cons_self _ _
    obtain ⟨subList, hsl⟩ := JsObject.get_of_mem_keys subMap _ hmem
    rw [foldersLoop]
    dsimp only
    rw [hsub]
    dsimp only
    rw [hsl]
    exact foldersLoop_some readFileSync toUpperCase rest p _ hrestwf hr.2
end

theorem expectedMap_nodup (readFileSync : JsString → Option JsString)
    (toUpperCase : Char → JsString) (node : TreeNode) (p : JsString)
    (hwf : node.wellFormed = true) :
    (JsObject.keys (expectedMap readFileSync toUpperCase node p)).Nodup := by
  rw [keys_expectedMap]
  exact List.nodup_cons.mpr ⟨not_mem_folderPaths_self node p hwf, folderPaths_nodup node p hwf⟩

/-- The list under a key of the map is the list under that key among the
expected properties. -/
theorem createContentMap_get (readFileSync : JsString → Option JsString)
    (toUpperCase : Char → JsString) (node : TreeNode) (p : JsString) (m : ContentMap)
    (hwf : node.wellFormed = true)
    (h : createContentMap readFileSync toUpperCase node p = some m) (k : JsString) :
    JsObject.get m k = JsObject.get (expectedMap readFileSync toUpperCase node p) k := by
  have hperm := createContentMap_perm readFileSync toUpperCase node p m hwf h
  have hn : (JsObject.keys m).Nodup :=
    (JsObject.keys_perm hperm).nodup_iff.mpr (expectedMap_nodup _ _ node p hwf)
  exact JsObject.get_perm hperm hn k

theorem head_mem_expectedMap (readFileSync : JsString → Option JsString)
    (toUpperCase : Char → JsString) (node : TreeNode) (p : JsString) :
    (p, ownEntries readFileSync toUpperCase node p) ∈
      expectedMap readFileSync toUpperCase node p := by
  cases node
  rw [expectedMap, ownEntries]
  exact List.mem_cons_self _ _

theorem mem_expectedMapList (readFileSync : JsString → Option JsString)
    (toUpperCase : Char → JsString) (p : JsString) :
    ∀ (fl : List (JsString × TreeNode)) (fs : JsString × TreeNode), fs ∈ fl →
      (pathJoin p fs.1, ownEntries readFileSync toUpperCase fs.2 (pathJoin p fs.1)) ∈
        expectedMapList readFileSync toUpperCase fl p
  | [], _, h => absurd h (List.not_mem_nil _)
  | (f, sub) :: rest, fs, h => by
    rw [expectedMapList]
    rcases List.mem_cons.mp h with rfl | h
    · exact List.mem_append_left _ (head_mem_expectedMap _ _ _ _)
    · exact List.mem_append_right _ (mem_expectedMapList readFileSync toUpperCase p rest fs h)

/-- In the map of a node, the list under the path of one of its folders is that
folder's own list. -/
theorem createContentMap_get_folder (readFileSync : JsString → Option JsString)
    (toUpperCase : Char → JsString) (files : List JsString)
    (folders : List (JsString × TreeNode)) (p : JsString) (m : ContentMap)
    (hwf : (TreeNode.mk files folders).wellFormed = true)
    (h : createContentMap readFileSync toUpperCase (.mk files folders) p = some m)
    (fs : JsString × TreeNode) (hfs : fs ∈ folders) :
    JsObject.get m (pathJoin p fs.1) =
      some (ownEntries readFileSync toUpperCase fs.2 (pathJoin p fs.1)) := by
  rw [createContentMap_get _ _ _ _ _ hwf h]
  apply JsObject.get_of_mem _ _ _ (expectedMap_nodup _ _ _ p hwf)
  rw [expectedMap]
  exact List.mem_cons_of_mem _ (mem_expectedMapList _ _ p folders fs hfs)

theorem folderBlocks_eq (readFileSync : JsString → Option JsString)
    (toUpperCase : Char → JsString) (p : JsString) :
    ∀ fl : List (JsString × TreeNode), wellFormedList fl = true →
      folderBlocks readFileSync toUpperCase fl p =
        (List.zipWith
          (fun (fs : JsString × TreeNode) (l : List Entry) =>
            ({ indent := 0, file := fs.1 ++ "/README.md".toList,
               title := some (capitalize toUpperCase fs.1) } : Entry) ::
              l.map (fun e => { indent := e.indent + 1, file := fs.1 ++ '/' :: e.file,
                                title := e.title }))
          fl (fl.map (fun fs => ownEntries readFileSync toUpperCase fs.2 (pathJoin p fs.1)))).flatten
  | [], _ => rfl
  | (f, sub) :: rest, h => by
    obtain ⟨hf, _, _, hrest⟩ := (wellFormedList_cons f sub rest).mp h
    rw [folderBlocks, folderBlocks_eq readFileSync toUpperCase p rest hrest, List.map_cons,
      List.zipWith_cons_cons, List.flatten_cons, folderNameContent,
      pathJoin_toc f (entryName_valid f hf)]
    rfl

theorem forall₂_map_of_forall {α β : Type} (R : α → β → Prop) (g : α → β) :
    ∀ l : List α, (∀ a ∈ l, R a (g a)) → List.Forall₂ R l (l.map g)
  | [], _ => List.Forall₂.nil
  | a :: l, h =>
    List.Forall₂.cons (h a (List.mem_cons_self _ _))
      (forall₂_map_of_forall R g l (fun b hb => h b (List.mem_cons_of_mem _ hb)))

/-- C1, as stated, fails: a file named `README.md` in `node.files` gets no
entry, so the list does not hold one entry per file of `node.files`. -/
theorem createContentMap_skips_index_file :
    createContentMap (fun _ => some "# &nbsp; Alpha".toList) asciiUpper
        (.mk ["README.md".toList, "a.md".toList] []) "docs".toList =
      some [("docs".toList, [⟨0, "a.md".toList, some "Alpha".toList⟩])] := by
  decide

/-- C1, amended: for every tree node whose folder keys are directory-entry
names, each occurring once, and every directory path `p` (the reads
succeeding), the list `createContentMap` stores under key `p` consists of one
indent-0 entry per file of `node.files` other than `README.md`, in `files`
order, followed by one block per sub-directory in folder iteration order; each
block is the folder-link entry `{indent: 0, file: '<folder>/README.md', title:
capitalised folder name}` immediately followed by the entries of the list
stored under that sub-directory's own path, each with its indent raised by one
and its file prefixed by `<folder>/`. -/
theorem createContentMap_own_list (readFileSync : JsString → Option JsString)
    (toUpperCase : Char → JsString) (files : List JsString)
    (folders : List (JsString × TreeNode)) (p : JsString)
    (hwf : (TreeNode.mk files folders).wellFormed = true)
    (hreads : readsOk readFileSync (.mk files folders) p = true) :
    ∃ (m : ContentMap) (subLists : List (List Entry)),
      createContentMap readFileSync toUpperCase (.mk files folders) p = some m ∧
      List.Forall₂ (fun fs l => JsObject.get m (pathJoin p fs.1) = some l) folders subLists ∧
      JsObject.get m p = some
        ((files.filter (fun file => decide (file ≠ "README.md".toList))).map
            (fun file => ({ indent := 0, file := file,
                            title := (readFileSync (pathJoin p file)).bind titleOf } : Entry)) ++
          (List.zipWith
            (fun (fs : JsString × TreeNode) (l : List Entry) =>
              ({ indent := 0, file := fs.1 ++ "/README.md".toList,
                 title := some (capitalize toUpperCase fs.1) } : Entry) ::
                l.map (fun e => { indent := e.indent + 1, file := fs.1 ++ '/' :: e.file,
                                  title := e.title }))
            folders subLists).flatten) := by
  obtain ⟨m, hm⟩ := createContentMap_some readFileSync toUpperCase _ p hwf hreads
  refine ⟨m, folders.map (fun fs => ownEntries readFileSync toUpperCase fs.2 (pathJoin p fs.1)),
    hm, ?_, ?_⟩
  · exact forall₂_map_of_forall _ _ folders
      (fun fs hfs => createContentMap_get_folder _ _ files folders p m hwf hm fs hfs)
  · rw [createContentMap_get _ _ _ _ _ hwf hm, get_expectedMap_self, ownEntries,
      folderBlocks_eq readFileSync toUpperCase p folders (by rw [TreeNode.wellFormed] at hwf; exact hwf)]
    rfl

/-- For `docs` holding `a.md` and `sub/b.md`, the list under `docs` is the entry
of `a.md`, the link to `sub/README.md` and the entry of `sub/b.md` at indent 1. -/
theorem createContentMap_own_list_witness :
    (∃ (m : ContentMap) (subLists : List (List Entry)),
      createContentMap exampleRead asciiUpper
        (.mk ["a.md".toList] [("sub".toList, .mk ["b.md".toList] [])]) "docs".toList = some m ∧
      List.Forall₂ (fun fs l => JsObject.get m (pathJoin "docs".toList fs.1) = some l)
        [("sub".toList, TreeNode.mk ["b.md".toList] [])] subLists ∧
      JsObject.get m "docs".toList = some
        ((["a.md".toList].filter (fun file => decide (file ≠ "README.md".toList))).map
            (fun file => ({ indent := 0, file := file,
                            title := (exampleRead (pathJoin "docs".toList file)).bind titleOf } :
              Entry)) ++
          (List.zipWith
            (fun (fs : JsString × TreeNode) (l : List Entry) =>
              ({ indent := 0, file := fs.1 ++ "/README.md".toList,
                 title := some (capitalize asciiUpper fs.1) } : Entry) ::
                l.map (fun e => { indent := e.indent + 1, file := fs.1 ++ '/' :: e.file,
                                  title := e.title }))
            [("sub".toList, TreeNode.mk ["b.md".toList] [])] subLists).flatten)) ∧
    (createContentMap exampleRead asciiUpper
        (.mk ["a.md".toList] [("sub".toList, .mk ["b.md".toList] [])]) "docs".toList).bind
        (fun m => JsObject.get m "docs".toList) =
      some [⟨0, "a.md".toList, some "Alpha".toList⟩,
        ⟨0, "sub/README.md".toList, some "Sub".toList⟩,
        ⟨1, "sub/b.md".toList, some "Beta".toList⟩] :=
  ⟨createContentMap_own_list exampleRead asciiUpper ["a.md".toList]
    [("sub".toList, .mk ["b.md".toList] [])] "docs".toList (by decide) (by decide), by decide⟩

theorem block_substring_folderBlocks (readFileSync : JsString → Option JsString)
    (toUpperCase : Char → JsString) (p : JsString) (fs : JsString × TreeNode) :
    ∀ fl : List (JsString × TreeNode), fs ∈ fl →
      (folderNameContent toUpperCase fs.1 ::
        (ownEntries readFileSync toUpperCase fs.2 (pathJoin p fs.1)).map (adjust fs.1)) <:+:
        folderBlocks readFileSync toUpperCase fl p
  | [], h => absurd h (List.not_mem_nil _)
  | (g, sub) :: rest, h => by
    rw [folderBlocks]
    rcases List.mem_cons.mp h with rfl | h
    · exact (List.prefix_append _ _).isInfix
    · exact (block_substring_folderBlocks readFileSync toUpperCase p fs rest h).trans
        (List.suffix_append _ _).isInfix

/-- C2: for every tree node whose folder keys are directory-entry names, each
occurring once (the reads succeeding), and every sub-directory `f` of it, the
parent's list holds, right after the link entry of `f` and in the order of
`f`'s own list, one copy of every entry `e` of the list stored under `f`'s own
path, with indent `e.indent + 1`, file `f/` followed by `e.file`, and the same
title. -/
theorem createContentMap_copies (readFileSync : JsString → Option JsString)
    (toUpperCase : Char → JsString) (files : List JsString)
    (folders : List (JsString × TreeNode)) (p : JsString) (f : JsString) (sub : TreeNode)
    (hwf : (TreeNode.mk files folders).wellFormed = true)
    (hreads : readsOk readFileSync (.mk files folders) p = true)
    (hmem : (f, sub) ∈ folders) :
    ∃ (m : ContentMap) (subList parentList : List Entry),
      createContentMap readFileSync toUpperCase (.mk files folders) p = some m ∧
      JsObject.get m (pathJoin p f) = some subList ∧
      JsObject.get m p = some parentList ∧
      (({ indent := 0, file := f ++ "/README.md".toList,
          title := some (capitalize toUpperCase f) } : Entry) ::
        subList.map (fun e => { indent := e.indent + 1, file := f ++ '/' :: e.file,
                                title := e.title })) <:+: parentList := by
  obtain ⟨m, hm⟩ := createContentMap_some readFileSync toUpperCase _ p hwf hreads
  refine ⟨m, ownEntries readFileSync toUpperCase sub (pathJoin p f),
    ownEntries readFileSync toUpperCase (.mk files folders) p, hm,
    createContentMap_get_folder _ _ files folders p m hwf hm (f, sub) hmem, ?_, ?_⟩
  · rw [createContentMap_get _ _ _ _ _ hwf hm, get_expectedMap_self]
  · have hfl : wellFormedList folders = true := by rw [TreeNode.wellFormed] at hwf; exact hwf
    have hf : entryName f = true := by
      clear hm hreads hwf
      induction folders with
      | nil => exact absurd hmem (List.not_mem_nil _)
      | cons x rest ih =>
        obtain ⟨g, t⟩ := x
        obtain ⟨h1, _, _, h4⟩ := (wellFormedList_cons g t rest).mp hfl
        rcases List.mem_cons.mp hmem with e | e
        · rw [(Prod.mk.inj e).1]; exact h1
        · exact ih e h4
    have := block_substring_folderBlocks readFileSync toUpperCase p (f, sub) folders hmem
    rw [folderNameContent, pathJoin_toc f (entryName_valid f hf)] at this
    rw [ownEntries]
    exact this.trans (List.suffix_append _ _).isInfix

/-- In the example tree the copy of the entry of `b.md` follows the link of
`sub` in the list of `docs`. -/
theorem createContentMap_copies_witness :
    ∃ (m : ContentMap) (subList parentList : List Entry),
      createContentMap exampleRead asciiUpper
        (.mk ["a.md".toList] [("sub".toList, .mk ["b.md".toList] [])]) "docs".toList = some m ∧
      JsObject.get m (pathJoin "docs".toList "sub".toList) = some subList ∧
      JsObject.get m "docs".toList = some parentList ∧
      (({ indent := 0, file := "sub".toList ++ "/README.md".toList,
          title := some (capitalize asciiUpper "sub".toList) } : Entry) ::
        subList.map (fun e => { indent := e.indent + 1, file := "sub".toList ++ '/' :: e.file,
                                title := e.title })) <:+: parentList :=
  createContentMap_copies exampleRead asciiUpper ["a.md".toList]
    [("sub".toList, .mk ["b.md".toList] [])] "docs".toList "sub".toList
    (.mk ["b.md".toList] []) (by decide) (by decide) (List.mem_cons_self _ _)

/-! ## The scanner and the content map together -/

theorem listingWellFormed_cons (name : JsString) (entry : FsEntry)
    (rest : List (JsString × FsEntry)) :
    listingWellFormed ((name, entry) :: rest) = true ↔
      entryName name = true ∧ name ∉ rest.map Prod.fst ∧ entry.wellFormed = true ∧
        listingWellFormed rest = true := by
  rw [listingWellFormed, Bool.and_eq_true, Bool.and_eq_true, Bool.and_eq_true]
  have : (!rest.any (fun q => q.1 == name)) = true ↔ name ∉ rest.map Prod.fst := by
    have h := JsObject.has_iff_mem_keys rest name
    unfold JsObject.keys at h
    rw [← h]
    show (!JsObject.has rest name) = true ↔ _
    generalize JsObject.has rest name = b
    cases b <;> decide
  rw [this]
  tauto

theorem listingWellFormed_nodup :
    ∀ l : List (JsString × FsEntry), listingWellFormed l = true → (l.map Prod.fst).Nodup
  | [], _ => List.nodup_nil
  | (name, entry) :: rest, h => by
    obtain ⟨_, h2, _, h4⟩ := (listingWellFormed_cons name entry rest).mp h
    rw [List.map_cons]
    exact List.nodup_cons.mpr ⟨h2, listingWellFormed_nodup rest h4⟩

theorem wellFormedList_iff :
    ∀ fl : List (JsString × TreeNode),
      wellFormedList fl = true ↔
        (∀ fs ∈ fl, entryName fs.1 = true ∧ fs.2.wellFormed = true) ∧
          (JsObject.keys fl).Nodup
  | [] => by
    rw [wellFormedList]
    exact ⟨fun _ => ⟨fun fs h => absurd h (List.not_mem_nil _), List.nodup_nil⟩, fun _ => rfl⟩
  | (f, sub) :: rest => by
    rw [wellFormedList_cons, wellFormedList_iff rest, JsObject.keys_cons, List.nodup_cons]
    constructor
    · rintro ⟨h1, h2, h3, h4, h5⟩
      refine ⟨?_, h2, h5⟩
      intro fs hfs
      rcases List.mem_cons.mp hfs with rfl | hfs
      · exact ⟨h1, h3⟩
      · exact h4 fs hfs
    · rintro ⟨h1, h2, h3⟩
      exact ⟨(h1 (f, sub) (List.mem_cons_self _ _)).1, h2,
        (h1 (f, sub) (List.mem_cons_self _ _)).2,
        fun fs hfs => h1 fs (List.mem_cons_of_mem _ hfs), h3⟩

theorem keptFolder_fst (excludedArray : List JsString) (includeText : JsString)
    (excludes : List JsString) (startPath : JsString) (c : JsString × FsEntry)
    (p : JsString × TreeNode)
    (h : keptFolder excludedArray includeText excludes startPath c = some p) : p.1 = c.1 := by
  obtain ⟨_, _, hp, _⟩ := keptFolder_some _ _ _ _ c p h
  rw [hp]

theorem kept_sublist (excludedArray : List JsString) (includeText : JsString)
    (excludes : List JsString) (startPath : JsString) :
    ∀ l : List (JsString × FsEntry),
      ((l.filterMap (keptFolder excludedArray includeText excludes startPath)).map
        Prod.fst).Sublist (l.map Prod.fst)
  | [] => List.Sublist.slnil
  | c :: rest => by
    rw [List.filterMap_cons, List.map_cons]
    cases hk : keptFolder excludedArray includeText excludes startPath c with
    | none => exact (kept_sublist excludedArray includeText excludes startPath rest).cons _
    | some p =>
      dsimp only
      rw [List.map_cons, keptFolder_fst _ _ _ _ c p hk]
      exact (kept_sublist excludedArray includeText excludes startPath rest).cons₂ _

theorem createFolderTree_folders_perm (excludedArray : List JsString)
    (startPath includeText : JsString) (excludes : List JsString)
    (filePaths : List (JsString × FsEntry)) (hl : listingWellFormed filePaths = true) :
    (createFolderTree excludedArray startPath includeText excludes (some filePaths)).folders.Perm
      (filePaths.filterMap (keptFolder excludedArray includeText excludes startPath)) := by
  rw [createFolderTree_folders]
  have hn : (JsObject.keys
      (filePaths.filterMap (keptFolder excludedArray includeText excludes startPath))).Nodup :=
    (kept_sublist excludedArray includeText excludes startPath filePaths).nodup
      (listingWellFormed_nodup filePaths hl)
  have := JsObject.assign_perm
    (filePaths.filterMap (keptFolder excludedArray includeText excludes startPath)) []
    (fun k _ hk => absurd hk (List.not_mem_nil _)) hn
  rw [List.nil_append] at this
  exact this

/-- With the kept folders of a listing well formed, the scanned node is. -/
theorem createFolderTree_wellFormed_of_kept (excludedArray : List JsString)
    (startPath includeText : JsString) (excludes : List JsString)
    (filePaths : List (JsString × FsEntry)) (hl : listingWellFormed filePaths = true)
    (hk : ∀ fs ∈ filePaths.filterMap (keptFolder excludedArray includeText excludes startPath),
      entryName fs.1 = true ∧ fs.2.wellFormed = true) :
    (createFolderTree excludedArray startPath includeText excludes
      (some filePaths)).wellFormed = true := by
  have hperm := createFolderTree_folders_perm excludedArray startPath includeText excludes
    filePaths hl
  have e : ∀ t : TreeNode, t.wellFormed = wellFormedList t.folders := by
    intro t; cases t; rw [TreeNode.wellFormed]; rfl
  rw [e, wellFormedList_iff]
  constructor
  · intro fs hfs
    exact hk fs (hperm.mem_iff.mp hfs)
  · rw [(JsObject.keys_perm hperm).nodup_iff]
    exact (kept_sublist excludedArray includeText excludes startPath filePaths).nodup
      (listingWellFormed_nodup filePaths hl)

theorem kept_wellFormed (excludedArray : List JsString) (includeText : JsString)
    (excludes : List JsString) :
    ∀ (l : List (JsString × FsEntry)) (startPath : JsString), listingWellFormed l = true →
      ∀ fs ∈ l.filterMap (keptFolder excludedArray includeText excludes startPath),
        entryName fs.1 = true ∧ fs.2.wellFormed = true
  | [], _, _, fs, h => absurd h (List.not_mem_nil _)
  | (name, .file content) :: rest, startPath, hl, fs, h => by
    obtain ⟨_, _, _, h4⟩ := (listingWellFormed_cons _ _ rest).mp hl
    have e : keptFolder excludedArray includeText excludes startPath
        (name, FsEntry.file content) = none := rfl
    rw [List.filterMap_cons, e] at h
    exact kept_wellFormed excludedArray includeText excludes rest startPath h4 fs h
  | (name, .dir children) :: rest, startPath, hl, fs, h => by
    obtain ⟨h1, _, h3, h4⟩ := (listingWellFormed_cons _ _ rest).mp hl
    rw [FsEntry.wellFormed] at h3
    rw [List.filterMap_cons] at h
    cases hk : keptFolder excludedArray includeText excludes startPath
        (name, FsEntry.dir children) with
    | none =>
      rw [hk] at h
      exact kept_wellFormed excludedArray includeText excludes rest startPath h4 fs h
    | some p =>
      rw [hk] at h
      rcases List.mem_cons.mp h with rfl | h
      · obtain ⟨children', hdir, hp, _, _⟩ := keptFolder_some _ _ _ _ _ fs hk
        have hc : children' = children := by
          simp only [FsEntry.dir.injEq] at hdir
          exact hdir.symm
        subst hc
        rw [hp]
        exact ⟨h1, createFolderTree_wellFormed_of_kept excludedArray _ includeText excludes
          children' h3
          (kept_wellFormed excludedArray includeText excludes children' _ h3)⟩
      · exact kept_wellFormed excludedArray includeText excludes rest startPath h4 fs h

/-- The scan of a well-formed listing is a well-formed tree node. -/
theorem createFolderTree_wellFormed (excludedArray : List JsString)
    (startPath includeText : JsString) (excludes : List JsString)
    (found : Option (List (JsString × FsEntry)))
    (hl : ∀ filePaths, found = some filePaths → listingWellFormed filePaths = true) :
    (createFolderTree excludedArray startPath includeText excludes found).wellFormed = true := by
  cases found with
  | none => rfl
  | some filePaths =>
    exact createFolderTree_wellFormed_of_kept excludedArray startPath includeText excludes
      filePaths (hl filePaths rfl)
      (kept_wellFormed excludedArray includeText excludes filePaths startPath (hl filePaths rfl))

theorem folderPathsList_eq_flatMap (p : JsString) :
    ∀ fl : List (JsString × TreeNode),
      folderPathsList fl p =
        fl.flatMap (fun fs => pathJoin p fs.1 :: folderPaths fs.2 (pathJoin p fs.1))
  | [] => rfl
  | (f, sub) :: rest => by
    rw [folderPathsList, List.flatMap_cons, folderPathsList_eq_flatMap p rest]
    rfl

theorem folderPathsList_perm (p : JsString) {fl fl' : List (JsString × TreeNode)}
    (h : fl.Perm fl') : (folderPathsList fl p).Perm (folderPathsList fl' p) := by
  rw [folderPathsList_eq_flatMap, folderPathsList_eq_flatMap]
  exact h.flatMap_right _

theorem folderPaths_eq (t : TreeNode) (p : JsString) :
    folderPaths t p = folderPathsList t.folders p := by
  cases t; rw [folderPaths]; rfl

theorem keptDirs_nil (excludedArray : List JsString) (includeText : JsString)
    (excludes : List JsString) (startPath : JsString) :
    keptDirs excludedArray includeText excludes startPath [] = [] := rfl

theorem keptDirs_cons_excluded (excludedArray : List JsString) (includeText : JsString)
    (excludes : List JsString) (startPath name : JsString) (entry : FsEntry)
    (rest : List (JsString × FsEntry))
    (h : excludedArrayContains excludedArray (pathJoin startPath name) = true) :
    keptDirs excludedArray includeText excludes startPath ((name, entry) :: rest) =
      keptDirs excludedArray includeText excludes startPath rest := by
  rw [keptDirs, visitedDirs, if_pos h, List.nil_append]; rfl

theorem keptDirs_cons_file (excludedArray : List JsString) (includeText : JsString)
    (excludes : List JsString) (startPath name : JsString) (content : JsString)
    (rest : List (JsString × FsEntry)) :
    keptDirs excludedArray includeText excludes startPath ((name, .file content) :: rest) =
      keptDirs excludedArray includeText excludes startPath rest := by
  rw [keptDirs, visitedDirs, visitedBelow]
  split <;> rfl

theorem keptDirs_cons_dir (excludedArray : List JsString) (includeText : JsString)
    (excludes : List JsString) (startPath name : JsString)
    (children rest : List (JsString × FsEntry))
    (h : excludedArrayContains excludedArray (pathJoin startPath name) = false) :
    keptDirs excludedArray includeText excludes startPath ((name, .dir children) :: rest) =
      (if (createFolderTree excludedArray (pathJoin startPath name) includeText excludes
            (some children)).nonEmpty = true then [pathJoin startPath name] else []) ++
        keptDirs excludedArray includeText excludes (pathJoin startPath name) children ++
        keptDirs excludedArray includeText excludes startPath rest := by
  rw [keptDirs, visitedDirs, visitedBelow, h]
  simp only [Bool.false_eq_true, if_false, List.cons_append, List.filter_cons, List.filter_append,
    List.map_append, createFolderTree, keptDirs]
  split <;> simp

theorem keptFolder_none_of_empty (excludedArray : List JsString)
    (startPath includeText : JsString) (excludes : List JsString)
    (filePaths : List (JsString × FsEntry))
    (h : (createFolderTree excludedArray startPath includeText excludes
      (some filePaths)).nonEmpty = false) :
    ∀ c ∈ filePaths, keptFolder excludedArray includeText excludes startPath c = none := by
  intro c hc
  cases hk : keptFolder excludedArray includeText excludes startPath c with
  | none => rfl
  | some p =>
    have hmem := (mem_keys_createFolderTree excludedArray startPath includeText excludes
      filePaths c.1).mpr ⟨c, hc, rfl, by rw [hk]; rfl⟩
    have : (JsObject.keys (createFolderTree excludedArray startPath includeText excludes
        (some filePaths)).folders).length = 0 := by
      simp only [TreeNode.nonEmpty, decide_eq_false_iff_not, not_or, not_lt,
        Nat.le_zero_eq] at h
      exact h.2
    rw [List.length_eq_zero] at this
    rw [this] at hmem
    exact absurd hmem (List.not_mem_nil _)

/-- Below a directory whose scan is empty nothing is kept. -/
theorem keptDirs_of_none (excludedArray : List JsString) (includeText : JsString)
    (excludes : List JsString) :
    ∀ (l : List (JsString × FsEntry)) (startPath : JsString),
      (∀ c ∈ l, keptFolder excludedArray includeText excludes startPath c = none) →
      keptDirs excludedArray includeText excludes startPath l = []
  | [], _, _ => rfl
  | (name, .file content) :: rest, startPath, h => by
    rw [keptDirs_cons_file]
    exact keptDirs_of_none excludedArray includeText excludes rest startPath
      (fun c hc => h c (List.mem_cons_of_mem _ hc))
  | (name, .dir children) :: rest, startPath, h => by
    have ihrest := keptDirs_of_none excludedArray includeText excludes rest startPath
      (fun c hc => h c (List.mem_cons_of_mem _ hc))
    by_cases hex : excludedArrayContains excludedArray (pathJoin startPath name) = true
    · rw [keptDirs_cons_excluded _ _ _ _ _ _ _ hex]
      exact ihrest
    · have hex' : excludedArrayContains excludedArray (pathJoin startPath name) = false := by
        simpa using hex
      have hnone := h (name, .dir children) (List.mem_cons_self _ _)
      have hne : (createFolderTree excludedArray (pathJoin startPath name) includeText excludes
          (some children)).nonEmpty = false := by
        cases hb : (createFolderTree excludedArray (pathJoin startPath name) includeText excludes
          (some children)).nonEmpty with
        | false => rfl
        | true =>
          have := keptFolder_dir excludedArray includeText excludes startPath name children
            (fun hm => hex ((excludedArrayContains_iff _ _).mpr hm)) hb
          rw [hnone] at this
          exact absurd this (by simp)
      rw [keptDirs_cons_dir _ _ _ _ _ _ _ hex', hne, ihrest,
        keptDirs_of_none excludedArray includeText excludes children (pathJoin startPath name)
          (keptFolder_none_of_empty _ _ _ _ _ hne)]
      rfl

mutual
/-- The folders of the scanned tree are the visited directories that are not
pruned as empty. -/
theorem folderPaths_createFolderTree (excludedArray : List JsString) (includeText : JsString)
    (excludes : List JsString) :
    ∀ (l : List (JsString × FsEntry)) (startPath : JsString), listingWellFormed l = true →
      (folderPaths (createFolderTree excludedArray startPath includeText excludes (some l))
        startPath).Perm (keptDirs excludedArray includeText excludes startPath l)
  | l, startPath, hl => by
    rw [folderPaths_eq]
    exact (folderPathsList_perm startPath
      (createFolderTree_folders_perm excludedArray startPath includeText excludes l hl)).trans
      (folderPathsList_kept excludedArray includeText excludes l startPath hl)
theorem folderPathsList_kept (excludedArray : List JsString) (includeText : JsString)
    (excludes : List JsString) :
    ∀ (l : List (JsString × FsEntry)) (startPath : JsString), listingWellFormed l = true →
      (folderPathsList (l.filterMap (keptFolder excludedArray includeText excludes startPath))
        startPath).Perm (keptDirs excludedArray includeText excludes startPath l)
  | [], _, _ => List.Perm.refl _
  | (name, .file content) :: rest, startPath, hl => by
    obtain ⟨_, _, _, h4⟩ := (listingWellFormed_cons _ _ rest).mp hl
    have e : keptFolder excludedArray includeText excludes startPath
        (name, FsEntry.file content) = none := rfl
    rw [List.filterMap_cons, e, keptDirs_cons_file]
    exact folderPathsList_kept excludedArray includeText excludes rest startPath h4
  | (name, .dir children) :: rest, startPath, hl => by
    obtain ⟨_, _, h3, h4⟩ := (listingWellFormed_cons _ _ rest).mp hl
    rw [FsEntry.wellFormed] at h3
    have ihrest := folderPathsList_kept excludedArray includeText excludes rest startPath h4
    by_cases hex : excludedArrayContains excludedArray (pathJoin startPath name) = true
    · have e : keptFolder excludedArray includeText excludes startPath
          (name, FsEntry.dir children) = none := by
        simp [keptFolder, hex]
      rw [List.filterMap_cons, e, keptDirs_cons_excluded _ _ _ _ _ _ _ hex]
      exact ihrest
    · have hex' : excludedArrayContains excludedArray (pathJoin startPath name) = false := by
        simpa using hex
      have hnot : pathJoin startPath name ∉ excludedArray :=
        fun hm => hex ((excludedArrayContains_iff _ _).mpr hm)
      rw [keptDirs_cons_dir _ _ _ _ _ _ _ hex', List.filterMap_cons]
      cases hb : (createFolderTree excludedArray (pathJoin startPath name) includeText excludes
          (some children)).nonEmpty with
      | true =>
        rw [keptFolder_dir excludedArray includeText excludes startPath name children hnot hb]
        dsimp only
        rw [folderPathsList, if_pos rfl]
        have ihc := folderPaths_createFolderTree excludedArray includeText excludes children
          (pathJoin startPath name) h3
        simpa using (ihc.append ihrest)
      | false =>
        have e : keptFolder excludedArray includeText excludes startPath
            (name, FsEntry.dir children) = none := by
          cases hk : keptFolder excludedArray includeText excludes startPath
              (name, FsEntry.dir children) with
          | none => rfl
          | some q =>
            obtain ⟨children', hdir, hq, _, hne⟩ := keptFolder_some _ _ _ _ _ q hk
            have hc : children' = children := by
              simp only [FsEntry.dir.injEq] at hdir
              exact hdir.symm
            subst hc
            rw [hq] at hne
            rw [hb] at hne
            exact absurd hne (by simp)
        rw [e, keptDirs_of_none excludedArray includeText excludes children
          (pathJoin startPath name) (keptFolder_none_of_empty _ _ _ _ _ hb)]
        simpa using ihrest
end

/-! ## Rendering -/

theorem lastSegment_eq (k seg : JsString) (hseg : '/' ∉ seg)
    (hlast : k = seg ∨ ∃ pre, k = pre ++ '/' :: seg) :
    (split k ['/']).getLastD [] = seg := by
  rcases hlast with rfl | ⟨pre, rfl⟩
  · rw [split_char_notin _ _ hseg]; rfl
  · rw [split_char_append, split_char_notin _ _ hseg]
    simp [List.getLastD_eq_getLast?]

/-- C8: for every content map and every key `k` of it with list `entries`,
`createContentMarkdown` produces the document with path `k/README.md` whose
data is the header, the section label and the body; the header is the main
title when the last `/`-separated segment `seg` of `k` is `.` and the back-link
with the capitalised segment otherwise, and the body is the concatenation in
list order of one line per entry: `indent * 2` spaces, `* [title](file)` and a
newline. -/
theorem createContentMarkdown_document (toUpperCase : Char → JsString) (contentMap : ContentMap)
    (k : JsString) (entries : List Entry) (seg : JsString)
    (hk : JsObject.get contentMap k = some entries)
    (hseg : '/' ∉ seg) (hlast : k = seg ∨ ∃ pre, k = pre ++ '/' :: seg) :
    (⟨k ++ "/README.md".toList,
      (if seg = ".".toList then "# Edge Development Conventions".toList
        else "# [<](../README.md) &nbsp; ".toList ++ capitalize toUpperCase seg ++
          " Conventions".toList) ++
      "\n\n## Table of Contents\n\n".toList ++
      (entries.map (fun e => List.replicate (e.indent * 2) ' ' ++ "* [".toList ++
        titleText e.title ++ "](".toList ++ e.file ++ ")\n".toList)).flatten⟩ : Document) ∈
      createContentMarkdown toUpperCase contentMap := by
  unfold createContentMarkdown
  refine List.mem_map.mpr ⟨k, JsObject.get_some_mem_keys _ _ _ hk, ?_⟩
  simp only [hk, Option.getD_some, headerOf, lastSegment_eq k seg hseg hlast]
  have e1 : entryLine = (fun e => List.replicate (e.indent * 2) ' ' ++ "* [".toList ++
        titleText e.title ++ "](".toList ++ e.file ++ ")\n".toList) := rfl
  rw [e1]
  congr 1

/-- The document of the key `docs/sub` with one entry at indent 1. -/
theorem createContentMarkdown_document_witness :
    (⟨"docs/sub/README.md".toList,
      "# [<](../README.md) &nbsp; Sub Conventions\n\n## Table of Contents\n\n  * [Beta](b.md)\n".toList⟩ :
        Document) ∈
      createContentMarkdown asciiUpper
        [("docs/sub".toList, [⟨1, "b.md".toList, some "Beta".toList⟩])] :=
  createContentMarkdown_document asciiUpper
    [("docs/sub".toList, [⟨1, "b.md".toList, some "Beta".toList⟩])] "docs/sub".toList
    [⟨1, "b.md".toList, some "Beta".toList⟩] "sub".toList (by decide) (by decide)
    (Or.inr ⟨"docs".toList, by decide⟩)

/-! ## Keys, documents and exclusion -/

theorem map_path_createContentMarkdown (toUpperCase : Char → JsString) (m : ContentMap) :
    (createContentMarkdown toUpperCase m).map Document.path =
      (JsObject.keys m).map (fun k => k ++ "/README.md".toList) := by
  rw [createContentMarkdown, List.map_map]
  rfl

theorem nodup_map_append_right (suffix : JsString) (l : List JsString) (h : l.Nodup) :
    (l.map (fun k => k ++ suffix)).Nodup :=
  h.map (fun _ _ e => List.append_cancel_right e)

/-- C3: for every tree node whose folder keys at every depth are
directory-entry names, each occurring once (the reads succeeding), the keys of
`createContentMap(node, p)` are exactly `p` and the joined path of every
descendant folder, and these are pairwise distinct, so that no list is
overwritten; `createContentMarkdown` emits one document per key, at the path
`key/README.md`, and these paths are pairwise distinct; and when the node is
the scan of a well-formed directory listing, the keys are exactly the root
and the visited directories that are not pruned as empty. -/
theorem createContentMap_keys (readFileSync : JsString → Option JsString)
    (toUpperCase : Char → JsString) (node : TreeNode) (p : JsString)
    (hwf : node.wellFormed = true) (hreads : readsOk readFileSync node p = true) :
    ∃ m, createContentMap readFileSync toUpperCase node p = some m ∧
      (JsObject.keys m).Perm (p :: folderPaths node p) ∧
      (p :: folderPaths node p).Nodup ∧
      (createContentMarkdown toUpperCase m).map Document.path =
        (JsObject.keys m).map (fun k => k ++ "/README.md".toList) ∧
      ((createContentMarkdown toUpperCase m).map Document.path).Nodup ∧
      ∀ (excludedArray : List JsString) (includeText : JsString) (excludes : List JsString)
        (filePaths : List (JsString × FsEntry)),
        listingWellFormed filePaths = true →
        node = createFolderTree excludedArray p includeText excludes (some filePaths) →
        (JsObject.keys m).Perm (p :: keptDirs excludedArray includeText excludes p filePaths) := by
  obtain ⟨m, hm⟩ := createContentMap_some readFileSync toUpperCase node p hwf hreads
  have hperm := createContentMap_perm readFileSync toUpperCase node p m hwf hm
  have hkeys : (JsObject.keys m).Perm (p :: folderPaths node p) := by
    rw [← keys_expectedMap readFileSync toUpperCase]
    exact JsObject.keys_perm hperm
  have hnd : (p :: folderPaths node p).Nodup :=
    List.nodup_cons.mpr ⟨not_mem_folderPaths_self node p hwf, folderPaths_nodup node p hwf⟩
  refine ⟨m, hm, hkeys, hnd, map_path_createContentMarkdown toUpperCase m, ?_, ?_⟩
  · rw [map_path_createContentMarkdown]
    exact nodup_map_append_right _ _ (hkeys.nodup_iff.mpr hnd)
  · intro excludedArray includeText excludes filePaths hl hnode
    refine hkeys.trans (List.Perm.cons p ?_)
    rw [hnode]
    exact folderPaths_createFolderTree excludedArray includeText excludes filePaths p hl

/-- For the example directory `docs`, the map has the keys `docs` and
`docs/sub`, and the documents have distinct paths. -/
theorem createContentMap_keys_witness :
    ∃ m, createContentMap exampleRead asciiUpper
        (createFolderTree [] "docs".toList ".md".toList [] (some exampleListing))
        "docs".toList = some m ∧
      (JsObject.keys m).Perm
        ("docs".toList :: keptDirs [] ".md".toList [] "docs".toList exampleListing) ∧
      ((createContentMarkdown asciiUpper m).map Document.path).Nodup := by
  obtain ⟨m, h1, _, _, _, h5, h6⟩ := createContentMap_keys exampleRead asciiUpper
    (createFolderTree [] "docs".toList ".md".toList [] (some exampleListing)) "docs".toList
    (by decide) (by decide)
  exact ⟨m, h1, h6 [] ".md".toList [] exampleListing (by decide) rfl, h5⟩

/-- The visited directories are not excluded. -/
theorem keptDirs_not_excluded (excludedArray : List JsString) (includeText : JsString)
    (excludes : List JsString) :
    ∀ (l : List (JsString × FsEntry)) (startPath : JsString),
      ∀ k ∈ keptDirs excludedArray includeText excludes startPath l, k ∉ excludedArray
  | [], _, k, hk => absurd hk (List.not_mem_nil _)
  | (name, .file content) :: rest, startPath, k, hk => by
    rw [keptDirs_cons_file] at hk
    exact keptDirs_not_excluded excludedArray includeText excludes rest startPath k hk
  | (name, .dir children) :: rest, startPath, k, hk => by
    by_cases hex : excludedArrayContains excludedArray (pathJoin startPath name) = true
    · rw [keptDirs_cons_excluded _ _ _ _ _ _ _ hex] at hk
      exact keptDirs_not_excluded excludedArray includeText excludes rest startPath k hk
    · have hex' : excludedArrayContains excludedArray (pathJoin startPath name) = false := by
        simpa using hex
      rw [keptDirs_cons_dir _ _ _ _ _ _ _ hex'] at hk
      rcases List.mem_append.mp hk with hk | hk
      · rcases List.mem_append.mp hk with hk | hk
        · split at hk
          · rw [List.mem_singleton.mp hk]
            exact fun hm => hex ((excludedArrayContains_iff _ _).mpr hm)
          · exact absurd hk (List.not_mem_nil _)
        · exact keptDirs_not_excluded excludedArray includeText excludes children _ k hk
      · exact keptDirs_not_excluded excludedArray includeText excludes rest startPath k hk

theorem pathJoin_ne_self (p f : JsString) (hf : validName f = true) : pathJoin p f ≠ p := by
  intro e
  have := congrArg List.length (congrArg pathSegments e)
  rw [pathSegments_pathJoin p f hf] at this
  simp at this

theorem entryName_of_mem_listing :
    ∀ (l : List (JsString × FsEntry)), listingWellFormed l = true →
      ∀ c ∈ l, entryName c.1 = true
  | [], _, c, hc => absurd hc (List.not_mem_nil _)
  | (name, entry) :: rest, hl, c, hc => by
    obtain ⟨h1, _, _, h4⟩ := (listingWellFormed_cons name entry rest).mp hl
    rcases List.mem_cons.mp hc with rfl | hc
    · exact h1
    · exact entryName_of_mem_listing rest h4 c hc

/-- No excluded path other than the start path is a key of the map of a
scanned tree, and none has a document. -/
theorem excluded_not_key (excludedArray : List JsString) (startPath includeText : JsString)
    (excludes : List JsString) (filePaths : List (JsString × FsEntry))
    (readFileSync : JsString → Option JsString) (toUpperCase : Char → JsString)
    (m : ContentMap) (hl : listingWellFormed filePaths = true)
    (hm : createContentMap readFileSync toUpperCase
      (createFolderTree excludedArray startPath includeText excludes (some filePaths))
      startPath = some m)
    (x : JsString) (hx : x ∈ excludedArray) (hne : x ≠ startPath) :
    x ∉ JsObject.keys m ∧
      ∀ d ∈ createContentMarkdown toUpperCase m, d.path ≠ x ++ "/README.md".toList := by
  have hwf := createFolderTree_wellFormed excludedArray startPath includeText excludes
    (some filePaths) (fun fp e => by rw [← Option.some.inj e]; exact hl)
  have hperm := createContentMap_perm readFileSync toUpperCase _ startPath m hwf hm
  have hkeys : (JsObject.keys m).Perm
      (startPath :: keptDirs excludedArray includeText excludes startPath filePaths) := by
    have h1 := JsObject.keys_perm hperm
    rw [keys_expectedMap] at h1
    exact h1.trans (List.Perm.cons _
      (folderPaths_createFolderTree excludedArray includeText excludes filePaths startPath hl))
  have hnot : x ∉ JsObject.keys m := by
    intro hk
    rcases List.mem_cons.mp (hkeys.mem_iff.mp hk) with e | hk
    · exact hne e
    · exact keptDirs_not_excluded excludedArray includeText excludes filePaths startPath x hk hx
  refine ⟨hnot, ?_⟩
  intro d hd e
  have hmem : d.path ∈ (createContentMarkdown toUpperCase m).map Document.path :=
    List.mem_map.mpr ⟨d, hd, rfl⟩
  rw [map_path_createContentMarkdown, List.mem_map] at hmem
  obtain ⟨k, hk, hkd⟩ := hmem
  rw [e] at hkd
  exact hnot (List.append_cancel_right hkd ▸ hk)

/-- C4: for every directory that `createFolderTree` scans (start path and
listing arbitrary) and every child whose joined path equals an entry of the
exclusion list, the child is neither in `files` nor a key of `folders` of the
resulting node; in the map built from the scan of a well-formed listing no
excluded path below the start path, that of such a child in particular, is a
key, and none has a document; and a child whose joined path is not equal to an
entry, whether or not it contains one, is not skipped: it is pushed to `files`
when it passes the include and self-name tests, and it is a key of `folders`
when it is a directory with a non-empty scan. -/
theorem createFolderTree_exclusion (excludedArray : List JsString)
    (startPath includeText : JsString) (excludes : List JsString)
    (filePaths : List (JsString × FsEntry)) :
    (∀ fileName : JsString, pathJoin startPath fileName ∈ excludedArray →
      fileName ∉
        (createFolderTree excludedArray startPath includeText excludes (some filePaths)).files ∧
      fileName ∉ JsObject.keys
        (createFolderTree excludedArray startPath includeText excludes (some filePaths)).folders) ∧
    (∀ (readFileSync : JsString → Option JsString) (toUpperCase : Char → JsString)
      (m : ContentMap), listingWellFormed filePaths = true →
      createContentMap readFileSync toUpperCase
        (createFolderTree excludedArray startPath includeText excludes (some filePaths))
        startPath = some m →
      (∀ x ∈ excludedArray, x ≠ startPath →
        x ∉ JsObject.keys m ∧
          ∀ d ∈ createContentMarkdown toUpperCase m, d.path ≠ x ++ "/README.md".toList) ∧
      (∀ c ∈ filePaths, pathJoin startPath c.1 ∈ excludedArray →
        pathJoin startPath c.1 ∉ JsObject.keys m ∧
          ∀ d ∈ createContentMarkdown toUpperCase m,
            d.path ≠ pathJoin startPath c.1 ++ "/README.md".toList)) ∧
    (∀ (fileName : JsString) (entry : FsEntry), (fileName, entry) ∈ filePaths →
      pathJoin startPath fileName ∉ excludedArray →
      (includeText <:+: pathJoin startPath fileName →
        (split fileName ['.']).head? ≠
          some (substring startPath (lastIndexOf startPath '/' + 1)) →
        fileName ∈
          (createFolderTree excludedArray startPath includeText excludes
            (some filePaths)).files) ∧
      (∀ children, entry = .dir children →
        (createFolderTree excludedArray (pathJoin startPath fileName) includeText excludes
          (some children)).nonEmpty = true →
        fileName ∈ JsObject.keys
          (createFolderTree excludedArray startPath includeText excludes
            (some filePaths)).folders)) := by
  refine ⟨?_, ?_, ?_⟩
  · intro fileName hex
    constructor
    · rw [createFolderTree_files]
      intro hmem
      exact ((pushesFile_iff _ _ _ _).mp (List.mem_filter.mp hmem).2).1 hex
    · intro hmem
      obtain ⟨c, _, hck, hk⟩ := (mem_keys_createFolderTree _ _ _ _ _ _).mp hmem
      obtain ⟨q, hq⟩ := Option.isSome_iff_exists.mp hk
      obtain ⟨_, _, _, hnot, _⟩ := keptFolder_some _ _ _ _ c q hq
      rw [hck] at hnot
      exact hnot hex
  · intro readFileSync toUpperCase m hl hm
    constructor
    · intro x hx hne
      exact excluded_not_key excludedArray startPath includeText excludes filePaths
        readFileSync toUpperCase m hl hm x hx hne
    · intro c hc hex
      exact excluded_not_key excludedArray startPath includeText excludes filePaths
        readFileSync toUpperCase m hl hm _ hex
        (pathJoin_ne_self startPath c.1
          (entryName_valid c.1 (entryName_of_mem_listing filePaths hl c hc)))
  · intro fileName entry hmem hnot
    constructor
    · intro hinc hself
      rw [createFolderTree_files, List.mem_filter]
      exact ⟨List.mem_map.mpr ⟨(fileName, entry), hmem, rfl⟩,
        (pushesFile_iff _ _ _ _).mpr ⟨hnot, hinc, hself⟩⟩
    · intro children hdir hne
      subst hdir
      refine (mem_keys_createFolderTree _ _ _ _ _ _).mpr ⟨(fileName, .dir children), hmem, rfl, ?_⟩
      rw [keptFolder_dir excludedArray includeText excludes startPath fileName children hnot hne]
      rfl

/-- With `docs/node` excluded, the child `node` of `docs` is in neither list
of the node of `docs`, and the child `node.md`, whose path contains the
excluded entry without being equal to it, is in `files`. -/
theorem createFolderTree_exclusion_witness :
    ("node".toList ∉
        (createFolderTree ["docs/node".toList] "docs".toList ".md".toList []
          (some [("node".toList, .dir [("x.md".toList, .file [])]),
            ("node.md".toList, .file [])])).files ∧
      "node".toList ∉ JsObject.keys
        (createFolderTree ["docs/node".toList] "docs".toList ".md".toList []
          (some [("node".toList, .dir [("x.md".toList, .file [])]),
            ("node.md".toList, .file [])])).folders) ∧
    "node.md".toList ∈
        (createFolderTree ["docs/node".toList] "docs".toList ".md".toList []
          (some [("node".toList, .dir [("x.md".toList, .file [])]),
            ("node.md".toList, .file [])])).files :=
  ⟨(createFolderTree_exclusion ["docs/node".toList] "docs".toList ".md".toList []
      [("node".toList, .dir [("x.md".toList, .file [])]), ("node.md".toList, .file [])]).1
      "node".toList (by decide),
    ((createFolderTree_exclusion ["docs/node".toList] "docs".toList ".md".toList []
      [("node".toList, .dir [("x.md".toList, .file [])]), ("node.md".toList, .file [])]).2.2
      "node.md".toList (.file []) (by simp) (by decide)).1
      ⟨"docs/node".toList, [], by decide⟩ (by decide)⟩

/-! ## The scanner's tests -/

theorem scanLoop_excludes (excludedArray : List JsString) (includeText : JsString)
    (excludes excludes' : List JsString) :
    ∀ (filePaths : List (JsString × FsEntry)) (startPath : JsString) (result : TreeNode),
      scanLoop excludedArray includeText excludes startPath filePaths result =
        scanLoop excludedArray includeText excludes' startPath filePaths result
  | [], _, _ => by rw [scanLoop, scanLoop]
  | (fileName, .file content) :: filePaths, startPath, result => by
    rw [scanLoop, scanLoop]
    simp only [scanDirectory]
    split
    · exact scanLoop_excludes excludedArray includeText excludes excludes' filePaths _ _
    · exact scanLoop_excludes excludedArray includeText excludes excludes' filePaths _ _
  | (fileName, .dir children) :: filePaths, startPath, result => by
    rw [scanLoop, scanLoop]
    simp only [scanDirectory]
    rw [scanLoop_excludes excludedArray includeText excludes excludes' children]
    split
    · exact scanLoop_excludes excludedArray includeText excludes excludes' filePaths _ _
    · exact scanLoop_excludes excludedArray includeText excludes excludes' filePaths _ _

/-- C15, evaluated at the failing input: called with an empty `excludes`
argument while the module-level list holds `node_modules`, the scan skips the
directory `node_modules`; and called with `excludes` holding `docs` while the
module-level list is empty, it does not skip `docs`. -/
theorem createFolderTree_tests_module_list :
    createFolderTree ["node_modules".toList] ".".toList ".md".toList []
        (some [("node_modules".toList, .dir [("a.md".toList, .file [])]),
          ("b.md".toList, .file [])]) =
      .mk ["b.md".toList] [] ∧
    createFolderTree [] ".".toList ".md".toList ["docs".toList]
        (some [("docs".toList, .dir [("a.md".toList, .file [])])]) =
      .mk [] [("docs".toList, .mk ["a.md".toList] [])] :=
  ⟨rfl, rfl⟩

/-- C16: for every child of a scanned directory, its name is in `files`
exactly when it is listed, not excluded, its joined path contains the include
string as a substring, and the self-name test does not suppress it; the test
does not look at what the child is, so a directory that passes it and has a
non-empty scan is both in `files` and a key of `folders`; and a child whose
joined path does not contain the include string is not in `files`. -/
theorem createFolderTree_files_test (excludedArray : List JsString)
    (startPath includeText : JsString) (excludes : List JsString)
    (filePaths : List (JsString × FsEntry)) (fileName : JsString) :
    (fileName ∈
        (createFolderTree excludedArray startPath includeText excludes (some filePaths)).files ↔
      fileName ∈ filePaths.map Prod.fst ∧ pathJoin startPath fileName ∉ excludedArray ∧
        includeText <:+: pathJoin startPath fileName ∧
        (split fileName ['.']).head? ≠
          some (substring startPath (lastIndexOf startPath '/' + 1))) ∧
    (∀ children, (fileName, FsEntry.dir children) ∈ filePaths →
      pathJoin startPath fileName ∉ excludedArray →
      includeText <:+: pathJoin startPath fileName →
      (split fileName ['.']).head? ≠
        some (substring startPath (lastIndexOf startPath '/' + 1)) →
      (createFolderTree excludedArray (pathJoin startPath fileName) includeText excludes
        (some children)).nonEmpty = true →
      fileName ∈
          (createFolderTree excludedArray startPath includeText excludes (some filePaths)).files ∧
        fileName ∈ JsObject.keys
          (createFolderTree excludedArray startPath includeText excludes
            (some filePaths)).folders) ∧
    (¬ includeText <:+: pathJoin startPath fileName →
      fileName ∉
        (createFolderTree excludedArray startPath includeText excludes (some filePaths)).files) := by
  have hiff : fileName ∈
        (createFolderTree excludedArray startPath includeText excludes (some filePaths)).files ↔
      fileName ∈ filePaths.map Prod.fst ∧ pathJoin startPath fileName ∉ excludedArray ∧
        includeText <:+: pathJoin startPath fileName ∧
        (split fileName ['.']).head? ≠
          some (substring startPath (lastIndexOf startPath '/' + 1)) := by
    rw [createFolderTree_files, List.mem_filter, pushesFile_iff]
  refine ⟨hiff, ?_, ?_⟩
  · intro children hmem hex hinc hself hne
    refine ⟨hiff.mpr ⟨List.mem_map.mpr ⟨_, hmem, rfl⟩, hex, hinc, hself⟩, ?_⟩
    refine (mem_keys_createFolderTree _ _ _ _ _ _).mpr ⟨_, hmem, rfl, ?_⟩
    rw [keptFolder_dir excludedArray includeText excludes startPath fileName children hex hne]
    rfl
  · intro hinc hmem
    exact hinc (hiff.mp hmem).2.2.1

/-- In `docs`, the directory `x.md` holding `y.md` is both in `files` and a key
of `folders`, and the file `notes.txt` is not in `files`. -/
theorem createFolderTree_files_test_witness :
    ("x.md".toList ∈
        (createFolderTree [] "docs".toList ".md".toList []
          (some [("x.md".toList, .dir [("y.md".toList, .file [])]),
            ("notes.txt".toList, .file [])])).files ∧
      "x.md".toList ∈ JsObject.keys
        (createFolderTree [] "docs".toList ".md".toList []
          (some [("x.md".toList, .dir [("y.md".toList, .file [])]),
            ("notes.txt".toList, .file [])])).folders) ∧
    "notes.txt".toList ∉
        (createFolderTree [] "docs".toList ".md".toList []
          (some [("x.md".toList, .dir [("y.md".toList, .file [])]),
            ("notes.txt".toList, .file [])])).files :=
  ⟨(createFolderTree_files_test [] "docs".toList ".md".toList []
      [("x.md".toList, .dir [("y.md".toList, .file [])]), ("notes.txt".toList, .file [])]
      "x.md".toList).2.1 [("y.md".toList, .file [])] (List.mem_cons_self _ _) (by decide)
      ⟨"docs/x".toList, [], by decide⟩ (by decide) (by decide),
    (createFolderTree_files_test [] "docs".toList ".md".toList []
      [("x.md".toList, .dir [("y.md".toList, .file [])]), ("notes.txt".toList, .file [])]
      "notes.txt".toList).2.2 (by
        rw [← includes_iff_substring]
        decide)⟩

/-- C18, as stated, fails: the scan of a directory that holds `README.md` and
`a.md` lists `README.md` in `files`. -/
theorem createFolderTree_lists_index_file :
    createFolderTree [] ".".toList ".md".toList []
        (some [("README.md".toList, .file []), ("a.md".toList, .file [])]) =
      .mk ["README.md".toList, "a.md".toList] [] :=
  rfl

/-- C18, amended: the `files` list of a scanned directory contains `README.md`
exactly when the directory lists `README.md`, its joined path is not excluded
and contains the include string, and the text of `startPath` after its last `/`
(`base`) is not `README`. -/
theorem createFolderTree_index_file (excludedArray : List JsString)
    (startPath includeText : JsString) (excludes : List JsString)
    (filePaths : List (JsString × FsEntry)) (base : JsString)
    (hbase : '/' ∉ base) (hpath : startPath = base ∨ ∃ d, startPath = d ++ '/' :: base) :
    "README.md".toList ∈
        (createFolderTree excludedArray startPath includeText excludes (some filePaths)).files ↔
      "README.md".toList ∈ filePaths.map Prod.fst ∧
        pathJoin startPath "README.md".toList ∉ excludedArray ∧
        includeText <:+: pathJoin startPath "README.md".toList ∧
        base ≠ "README".toList := by
  have hd := dirname_eq startPath base hbase hpath
  have hs : (split "README.md".toList ['.']).head? = some "README".toList := by decide
  rw [createFolderTree_files, List.mem_filter, pushesFile_iff, hd, hs]
  constructor
  · rintro ⟨h1, h2, h3, h4⟩
    exact ⟨h1, h2, h3, fun e => h4 (by rw [e])⟩
  · rintro ⟨h1, h2, h3, h4⟩
    exact ⟨h1, h2, h3, fun e => h4 (Option.some.inj e).symm⟩

/-- In `docs`, a listed `README.md` is in `files`. -/
theorem createFolderTree_index_file_witness :
    "README.md".toList ∈
      (createFolderTree [] "docs".toList ".md".toList []
        (some [("README.md".toList, .file []), ("a.md".toList, .file [])])).files :=
  (createFolderTree_index_file [] "docs".toList ".md".toList []
    [("README.md".toList, .file []), ("a.md".toList, .file [])] "docs".toList (by decide)
    (Or.inl rfl)).mpr ⟨by decide, by decide, ⟨"docs/README".toList, [], by decide⟩, by decide⟩

/-! ## Nesting of the lists -/

theorem nestedList_nil : nestedList [] :=
  ⟨fun _ h => absurd h (by simp), List.chain'_nil⟩

theorem nestedList_append (l₁ l₂ : List Entry) (h₁ : nestedList l₁) (h₂ : nestedList l₂) :
    nestedList (l₁ ++ l₂) := by
  constructor
  · intro e he
    cases l₁ with
    | nil => exact h₂.1 e he
    | cons x xs => exact h₁.1 e he
  · refine List.Chain'.append h₁.2 h₂.2 ?_
    intro x _ y hy
    have := h₂.1 y hy
    omega

theorem nestedList_of_indent_zero :
    ∀ l : List Entry, (∀ e ∈ l, e.indent = 0) → nestedList l
  | [], _ => nestedList_nil
  | x :: xs, h => by
    have ih := nestedList_of_indent_zero xs (fun e he => h e (List.mem_cons_of_mem _ he))
    constructor
    · intro e he
      simp only [List.head?_cons, Option.some.injEq] at he
      exact he ▸ h x (List.mem_cons_self _ _)
    · rw [List.chain'_cons']
      refine ⟨?_, ih.2⟩
      intro y hy
      have := ih.1 y hy
      omega

theorem nestedList_block (link : Entry) (hlink : link.indent = 0) (folder : JsString)
    (l : List Entry) (h : nestedList l) : nestedList (link :: l.map (adjust folder)) := by
  constructor
  · intro e he
    simp only [List.head?_cons, Option.some.injEq] at he
    exact he ▸ hlink
  · rw [List.chain'_cons']
    constructor
    · intro y hy
      cases l with
      | nil => simp at hy
      | cons x xs =>
        simp only [List.map_cons, List.head?_cons, Option.mem_def, Option.some.injEq] at hy
        have hx := h.1 x rfl
        rw [← hy, hlink]
        show x.indent + 1 ≤ 0 + 1
        omega
    · rw [List.chain'_map]
      refine h.2.imp ?_
      intro a b hab
      show b.indent + 1 ≤ a.indent + 1 + 1
      omega

theorem nestedList_fileEntries (readFileSync : JsString → Option JsString) (p : JsString)
    (files : List JsString) : nestedList (fileEntries readFileSync p files) := by
  apply nestedList_of_indent_zero
  intro e he
  rw [fileEntries, List.mem_map] at he
  obtain ⟨_, _, rfl⟩ := he
  rfl

theorem JsObject.mem_assign {α : Type} :
    ∀ (s t : JsObject α) (p : JsString × α), p ∈ JsObject.assign t s → p ∈ t ∨ p ∈ s
  | [], t, p, h => Or.inl h
  | x :: xs, t, p, h => by
    have e : JsObject.assign t (x :: xs) = JsObject.assign (JsObject.set t x.1 x.2) xs := rfl
    rw [e] at h
    rcases JsObject.mem_assign xs _ p h with h | h
    · rcases JsObject.mem_set t x.1 x.2 p h with h | h
      · exact Or.inr (h ▸ List.mem_cons_self _ _)
      · exact Or.inl h
    · exact Or.inr (List.mem_cons_of_mem _ h)

theorem filesLoop_nested (readFileSync : JsString → Option JsString) (p : JsString) :
    ∀ (files : List JsString) (content content' : List Entry),
      filesLoop readFileSync p files content = some content' →
      (∀ e ∈ content, e.indent = 0) → ∀ e ∈ content', e.indent = 0
  | [], content, content', h, hc => by
    rw [filesLoop] at h
    rw [← Option.some.inj h]; exact hc
  | file :: files, content, content', h, hc => by
    rw [filesLoop] at h
    split at h
    · exact filesLoop_nested readFileSync p files content content' h hc
    · split at h
      · exact absurd h (by simp)
      · refine filesLoop_nested readFileSync p files _ content' h ?_
        intro e he
        rcases List.mem_append.mp he with he | he
        · exact hc e he
        · rw [List.mem_singleton.mp he]

mutual
/-- Every list of the map that `createContentMap` returns is nested. -/
theorem createContentMap_nested (readFileSync : JsString → Option JsString)
    (toUpperCase : Char → JsString) :
    ∀ (node : TreeNode) (p : JsString) (m : ContentMap),
      createContentMap readFileSync toUpperCase node p = some m →
      ∀ q ∈ m, nestedList q.2
  | .mk files folders, p, m, h => by
    rw [createContentMap] at h
    split at h
    · exact absurd h (by simp)
    · next content hc =>
      have hcontent : nestedList content :=
        nestedList_of_indent_zero content
          (filesLoop_nested readFileSync p files [] content hc
            (fun e he => absurd he (List.not_mem_nil _)))
      cases hl : foldersLoop readFileSync toUpperCase p folders ⟨content, [(p, content)], true⟩ with
      | none => rw [hl] at h; exact absurd h (by simp)
      | some st' =>
        rw [hl] at h
        have hm : st'.result = m := Option.some.inj h
        rw [← hm]
        exact (foldersLoop_nested readFileSync toUpperCase folders p _ st' hl
          (by
            intro q hq
            rw [List.mem_singleton.mp hq]
            exact hcontent) hcontent).1
theorem foldersLoop_nested (readFileSync : JsString → Option JsString)
    (toUpperCase : Char → JsString) :
    ∀ (fl : List (JsString × TreeNode)) (p : JsString) (st st' : MapState),
      foldersLoop readFileSync toUpperCase p fl st = some st' →
      (∀ q ∈ st.result, nestedList q.2) → nestedList st.content →
      (∀ q ∈ st'.result, nestedList q.2) ∧ nestedList st'.content
  | [], p, st, st', h, hr, hc => by
    rw [foldersLoop] at h
    rw [← Option.some.inj h]
    exact ⟨hr, hc⟩
  | (f, sub) :: rest, p, st, st', h, hr, hc => by
    rw [foldersLoop] at h
    dsimp only at h
    split at h
    · exact absurd h (by simp)
    · next subMap hsub =>
      have ihsub := createContentMap_nested readFileSync toUpperCase sub (pathJoin p f) subMap hsub
      split at h
      · exact absurd h (by simp)
      · next subList hsl =>
        have hsubList : nestedList subList :=
          ihsub _ (JsObject.mem_of_get subMap _ subList hsl)
        have hcontent1 : nestedList
            (st.content ++ folderNameContent toUpperCase f :: subList.map (adjust f)) :=
          nestedList_append _ _ hc (nestedList_block _ rfl f subList hsubList)
        have hassign : ∀ q ∈ JsObject.assign st.result subMap, nestedList q.2 := by
          intro q hq
          rcases JsObject.mem_assign subMap st.result q hq with hq | hq
          · exact hr q hq
          · exact ihsub q hq
        refine foldersLoop_nested readFileSync toUpperCase rest p _ st' h ?_ hcontent1
        dsimp only
        split
        · intro q hq
          rcases JsObject.mem_set _ _ _ q hq with hq | hq
          · rw [hq]; exact hcontent1
          · exact hassign q hq
        · exact hassign
end

theorem nestedList_prefix (l₁ l₂ : List Entry) (h₁ : l₁ ≠ []) (h : nestedList (l₁ ++ l₂)) :
    nestedList l₁ := by
  constructor
  · intro e he
    apply h.1 e
    obtain ⟨x, xs, rfl⟩ := List.exists_cons_of_ne_nil h₁
    exact he
  · exact h.2.left_of_append

theorem chain_adjacent (pre post : List Entry) (a b : Entry)
    (h : List.Chain' (fun a b : Entry => b.indent ≤ a.indent + 1) (pre ++ a :: b :: post)) :
    b.indent ≤ a.indent + 1 := by
  rw [List.chain'_split] at h
  exact (List.chain'_cons.mp h.2).1

theorem nestedList_attained :
    ∀ (pre : List Entry) (d : Entry), nestedList (pre ++ [d]) →
      ∀ k, k ≤ d.indent → ∃ e ∈ pre ++ [d], e.indent = k := by
  intro pre
  induction pre using List.reverseRecOn with
  | nil =>
    intro d h k hk
    have := h.1 d rfl
    exact ⟨d, List.mem_singleton.mpr rfl, by omega⟩
  | append_singleton pre c ih =>
    intro d h k hk
    by_cases hkd : k = d.indent
    · exact ⟨d, List.mem_append_right _ (List.mem_singleton.mpr rfl), hkd.symm⟩
    · have hcd : d.indent ≤ c.indent + 1 :=
        chain_adjacent pre [] c d (by simpa using h.2)
      have hpre : nestedList (pre ++ [c]) := nestedList_prefix _ [d] (by simp) h
      obtain ⟨e, he, hek⟩ := ih c hpre k (by omega)
      exact ⟨e, List.mem_append_left _ he, hek⟩

theorem nestedList_preceded (l pre post : List Entry) (e : Entry) (n : Nat)
    (h : nestedList l) (hl : l = pre ++ e :: post) (he : e.indent = n + 1) :
    ∃ d ∈ pre, d.indent = n := by
  subst hl
  have h1 : nestedList (pre ++ [e]) := by
    have : pre ++ e :: post = (pre ++ [e]) ++ post := by simp
    rw [this] at h
    exact nestedList_prefix _ post (by simp) h
  rcases List.eq_nil_or_concat pre with rfl | ⟨pre', c, rfl⟩
  · have := h1.1 e rfl
    omega
  · rw [List.concat_eq_append] at h1 ⊢
    have hce : e.indent ≤ c.indent + 1 :=
      chain_adjacent pre' [] c e (by simpa using h1.2)
    have hpre : nestedList (pre' ++ [c]) := nestedList_prefix _ [e] (by simp) h1
    exact nestedList_attained pre' c hpre n (by omega)

/-- C19: for every tree node and every key of the map that `createContentMap`
returns, the list under that key is a nested list: if it is not empty its
first entry has indent 0, every later entry has indent at most one greater
than the entry right before it, and so every entry at indent `n + 1` is
preceded by an entry at indent `n`. -/
theorem createContentMap_nested_lists (readFileSync : JsString → Option JsString)
    (toUpperCase : Char → JsString) (node : TreeNode) (p : JsString) (m : ContentMap)
    (k : JsString) (l : List Entry)
    (hm : createContentMap readFileSync toUpperCase node p = some m)
    (hk : JsObject.get m k = some l) :
    (∀ e, l.head? = some e → e.indent = 0) ∧
      (∀ pre a b post, l = pre ++ a :: b :: post → b.indent ≤ a.indent + 1) ∧
      (∀ pre e post n, l = pre ++ e :: post → e.indent = n + 1 →
        ∃ d ∈ pre, d.indent = n) := by
  have hn : nestedList l :=
    createContentMap_nested readFileSync toUpperCase node p m hm _ (JsObject.mem_of_get m k l hk)
  refine ⟨hn.1, ?_, ?_⟩
  · intro pre a b post hl
    exact chain_adjacent pre post a b (hl ▸ hn.2)
  · intro pre e post n hl he
    exact nestedList_preceded l pre post e n hn hl he

/-- In the list of `docs` in the example tree the entry of `sub/b.md`, at
indent 1, is preceded by an entry at indent 0. -/
theorem createContentMap_nested_lists_witness :
    ∃ d ∈ [(⟨0, "a.md".toList, some "Alpha".toList⟩ : Entry),
        ⟨0, "sub/README.md".toList, some "Sub".toList⟩], d.indent = 0 :=
  (createContentMap_nested_lists exampleRead asciiUpper
    (.mk ["a.md".toList] [("sub".toList, .mk ["b.md".toList] [])]) "docs".toList
    [("docs".toList, [⟨0, "a.md".toList, some "Alpha".toList⟩,
        ⟨0, "sub/README.md".toList, some "Sub".toList⟩,
        ⟨1, "sub/b.md".toList, some "Beta".toList⟩]),
      ("docs/sub".toList, [⟨0, "b.md".toList, some "Beta".toList⟩])]
    "docs".toList
    [⟨0, "a.md".toList, some "Alpha".toList⟩, ⟨0, "sub/README.md".toList, some "Sub".toList⟩,
      ⟨1, "sub/b.md".toList, some "Beta".toList⟩]
    (by decide) (by decide)).2.2
    [⟨0, "a.md".toList, some "Alpha".toList⟩, ⟨0, "sub/README.md".toList, some "Sub".toList⟩]
    ⟨1, "sub/b.md".toList, some "Beta".toList⟩ [] 0 rfl rfl

/-! ## The lists of all directories -/

mutual
theorem expectedMap_eq_map (readFileSync : JsString → Option JsString)
    (toUpperCase : Char → JsString) :
    ∀ (node : TreeNode) (p : JsString),
      expectedMap readFileSync toUpperCase node p =
        (subNodes node p).map (fun q => (q.1, ownEntries readFileSync toUpperCase q.2 q.1))
  | .mk files folders, p => by
    rw [expectedMap, subNodes, List.map_cons,
      expectedMapList_eq_map readFileSync toUpperCase folders p, ownEntries]
theorem expectedMapList_eq_map (readFileSync : JsString → Option JsString)
    (toUpperCase : Char → JsString) :
    ∀ (fl : List (JsString × TreeNode)) (p : JsString),
      expectedMapList readFileSync toUpperCase fl p =
        (subNodesList fl p).map (fun q => (q.1, ownEntries readFileSync toUpperCase q.2 q.1))
  | [], _ => rfl
  | (f, sub) :: rest, p => by
    rw [expectedMapList, subNodesList, List.map_append,
      expectedMap_eq_map readFileSync toUpperCase sub (pathJoin p f),
      expectedMapList_eq_map readFileSync toUpperCase rest p]
end

mutual
theorem subNodes_wellFormed :
    ∀ (node : TreeNode) (p : JsString), node.wellFormed = true →
      ∀ q ∈ subNodes node p, q.2.wellFormed = true
  | .mk files folders, p, h, q, hq => by
    rw [subNodes] at hq
    rcases List.mem_cons.mp hq with rfl | hq
    · exact h
    · rw [TreeNode.wellFormed] at h
      exact subNodesList_wellFormed folders p h q hq
theorem subNodesList_wellFormed :
    ∀ (fl : List (JsString × TreeNode)) (p : JsString), wellFormedList fl = true →
      ∀ q ∈ subNodesList fl p, q.2.wellFormed = true
  | [], _, _, q, hq => absurd hq (List.not_mem_nil _)
  | (f, sub) :: rest, p, h, q, hq => by
    obtain ⟨_, _, hsub, hrest⟩ := (wellFormedList_cons f sub rest).mp h
    rw [subNodesList] at hq
    rcases List.mem_append.mp hq with hq | hq
    · exact subNodes_wellFormed sub (pathJoin p f) hsub q hq
    · exact subNodesList_wellFormed rest p hrest q hq
end

/-- The list under a key of the map is the own list of a directory of the
tree, the one whose joined path is the key. -/
theorem createContentMap_list_of_key (readFileSync : JsString → Option JsString)
    (toUpperCase : Char → JsString) (node : TreeNode) (p : JsString) (m : ContentMap)
    (hwf : node.wellFormed = true)
    (hm : createContentMap readFileSync toUpperCase node p = some m)
    (k : JsString) (l : List Entry) (hk : JsObject.get m k = some l) :
    ∃ n, (k, n) ∈ subNodes node p ∧ n.wellFormed = true ∧
      l = ownEntries readFileSync toUpperCase n k := by
  rw [createContentMap_get _ _ _ _ _ hwf hm] at hk
  have hmem := JsObject.mem_of_get _ k l hk
  rw [expectedMap_eq_map, List.mem_map] at hmem
  obtain ⟨q, hq, he⟩ := hmem
  obtain ⟨h1, h2⟩ := Prod.mk.inj he
  refine ⟨q.2, ?_, subNodes_wellFormed node p hwf q hq, ?_⟩
  · rw [← h1]; exact hq
  · rw [← h2, h1]

theorem folderBlocks_file_ne (readFileSync : JsString → Option JsString)
    (toUpperCase : Char → JsString) (p : JsString) :
    ∀ fl : List (JsString × TreeNode), wellFormedList fl = true →
      ∀ e ∈ folderBlocks readFileSync toUpperCase fl p, e.file ≠ TOC_FILE_NAME
  | [], _, e, he => absurd he (List.not_mem_nil _)
  | (f, sub) :: rest, h, e, he => by
    obtain ⟨hf, _, _, hrest⟩ := (wellFormedList_cons f sub rest).mp h
    rw [folderBlocks] at he
    rcases List.mem_append.mp he with he | he
    · have hslash : ∀ x : JsString, f ++ '/' :: x ≠ TOC_FILE_NAME := by
        intro x hx
        have : '/' ∈ TOC_FILE_NAME := by rw [← hx]; simp
        exact absurd this (by decide)
      rcases List.mem_cons.mp he with rfl | he
      · rw [folderNameContent, pathJoin_toc f (entryName_valid f hf)]
        exact hslash _
      · obtain ⟨x, _, rfl⟩ := List.mem_map.mp he
        exact hslash _
    · exact folderBlocks_file_ne readFileSync toUpperCase p rest hrest e he

/-- No entry of the own list of a well-formed node targets the index document
of the directory itself. -/
theorem ownEntries_file_ne (readFileSync : JsString → Option JsString)
    (toUpperCase : Char → JsString) (n : TreeNode) (p : JsString)
    (hwf : n.wellFormed = true) :
    ∀ e ∈ ownEntries readFileSync toUpperCase n p, e.file ≠ TOC_FILE_NAME := by
  cases n with
  | mk files folders =>
    rw [TreeNode.wellFormed] at hwf
    intro e he
    rw [ownEntries] at he
    rcases List.mem_append.mp he with he | he
    · rw [fileEntries, List.mem_map] at he
      obtain ⟨file, hfile, rfl⟩ := he
      simpa using (List.mem_filter.mp hfile).2
    · exact folderBlocks_file_ne readFileSync toUpperCase p folders hwf e he

/-- C13, as stated, fails: the renderer skips nothing; a list that holds an
entry for `README.md` gets a line for it. -/
theorem createContentMarkdown_renders_index_entry :
    createContentMarkdown asciiUpper
        [(".".toList, [⟨0, "README.md".toList, some "Home".toList⟩])] =
      [⟨"./README.md".toList,
        "# Edge Development Conventions\n\n## Table of Contents\n\n* [Home](README.md)\n".toList⟩] := by
  decide

/-- C13, amended: `createContentMarkdown` renders one line for every entry of
a list and skips none; it is `createContentMap` that leaves the index document
out: in the map it builds for a tree node whose folder keys are
directory-entry names, each occurring once, no entry of any list has
`README.md` as its file, so no body has a line for it. -/
theorem createContentMap_no_index_entry (readFileSync : JsString → Option JsString)
    (toUpperCase : Char → JsString) (node : TreeNode) (p : JsString) (m : ContentMap)
    (k : JsString) (l : List Entry)
    (hwf : node.wellFormed = true)
    (hm : createContentMap readFileSync toUpperCase node p = some m)
    (hk : JsObject.get m k = some l) :
    (∀ e ∈ l, e.file ≠ "README.md".toList) ∧
      ∃ d ∈ createContentMarkdown toUpperCase m, d.path = k ++ "/README.md".toList ∧
        ∃ head : JsString, d.data = head ++
          (l.map (fun e => List.replicate (e.indent * 2) ' ' ++ "* [".toList ++
            titleText e.title ++ "](".toList ++ e.file ++ ")\n".toList)).flatten := by
  constructor
  · obtain ⟨n, _, hn, rfl⟩ := createContentMap_list_of_key _ _ node p m hwf hm k l hk
    exact ownEntries_file_ne readFileSync toUpperCase n k hn
  · refine ⟨_, List.mem_map.mpr ⟨k, JsObject.get_some_mem_keys _ _ _ hk, rfl⟩, rfl, ?_⟩
    refine ⟨headerOf toUpperCase k ++ "\n\n## Table of Contents\n\n".toList, ?_⟩
    simp only [hk, Option.getD_some]
    rfl

/-- In the map of the example tree with a `README.md` next to `a.md`, the
document of `docs` has the line of `a.md` and no other. -/
theorem createContentMap_no_index_entry_witness :
    ∃ d ∈ createContentMarkdown asciiUpper
        [("docs".toList, [⟨0, "a.md".toList, some "Alpha".toList⟩])],
      d.path = "docs".toList ++ "/README.md".toList ∧
        ∃ head : JsString, d.data = head ++
          ([(⟨0, "a.md".toList, some "Alpha".toList⟩ : Entry)].map
            (fun e => List.replicate (e.indent * 2) ' ' ++ "* [".toList ++
              titleText e.title ++ "](".toList ++ e.file ++ ")\n".toList)).flatten :=
  (createContentMap_no_index_entry exampleRead asciiUpper
    (.mk ["README.md".toList, "a.md".toList] []) "docs".toList
    [("docs".toList, [⟨0, "a.md".toList, some "Alpha".toList⟩])] "docs".toList
    [⟨0, "a.md".toList, some "Alpha".toList⟩]
    (by decide) (by decide) (by decide)).2

/-! ## Undefined titles -/

/-- A string that contains `sep` has a first occurrence of it. -/
theorem exists_first_occurrence (sep : JsString) :
    ∀ s : JsString, sep <:+: s →
      ∃ a b, s = a ++ sep ++ b ∧ ∀ a' b', s = a' ++ sep ++ b' → a.length ≤ a'.length
  | [], h => by
    have : sep = [] := List.eq_nil_of_infix_nil h
    subst this
    exact ⟨[], [], rfl, fun _ _ _ => Nat.zero_le _⟩
  | c :: cs, h => by
    by_cases hp : sep <+: c :: cs
    · obtain ⟨b, hb⟩ := hp
      exact ⟨[], b, by simp [hb], fun _ _ _ => Nat.zero_le _⟩
    · have hcs : sep <:+: cs := by
        rcases List.infix_cons_iff.mp h with h | h
        · exact absurd h hp
        · exact h
      obtain ⟨a, b, hab, hfirst⟩ := exists_first_occurrence sep cs hcs
      refine ⟨c :: a, b, by simp [hab], ?_⟩
      intro a' b' e
      cases a' with
      | nil => exact absurd ⟨b', by simpa using e.symm⟩ hp
      | cons x xs =>
        have e2 : cs = xs ++ sep ++ b' := by
          simp only [List.cons_append, List.cons.injEq] at e
          simpa using e.2
        have := hfirst xs b' e2
        simp only [List.length_cons]
        omega

/-- The title is undefined exactly when the first line has no separator. -/
theorem titleOf_eq_none_iff (text line : JsString) (hnl : '\n' ∉ line)
    (hline : text = line ∨ ∃ rest, text = line ++ '\n' :: rest) :
    titleOf text = none ↔ ¬ NBSP <:+: line := by
  rw [titleOf, firstLine_eq text line hnl hline]
  constructor
  · intro h hsep
    obtain ⟨a, b, hab, hfirst⟩ := exists_first_occurrence NBSP line hsep
    rw [hab, split_first NBSP NBSP_ne_nil a b (by rw [← hab]; exact hfirst)] at h
    obtain ⟨y, ys, hy⟩ := List.exists_cons_of_ne_nil (split_ne_nil b NBSP)
    rw [hy] at h
    exact absurd h (by simp)
  · intro h
    rw [split_none NBSP NBSP_ne_nil line h]
    rfl

/-- C14: the title of a document is the second separator-delimited segment of
its first line (for a first occurrence `line = a ++ " &nbsp; " ++ b` it is the
part of `b` before the next separator) and it is undefined exactly when the
first line does not contain the separator; and for a tree node whose folder
keys are directory-entry names, the reads succeeding, `createContentMap`
returns a map whose list under `p` starts with one entry `{indent: 0, file,
title}` for every file of `node.files` other than `README.md`, in order, with
the title of the text read, defined or not, and holds no entry for
`README.md`. -/
theorem createContentMap_titles (readFileSync : JsString → Option JsString)
    (toUpperCase : Char → JsString) (files : List JsString)
    (folders : List (JsString × TreeNode)) (p : JsString)
    (hwf : (TreeNode.mk files folders).wellFormed = true)
    (hreads : readsOk readFileSync (.mk files folders) p = true) :
    (∀ text line : JsString, '\n' ∉ line →
      (text = line ∨ ∃ rest, text = line ++ '\n' :: rest) →
      (titleOf text = none ↔ ¬ NBSP <:+: line) ∧
      (∀ a b, line = a ++ NBSP ++ b →
        (∀ a' b', line = a' ++ NBSP ++ b' → a.length ≤ a'.length) →
        (¬ NBSP <:+: b → titleOf text = some b) ∧
        (∀ c d, b = c ++ NBSP ++ d →
          (∀ c' d', b = c' ++ NBSP ++ d' → c.length ≤ c'.length) → titleOf text = some c))) ∧
    (∀ file ∈ files, file ≠ "README.md".toList →
      ∃ text, readFileSync (pathJoin p file) = some text) ∧
    ∃ (m : ContentMap) (rest : List Entry),
      createContentMap readFileSync toUpperCase (.mk files folders) p = some m ∧
      JsObject.get m p = some
        ((files.filter (fun file => decide (file ≠ "README.md".toList))).map
            (fun file => ({ indent := 0, file := file,
                            title := (readFileSync (pathJoin p file)).bind titleOf } : Entry)) ++
          rest) ∧
      ∀ e ∈ (files.filter (fun file => decide (file ≠ "README.md".toList))).map
            (fun file => ({ indent := 0, file := file,
                            title := (readFileSync (pathJoin p file)).bind titleOf } : Entry)) ++
          rest, e.file ≠ "README.md".toList := by
  refine ⟨?_, ?_, ?_⟩
  · intro text line hnl hline
    refine ⟨titleOf_eq_none_iff text line hnl hline, ?_⟩
    intro a b hsep hfirst
    subst hsep
    have h1 : split (a ++ NBSP ++ b) NBSP = a :: split b NBSP :=
      split_first NBSP NBSP_ne_nil a b hfirst
    constructor
    · intro hb
      rw [titleOf, firstLine_eq text _ hnl hline, h1, split_none NBSP NBSP_ne_nil b hb]
      rfl
    · intro c d hcd hc
      subst hcd
      rw [titleOf, firstLine_eq text _ hnl hline, h1, split_first NBSP NBSP_ne_nil c d hc]
      rfl
  · intro file hfile hne
    rw [readsOk, Bool.and_eq_true, List.all_eq_true] at hreads
    have := hreads.1 file hfile
    have hne' : ¬ file = TOC_FILE_NAME := hne
    simp only [hne', decide_False, Bool.false_or] at this
    exact Option.isSome_iff_exists.mp this
  · obtain ⟨m, hm⟩ := createContentMap_some readFileSync toUpperCase _ p hwf hreads
    refine ⟨m, folderBlocks readFileSync toUpperCase folders p, hm, ?_, ?_⟩
    · rw [createContentMap_get _ _ _ _ _ hwf hm, get_expectedMap_self, ownEntries]
      rfl
    · have := ownEntries_file_ne readFileSync toUpperCase (.mk files folders) p hwf
      rw [ownEntries] at this
      exact this

/-- A document whose first line has no separator gets an entry with an
undefined title; a `README.md` next to it gets none. -/
theorem createContentMap_titles_witness :
    ∃ (m : ContentMap) (rest : List Entry),
      createContentMap (fun _ => some "No separator here".toList) asciiUpper
        (.mk ["README.md".toList, "a.md".toList] []) "docs".toList = some m ∧
      JsObject.get m "docs".toList = some
        ((["README.md".toList, "a.md".toList].filter
              (fun file => decide (file ≠ "README.md".toList))).map
            (fun file => ({ indent := 0, file := file,
                            title := ((fun _ => some "No separator here".toList)
                              (pathJoin "docs".toList file)).bind titleOf } : Entry)) ++
          rest) ∧
      ∀ e ∈ (["README.md".toList, "a.md".toList].filter
              (fun file => decide (file ≠ "README.md".toList))).map
            (fun file => ({ indent := 0, file := file,
                            title := ((fun _ => some "No separator here".toList)
                              (pathJoin "docs".toList file)).bind titleOf } : Entry)) ++
          rest, e.file ≠ "README.md".toList :=
  (createContentMap_titles (fun _ => some "No separator here".toList) asciiUpper
    ["README.md".toList, "a.md".toList] [] "docs".toList (by decide) (by decide)).2.2

/-! ## Iteration order of the folders -/

theorem JsObject.insertIndex_split {α : Type} (n : Nat) (k : JsString) (v : α) :
    ∀ (I S : JsObject α), (∀ q ∈ I, (arrayIndex q.1).isSome = true) →
      (∀ q ∈ S, arrayIndex q.1 = none) →
      ∃ I₁ I₂, I = I₁ ++ I₂ ∧
        JsObject.insertIndex n k v (I ++ S) = I₁ ++ (k, v) :: (I₂ ++ S) ∧
        (∀ q ∈ I₁, ∃ m, arrayIndex q.1 = some m ∧ m < n) ∧
        (∀ q, I₂.head? = some q → ∃ m, arrayIndex q.1 = some m ∧ n ≤ m)
  | [], S, _, hS => by
    refine ⟨[], [], rfl, ?_, fun q hq => absurd hq (List.not_mem_nil _),
      fun q hq => absurd hq (by simp)⟩
    cases S with
    | nil => rfl
    | cons s rest =>
      rw [List.nil_append, JsObject.insertIndex, hS s (List.mem_cons_self _ _)]
      rfl
  | x :: I, S, hI, hS => by
    obtain ⟨m, hm⟩ := Option.isSome_iff_exists.mp (hI x (List.mem_cons_self _ _))
    by_cases hlt : m < n
    · obtain ⟨I₁, I₂, hsplit, hins, h1, h2⟩ := JsObject.insertIndex_split n k v I S
        (fun q hq => hI q (List.mem_cons_of_mem _ hq)) hS
      refine ⟨x :: I₁, I₂, by rw [hsplit]; rfl, ?_, ?_, h2⟩
      · rw [List.cons_append, JsObject.insertIndex, hm]
        dsimp only
        rw [if_pos hlt, hins]
        rfl
      · intro q hq
        rcases List.mem_cons.mp hq with rfl | hq
        · exact ⟨m, hm, hlt⟩
        · exact h1 q hq
    · refine ⟨[], x :: I, rfl, ?_, fun q hq => absurd hq (List.not_mem_nil _), ?_⟩
      · rw [List.cons_append, JsObject.insertIndex, hm]
        dsimp only
        rw [if_neg hlt]
        rfl
      · intro q hq
        simp only [List.head?_cons, Option.some.injEq] at hq
        subst hq
        exact ⟨m, hm, Nat.le_of_not_lt hlt⟩

theorem indexLe_insert {α : Type} (n : Nat) (k : JsString) (v : α) (hk : arrayIndex k = some n)
    (I₁ I₂ : JsObject α) (hsorted : (I₁ ++ I₂).Pairwise indexLe)
    (h1 : ∀ q ∈ I₁, ∃ m, arrayIndex q.1 = some m ∧ m < n)
    (h2 : ∀ q, I₂.head? = some q → ∃ m, arrayIndex q.1 = some m ∧ n ≤ m) :
    (I₁ ++ (k, v) :: I₂).Pairwise indexLe := by
  rw [List.pairwise_append] at hsorted ⊢
  obtain ⟨hs1, hs2, hs3⟩ := hsorted
  have hge : ∀ b ∈ I₂, ∃ j, arrayIndex b.1 = some j ∧ n ≤ j := by
    intro b hb
    cases I₂ with
    | nil => exact absurd hb (List.not_mem_nil _)
    | cons y ys =>
      obtain ⟨m, hm, hnm⟩ := h2 y rfl
      rcases List.mem_cons.mp hb with rfl | hb
      · exact ⟨m, hm, hnm⟩
      · obtain ⟨i, j, hi, hj, hij⟩ := (List.pairwise_cons.mp hs2).1 b hb
        rw [hm] at hi
        have := Option.some.inj hi
        exact ⟨j, hj, by omega⟩
  refine ⟨hs1, ?_, ?_⟩
  · rw [List.pairwise_cons]
    refine ⟨?_, hs2⟩
    intro b hb
    obtain ⟨j, hj, hnj⟩ := hge b hb
    exact ⟨n, j, hk, hj, hnj⟩
  · intro a ha b hb
    obtain ⟨m, hm, hmn⟩ := h1 a ha
    rcases List.mem_cons.mp hb with rfl | hb
    · exact ⟨m, n, hm, hk, Nat.le_of_lt hmn⟩
    · exact hs3 a ha b hb

/-- The order in which a plain object enumerates properties assigned one after
the other: the array-index keys first, in ascending numeric order, then the
other keys in the order of assignment. -/
theorem JsObject.foldl_set_order {α : Type} :
    ∀ (ps : List (JsString × α)) (I S : JsObject α),
      (JsObject.keys (I ++ S) ++ ps.map Prod.fst).Nodup →
      (∀ q ∈ I, (arrayIndex q.1).isSome = true) → I.Pairwise indexLe →
      (∀ q ∈ S, arrayIndex q.1 = none) →
      ∃ I' : JsObject α,
        ps.foldl (fun o p => JsObject.set o p.1 p.2) (I ++ S) =
          I' ++ (S ++ ps.filter (fun q => (arrayIndex q.1).isNone)) ∧
        I'.Perm (I ++ ps.filter (fun q => (arrayIndex q.1).isSome)) ∧
        I'.Pairwise indexLe ∧ (∀ q ∈ I', (arrayIndex q.1).isSome = true)
  | [], I, S, _, hI, hsorted, _ => by
    refine ⟨I, ?_, ?_, hsorted, hI⟩
    · rw [List.foldl_nil, List.filter_nil, List.append_nil]
    · rw [List.filter_nil, List.append_nil]
  | p :: ps, I, S, hn, hI, hsorted, hS => by
    rw [List.map_cons] at hn
    have hnew : p.1 ∉ JsObject.keys (I ++ S) := by
      intro hmem
      exact (List.nodup_append.mp hn).2.2 hmem (List.mem_cons_self _ _)
    have hhas : JsObject.has (I ++ S) p.1 = false := by
      cases hb : JsObject.has (I ++ S) p.1 with
      | false => rfl
      | true => exact absurd ((JsObject.has_iff_mem_keys _ _).mp hb) hnew
    have hkeys : ∀ o : JsObject α, (JsObject.set (I ++ S) p.1 p.2).Perm o →
        (JsObject.keys (I ++ S) ++ p.1 :: ps.map Prod.fst).Nodup →
        (JsObject.keys o ++ ps.map Prod.fst).Nodup := by
      intro o ho hnd
      have h1 : (JsObject.keys o).Perm (p.1 :: JsObject.keys (I ++ S)) :=
        (JsObject.keys_perm ho).symm.trans (JsObject.keys_perm (JsObject.set_perm _ _ _ hnew))
      refine (List.Perm.append_right _ h1).nodup_iff.mpr ?_
      refine (List.Perm.nodup_iff ?_).mp hnd
      exact List.perm_middle
    rw [List.foldl_cons]
    cases hidx : arrayIndex p.1 with
    | none =>
      have hset : JsObject.set (I ++ S) p.1 p.2 = I ++ (S ++ [p]) := by
        rw [JsObject.set, hhas]
        simp only [Bool.false_eq_true, if_false, hidx]
        rw [List.append_assoc]
      obtain ⟨I', h1, h2, h3, h4⟩ := JsObject.foldl_set_order ps I (S ++ [p])
        (hkeys _ (by rw [hset]) hn) hI hsorted
        (by
          intro q hq
          rcases List.mem_append.mp hq with hq | hq
          · exact hS q hq
          · rw [List.mem_singleton.mp hq]; exact hidx)
      refine ⟨I', ?_, ?_, h3, h4⟩
      · rw [hset, h1, List.filter_cons, hidx]
        simp
      · rw [List.filter_cons, hidx]
        simpa using h2
    | some n =>
      obtain ⟨I₁, I₂, hsplit, hins, hlt, hge⟩ := JsObject.insertIndex_split n p.1 p.2 I S hI hS
      have hset : JsObject.set (I ++ S) p.1 p.2 = (I₁ ++ (p.1, p.2) :: I₂) ++ S := by
        rw [JsObject.set, hhas]
        simp only [Bool.false_eq_true, if_false, hidx]
        rw [hins]
        simp
      have hpp : (p.1, p.2) = p := rfl
      rw [hpp] at hset
      obtain ⟨I', h1, h2, h3, h4⟩ := JsObject.foldl_set_order ps (I₁ ++ p :: I₂) S
        (hkeys _ (by rw [hset]) hn)
        (by
          intro q hq
          rcases List.mem_append.mp hq with hq | hq
          · exact hI q (hsplit ▸ List.mem_append_left _ hq)
          · rcases List.mem_cons.mp hq with rfl | hq
            · rw [hidx]; rfl
            · exact hI q (hsplit ▸ List.mem_append_right _ hq))
        (indexLe_insert n p.1 p.2 hidx I₁ I₂ (hsplit ▸ hsorted) hlt hge)
        hS
      refine ⟨I', ?_, ?_, h3, h4⟩
      · rw [hset, h1, List.filter_cons, hidx]
        simp
      · rw [List.filter_cons, hidx]
        refine h2.trans ?_
        rw [hsplit]
        simp only [List.append_assoc, List.cons_append, Option.isSome_some, if_true]
        exact List.Perm.append_left _ List.perm_middle.symm

theorem ownEntries_eq (readFileSync : JsString → Option JsString)
    (toUpperCase : Char → JsString) (node : TreeNode) (p : JsString) :
    ownEntries readFileSync toUpperCase node p =
      fileEntries readFileSync p node.files ++
        folderBlocks readFileSync toUpperCase node.folders p := by
  cases node; rw [ownEntries]; rfl

theorem TreeNode.wellFormed_eq (t : TreeNode) : t.wellFormed = wellFormedList t.folders := by
  cases t; rw [TreeNode.wellFormed]; rfl

theorem createContentMap_get_self (readFileSync : JsString → Option JsString)
    (toUpperCase : Char → JsString) (node : TreeNode) (p : JsString) (m : ContentMap)
    (hwf : node.wellFormed = true)
    (hm : createContentMap readFileSync toUpperCase node p = some m) :
    JsObject.get m p = some (ownEntries readFileSync toUpperCase node p) := by
  rw [createContentMap_get _ _ _ _ _ hwf hm, get_expectedMap_self]

theorem createContentMap_get_child (readFileSync : JsString → Option JsString)
    (toUpperCase : Char → JsString) (node : TreeNode) (p : JsString) (m : ContentMap)
    (hwf : node.wellFormed = true)
    (hm : createContentMap readFileSync toUpperCase node p = some m)
    (fs : JsString × TreeNode) (hfs : fs ∈ node.folders) :
    JsObject.get m (pathJoin p fs.1) =
      some (ownEntries readFileSync toUpperCase fs.2 (pathJoin p fs.1)) := by
  cases node with
  | mk files folders =>
    exact createContentMap_get_folder _ _ files folders p m hwf hm fs hfs

/-- C17, as stated, fails: for a listing that returns the sub-directory `10`
before the sub-directory `9`, the link of `9` comes before the link of `10` in
the list of the directory. -/
theorem createContentMap_index_keys_first :
    (createContentMap (fun _ => some []) asciiUpper
        (createFolderTree [] "docs".toList ".md".toList []
          (some [("10".toList, .dir [("x.md".toList, .file [])]),
            ("9".toList, .dir [("x.md".toList, .file [])])]))
        "docs".toList).bind (fun m => JsObject.get m "docs".toList) =
      some [⟨0, "9/README.md".toList, some "9".toList⟩, ⟨1, "9/x.md".toList, none⟩,
        ⟨0, "10/README.md".toList, some "10".toList⟩, ⟨1, "10/x.md".toList, none⟩] := by
  decide

/-- C17, amended: in the list `createContentMap` builds for a directory from
the tree `createFolderTree` produced (listing well formed, reads succeeding),
the blocks of the kept sub-directories, each headed by its folder-link entry,
come in the iteration order of the `folders` object: first the
sub-directories whose names are array indices (canonical decimal numerals
below `2^32 - 1`), in ascending numeric order, then all the others in the
order in which the directory listing returned them; when no listed name is an
array index this is the listing order. -/
theorem createFolderTree_folder_order (excludedArray : List JsString)
    (startPath includeText : JsString) (excludes : List JsString)
    (filePaths : List (JsString × FsEntry))
    (readFileSync : JsString → Option JsString) (toUpperCase : Char → JsString)
    (hl : listingWellFormed filePaths = true)
    (hreads : readsOk readFileSync
      (createFolderTree excludedArray startPath includeText excludes (some filePaths))
      startPath = true) :
    ∃ (idx : List (JsString × TreeNode)) (m : ContentMap) (subLists : List (List Entry)),
      idx.Perm ((filePaths.filterMap
        (keptFolder excludedArray includeText excludes startPath)).filter
          (fun q => (arrayIndex q.1).isSome)) ∧
      idx.Pairwise indexLe ∧
      (createFolderTree excludedArray startPath includeText excludes (some filePaths)).folders =
        idx ++ (filePaths.filterMap
          (keptFolder excludedArray includeText excludes startPath)).filter
            (fun q => (arrayIndex q.1).isNone) ∧
      ((∀ c ∈ filePaths, arrayIndex c.1 = none) →
        (createFolderTree excludedArray startPath includeText excludes
          (some filePaths)).folders =
          filePaths.filterMap (keptFolder excludedArray includeText excludes startPath)) ∧
      createContentMap readFileSync toUpperCase
        (createFolderTree excludedArray startPath includeText excludes (some filePaths))
        startPath = some m ∧
      List.Forall₂ (fun fs sl => JsObject.get m (pathJoin startPath fs.1) = some sl)
        (idx ++ (filePaths.filterMap
          (keptFolder excludedArray includeText excludes startPath)).filter
            (fun q => (arrayIndex q.1).isNone)) subLists ∧
      JsObject.get m startPath = some
        (((createFolderTree excludedArray startPath includeText excludes
              (some filePaths)).files.filter
            (fun file => decide (file ≠ "README.md".toList))).map
            (fun file => ({ indent := 0, file := file,
                            title := (readFileSync (pathJoin startPath file)).bind titleOf } :
              Entry)) ++
          (List.zipWith
            (fun (fs : JsString × TreeNode) (l : List Entry) =>
              ({ indent := 0, file := fs.1 ++ "/README.md".toList,
                 title := some (capitalize toUpperCase fs.1) } : Entry) ::
                l.map (fun e => { indent := e.indent + 1, file := fs.1 ++ '/' :: e.file,
                                  title := e.title }))
            (idx ++ (filePaths.filterMap
              (keptFolder excludedArray includeText excludes startPath)).filter
                (fun q => (arrayIndex q.1).isNone)) subLists).flatten) := by
  have hnd : (JsObject.keys ([] ++ [] : JsObject TreeNode) ++
      (filePaths.filterMap (keptFolder excludedArray includeText excludes startPath)).map
        Prod.fst).Nodup :=
    (kept_sublist excludedArray includeText excludes startPath filePaths).nodup
      (listingWellFormed_nodup filePaths hl)
  obtain ⟨idx, h1, h2, h3, _⟩ := JsObject.foldl_set_order
    (filePaths.filterMap (keptFolder excludedArray includeText excludes startPath)) [] [] hnd
    (fun q hq => absurd hq (List.not_mem_nil _)) List.Pairwise.nil
    (fun q hq => absurd hq (List.not_mem_nil _))
  simp only [List.nil_append] at h1 h2
  have hfolders := createFolderTree_folders excludedArray startPath includeText excludes filePaths
  rw [h1] at hfolders
  have hwf := createFolderTree_wellFormed excludedArray startPath includeText excludes
    (some filePaths) (fun fp e => by rw [← Option.some.inj e]; exact hl)
  obtain ⟨m, hm⟩ := createContentMap_some readFileSync toUpperCase _ startPath hwf hreads
  refine ⟨idx, m,
    (createFolderTree excludedArray startPath includeText excludes (some filePaths)).folders.map
      (fun fs => ownEntries readFileSync toUpperCase fs.2 (pathJoin startPath fs.1)),
    h2, h3, hfolders, ?_, hm, ?_, ?_⟩
  · intro hnone
    have hidx : (filePaths.filterMap
        (keptFolder excludedArray includeText excludes startPath)).filter
          (fun q => (arrayIndex q.1).isSome) = [] := by
      rw [List.filter_eq_nil_iff]
      intro q hq
      obtain ⟨c, hc, hk⟩ := List.mem_filterMap.mp hq
      rw [keptFolder_fst _ _ _ _ c q hk, hnone c hc]
      simp
    have hall : (filePaths.filterMap
        (keptFolder excludedArray includeText excludes startPath)).filter
          (fun q => (arrayIndex q.1).isNone) =
        filePaths.filterMap (keptFolder excludedArray includeText excludes startPath) := by
      rw [List.filter_eq_self]
      intro q hq
      obtain ⟨c, hc, hk⟩ := List.mem_filterMap.mp hq
      rw [keptFolder_fst _ _ _ _ c q hk, hnone c hc]
      rfl
    rw [hidx] at h2
    rw [hfolders, List.Perm.eq_nil h2, hall, List.nil_append]
  · rw [← hfolders]
    exact forall₂_map_of_forall _ _ _
      (fun fs hfs => createContentMap_get_child _ _ _ startPath m hwf hm fs hfs)
  · rw [createContentMap_get_self _ _ _ _ _ hwf hm, ownEntries_eq,
      folderBlocks_eq readFileSync toUpperCase startPath _
        (by rw [← TreeNode.wellFormed_eq]; exact hwf), ← hfolders]
    rfl

/-- A listing that returns `b`, `10`, `a`, `9` gives the folders `9`, `10`, `b`,
`a`. -/
theorem createFolderTree_folder_order_witness :
    ∃ idx : List (JsString × TreeNode),
      idx.Pairwise indexLe ∧
      (createFolderTree [] "docs".toList ".md".toList []
        (some [("b".toList, .dir [("x.md".toList, .file [])]),
          ("10".toList, .dir [("x.md".toList, .file [])]),
          ("a".toList, .dir [("x.md".toList, .file [])]),
          ("9".toList, .dir [("x.md".toList, .file [])])])).folders =
        idx ++ ([("b".toList, .dir [("x.md".toList, .file [])]),
          ("10".toList, .dir [("x.md".toList, .file [])]),
          ("a".toList, .dir [("x.md".toList, .file [])]),
          ("9".toList, .dir [("x.md".toList, .file [])])].filterMap
            (keptFolder [] ".md".toList [] "docs".toList)).filter
              (fun q => (arrayIndex q.1).isNone) := by
  obtain ⟨idx, _, _, _, h2, h3, _⟩ := createFolderTree_folder_order [] "docs".toList
    ".md".toList []
    [("b".toList, .dir [("x.md".toList, .file [])]),
      ("10".toList, .dir [("x.md".toList, .file [])]),
      ("a".toList, .dir [("x.md".toList, .file [])]),
      ("9".toList, .dir [("x.md".toList, .file [])])]
    (fun _ => some []) asciiUpper (by decide) (by decide)
  exact ⟨idx, h2, h3⟩

/-! ## Paths of several segments -/

theorem foldl_normalizeStep_valid (allow : Bool) :
    ∀ (names res : List JsString), (∀ s ∈ names, validName s = true) →
      names.foldl (normalizeStep allow) res = names.reverse ++ res
  | [], _, _ => rfl
  | f :: names, res, h => by
    rw [List.foldl_cons, normalizeStep_valid allow res f (h f (List.mem_cons_self _ _)),
      foldl_normalizeStep_valid allow names _ (fun s hs => h s (List.mem_cons_of_mem _ hs))]
    simp

theorem join_cons_of_ne_nil (sep x : JsString) (rest : List JsString) (h : rest ≠ []) :
    join sep (x :: rest) = x ++ sep ++ join sep rest := by
  obtain ⟨y, ys, rfl⟩ := List.exists_cons_of_ne_nil h
  rw [join]

theorem join_append_singleton (sep x : JsString) :
    ∀ l : List JsString, l ≠ [] → join sep (l ++ [x]) = join sep l ++ sep ++ x
  | [], h => absurd rfl h
  | [y], _ => by simp [join]
  | y :: z :: rest, _ => by
    have := join_append_singleton sep x (z :: rest) (by simp)
    rw [List.cons_append, join_cons_of_ne_nil sep y _ (by simp), this,
      join_cons_of_ne_nil sep y _ (by simp)]
    simp

theorem join_getLast_ne_slash :
    ∀ (names : List JsString) (pre : JsString), names ≠ [] →
      (∀ s ∈ names, validName s = true) → (pre ++ join ['/'] names).getLast? ≠ some '/'
  | [], _, h, _ => absurd rfl h
  | [x], pre, _, hv => by
    obtain ⟨h1, h2, _, _⟩ := (validName_iff x).mp (hv x (List.mem_cons_self _ _))
    rw [join]
    exact getLast_ne_slash x h2 h1 pre
  | x :: y :: rest, pre, _, hv => by
    rw [join_cons_of_ne_nil _ x _ (by simp)]
    have := join_getLast_ne_slash (y :: rest) (pre ++ x ++ ['/']) (by simp)
      (fun s hs => hv s (List.mem_cons_of_mem _ hs))
    simpa using this

theorem names_no_slash (names : List JsString) (hv : ∀ s ∈ names, validName s = true) :
    ∀ s ∈ names, '/' ∉ s :=
  fun s hs => ((validName_iff s).mp (hv s hs)).2.1

theorem join_names_ne_nil (names : List JsString) (hne : names ≠ [])
    (hv : ∀ s ∈ names, validName s = true) : join ['/'] names ≠ [] := by
  obtain ⟨x, rest, rfl⟩ := List.exists_cons_of_ne_nil hne
  exact join_ne_nil x ((validName_iff x).mp (hv x (List.mem_cons_self _ _))).1 rest

theorem normalize_append_names (p : JsString) (names : List JsString) (hne : names ≠ [])
    (hv : ∀ s ∈ names, validName s = true) :
    normalize (p ++ '/' :: join ['/'] names) =
      (if p.head? = some '/' ∨ p = [] then ['/'] else []) ++
        join ['/'] ((((split p ['/']).foldl
          (normalizeStep (!decide (p.head? = some '/' ∨ p = []))) []).reverse) ++ names) := by
  have hhead : (p ++ '/' :: join ['/'] names).head? = some '/' ↔
      (p.head? = some '/' ∨ p = []) := by
    cases p with
    | nil => simp
    | cons c cs => simp
  have hlast : ¬ (p ++ '/' :: join ['/'] names).getLast? = some '/' := by
    have := join_getLast_ne_slash names (p ++ ['/']) hne hv
    simpa using this
  have hsegs : normalizeSegments (!decide ((p ++ '/' :: join ['/'] names).head? = some '/'))
      (p ++ '/' :: join ['/'] names) =
      ((split p ['/']).foldl
          (normalizeStep (!decide (p.head? = some '/' ∨ p = []))) []).reverse ++ names := by
    have e : decide ((p ++ '/' :: join ['/'] names).head? = some '/') =
        decide (p.head? = some '/' ∨ p = []) := decide_eq_decide.mpr hhead
    rw [normalizeSegments, e, split_char_append,
      split_join_slash names hne (names_no_slash names hv), List.foldl_append,
      foldl_normalizeStep_valid _ names _ hv]
    simp
  have hres : join ['/'] (((split p ['/']).foldl
      (normalizeStep (!decide (p.head? = some '/' ∨ p = []))) []).reverse ++ names) ≠ [] := by
    cases hr : ((split p ['/']).foldl
      (normalizeStep (!decide (p.head? = some '/' ∨ p = []))) []).reverse with
    | nil => simpa using join_names_ne_nil names hne hv
    | cons x rest =>
      have hg : GoodStack (!decide (p.head? = some '/' ∨ p = []))
          ((split p ['/']).foldl (normalizeStep (!decide (p.head? = some '/' ∨ p = []))) []) :=
        foldl_normalizeStep_good _ _ _ (split_char_mem '/' p) trivial
      have hx : x ≠ [] := by
        have hmem : x ∈ (split p ['/']).foldl
            (normalizeStep (!decide (p.head? = some '/' ∨ p = []))) [] := by
          rw [← List.mem_reverse, hr]; exact List.mem_cons_self _ _
        exact (GoodStack.no_slash _ _ hg x hmem).1
      exact join_ne_nil x hx _
  rw [normalize, if_neg (by simp)]
  simp only [hsegs]
  rw [if_neg hres]
  simp only [hhead, hlast, if_false, List.append_nil]

theorem normalize_names (names : List JsString) (hne : names ≠ [])
    (hv : ∀ s ∈ names, validName s = true) :
    normalize (join ['/'] names) = join ['/'] names := by
  have h1 := join_names_ne_nil names hne hv
  have hhead : ¬ (join ['/'] names).head? = some '/' := by
    obtain ⟨x, rest, rfl⟩ := List.exists_cons_of_ne_nil hne
    have hx := hv x (List.mem_cons_self _ _)
    rw [join_head x ((validName_iff x).mp hx).1]
    exact head_ne_slash_of_valid x hx
  have hlast : ¬ (join ['/'] names).getLast? = some '/' := by
    have := join_getLast_ne_slash names [] hne hv
    simpa using this
  have hsegs : normalizeSegments (!decide ((join ['/'] names).head? = some '/'))
      (join ['/'] names) = names := by
    rw [normalizeSegments, split_join_slash names hne (names_no_slash names hv),
      foldl_normalizeStep_valid _ names _ hv]
    simp
  rw [normalize, if_neg h1]
  simp only [hsegs]
  simp only [if_neg h1, hhead, hlast, if_false, List.nil_append, List.append_nil]

/-- Joining a relative path made of directory-entry names appends the names
to the segments of the path. -/
theorem pathJoin_names (p : JsString) (names : List JsString) (hne : names ≠ [])
    (hv : ∀ s ∈ names, validName s = true) :
    pathJoin p (join ['/'] names) =
      (if p.head? = some '/' then ['/'] else []) ++ join ['/'] (pathSegments p ++ names) := by
  have h1 := join_names_ne_nil names hne hv
  by_cases hp : p = []
  · subst hp
    rw [pathJoin, if_pos rfl, if_neg h1, normalize_names names hne hv]
    rfl
  · rw [pathJoin, if_neg hp, if_neg h1, normalize_append_names p names hne hv]
    have e : (p.head? = some '/' ∨ p = []) ↔ p.head? = some '/' :=
      ⟨fun h => h.elim id (fun h => absurd h hp), Or.inl⟩
    simp only [e]
    rfl

theorem joinAll_cons (p f : JsString) (chain : List JsString) :
    joinAll p (f :: chain) = joinAll (pathJoin p f) chain := rfl

theorem joinAll_append_singleton (p f : JsString) (chain : List JsString) :
    joinAll p (chain ++ [f]) = pathJoin (joinAll p chain) f := by
  simp [joinAll, List.foldl_append]

theorem joinAll_head :
    ∀ (chain : List JsString) (p : JsString), (∀ s ∈ chain, validName s = true) →
      ((joinAll p chain).head? = some '/' ↔ p.head? = some '/')
  | [], _, _ => Iff.rfl
  | f :: chain, p, hv => by
    rw [joinAll_cons, joinAll_head chain _ (fun s hs => hv s (List.mem_cons_of_mem _ hs)),
      pathJoin_head p f (hv f (List.mem_cons_self _ _))]

theorem pathSegments_joinAll :
    ∀ (chain : List JsString) (p : JsString), (∀ s ∈ chain, validName s = true) →
      pathSegments (joinAll p chain) = pathSegments p ++ chain
  | [], p, _ => by simp [joinAll]
  | f :: chain, p, hv => by
    rw [joinAll_cons, pathSegments_joinAll chain _ (fun s hs => hv s (List.mem_cons_of_mem _ hs)),
      pathSegments_pathJoin p f (hv f (List.mem_cons_self _ _))]
    simp

/-- Joining the relative path `chain/x` to `p` gives the path of `x` in the
directory reached from `p` along `chain`. -/
theorem pathJoin_join_eq (p x : JsString) (chain : List JsString)
    (hv : ∀ s ∈ chain, validName s = true) (hx : validName x = true) :
    pathJoin p (join ['/'] (chain ++ [x])) = pathJoin (joinAll p chain) x := by
  have hv2 : ∀ s ∈ chain ++ [x], validName s = true := by
    intro s hs
    rcases List.mem_append.mp hs with hs | hs
    · exact hv s hs
    · rw [List.mem_singleton.mp hs]; exact hx
  rw [pathJoin_names p _ (by simp) hv2, pathJoin_valid _ x hx, pathSegments_joinAll chain p hv]
  have e : ((joinAll p chain).head? = some '/') = (p.head? = some '/') :=
    propext (joinAll_head chain p hv)
  simp only [e, List.append_assoc]

/-- The path of the index document of a directory below `p` is the joined
path of the directory, `/`, and the index file name. -/
theorem joinAll_toc (p : JsString) (chain : List JsString) (hne : chain ≠ [])
    (hv : ∀ s ∈ chain, validName s = true) :
    pathJoin (joinAll p chain) TOC_FILE_NAME = joinAll p chain ++ '/' :: TOC_FILE_NAME := by
  obtain ⟨init, f, rfl⟩ : ∃ init f, chain = init ++ [f] := by
    rcases List.eq_nil_or_concat chain with h | ⟨init, f, h⟩
    · exact absurd h hne
    · exact ⟨init, f, by rw [h, List.concat_eq_append]⟩
  have hf : validName f = true := hv f (by simp)
  rw [pathJoin_valid _ TOC_FILE_NAME (by decide), joinAll_append_singleton,
    pathSegments_pathJoin _ f hf]
  have e : ((pathJoin (joinAll p init) f).head? = some '/') =
      ((joinAll p init).head? = some '/') := propext (pathJoin_head _ f hf)
  simp only [e]
  rw [join_append_singleton _ _ _ (by simp), pathJoin_valid _ f hf]
  simp

/-! ## Link targets -/

theorem subNodes_self (node : TreeNode) (p : JsString) : (p, node) ∈ subNodes node p := by
  cases node with
  | mk files folders => rw [subNodes]; exact List.mem_cons_self _ _

theorem subNodesList_sub (files : List JsString) (folders : List (JsString × TreeNode))
    (p : JsString) : ∀ q ∈ subNodesList folders p, q ∈ subNodes (.mk files folders) p := by
  intro q hq
  rw [subNodes]
  exact List.mem_cons_of_mem _ hq

mutual
theorem subNodes_trans :
    ∀ (node : TreeNode) (p : JsString) (k : JsString) (n : TreeNode),
      (k, n) ∈ subNodes node p → ∀ q ∈ subNodes n k, q ∈ subNodes node p
  | .mk files folders, p, k, n, hk, q, hq => by
    rw [subNodes] at hk
    rcases List.mem_cons.mp hk with h | h
    · obtain ⟨h1, h2⟩ := Prod.mk.inj h
      subst h1; subst h2
      exact hq
    · exact subNodesList_sub files folders p q (subNodesList_trans folders p k n h q hq)
theorem subNodesList_trans :
    ∀ (fl : List (JsString × TreeNode)) (p : JsString) (k : JsString) (n : TreeNode),
      (k, n) ∈ subNodesList fl p → ∀ q ∈ subNodes n k, q ∈ subNodesList fl p
  | [], _, _, _, hk, _, _ => absurd hk (List.not_mem_nil _)
  | (f, sub) :: rest, p, k, n, hk, q, hq => by
    rw [subNodesList] at hk ⊢
    rcases List.mem_append.mp hk with h | h
    · exact List.mem_append_left _ (subNodes_trans sub (pathJoin p f) k n h q hq)
    · exact List.mem_append_right _ (subNodesList_trans rest p k n h q hq)
end

mutual
theorem everyNode_subNodes (P : TreeNode → Bool) :
    ∀ (node : TreeNode) (p : JsString), node.everyNode P = true →
      ∀ q ∈ subNodes node p, q.2.everyNode P = true
  | .mk files folders, p, h, q, hq => by
    rw [subNodes] at hq
    rcases List.mem_cons.mp hq with rfl | hq
    · exact h
    · rw [TreeNode.everyNode, Bool.and_eq_true] at h
      exact everyNodeList_subNodes P folders p h.2 q hq
theorem everyNodeList_subNodes (P : TreeNode → Bool) :
    ∀ (fl : List (JsString × TreeNode)) (p : JsString), everyNodeList P fl = true →
      ∀ q ∈ subNodesList fl p, q.2.everyNode P = true
  | [], _, _, q, hq => absurd hq (List.not_mem_nil _)
  | (f, sub) :: rest, p, h, q, hq => by
    rw [everyNodeList, Bool.and_eq_true] at h
    rw [subNodesList] at hq
    rcases List.mem_append.mp hq with hq | hq
    · exact everyNode_subNodes P sub (pathJoin p f) h.1 q hq
    · exact everyNodeList_subNodes P rest p h.2 q hq
end

theorem everyNode_self (P : TreeNode → Bool) (node : TreeNode)
    (h : node.everyNode P = true) : P node = true := by
  cases node with
  | mk files folders =>
    rw [TreeNode.everyNode, Bool.and_eq_true] at h
    exact h.1

theorem everyNode_folders (P : TreeNode → Bool) (node : TreeNode)
    (h : node.everyNode P = true) : everyNodeList P node.folders = true := by
  cases node with
  | mk files folders =>
    rw [TreeNode.everyNode, Bool.and_eq_true] at h
    exact h.2

/-- The joined path of every directory of a well-formed tree is a key of the
map. -/
theorem mem_keys_of_subNodes (readFileSync : JsString → Option JsString)
    (toUpperCase : Char → JsString) (node : TreeNode) (p : JsString) (m : ContentMap)
    (hwf : node.wellFormed = true)
    (hm : createContentMap readFileSync toUpperCase node p = some m)
    (k : JsString) (n : TreeNode) (hk : (k, n) ∈ subNodes node p) : k ∈ JsObject.keys m := by
  have hperm := createContentMap_perm readFileSync toUpperCase node p m hwf hm
  apply (JsObject.keys_perm hperm).symm.subset
  rw [expectedMap_eq_map]
  exact List.mem_map.mpr ⟨(k, ownEntries readFileSync toUpperCase n k),
    List.mem_map.mpr ⟨(k, n), hk, rfl⟩, rfl⟩

theorem EntryTarget.mono (nodes nodes2 : List (JsString × TreeNode)) (d : JsString) (e : Entry)
    (hsub : ∀ q ∈ nodes, q ∈ nodes2) (h : EntryTarget nodes d e) : EntryTarget nodes2 d e := by
  rcases h with ⟨c, f, n, h1, h2, h3, h4, h5⟩ | ⟨c, x, n, h1, h2, h3, h4, h5, h6, h7⟩
  · exact Or.inl ⟨c, f, n, h1, h2, h3, h4, hsub _ h5⟩
  · exact Or.inr ⟨c, x, n, h1, h2, h3, h4, h5, hsub _ h6, h7⟩

/-- An entry of a sub-folder's list, once adjusted, points at the same target
from the parent directory. -/
theorem EntryTarget.adjust (nodes : List (JsString × TreeNode)) (d f : JsString) (e : Entry)
    (hf : validName f = true) (h : EntryTarget nodes (pathJoin d f) e) :
    EntryTarget nodes d (adjust f e) := by
  have hcons : ∀ (c : List JsString), (∀ s ∈ c, validName s = true) →
      ∀ s ∈ f :: c, validName s = true := by
    intro c hc s hs
    rcases List.mem_cons.mp hs with rfl | hs
    · exact hf
    · exact hc s hs
  rcases h with ⟨c, g, n, h1, h2, h3, h4, h5⟩ | ⟨c, x, n, h1, h2, h3, h4, h5, h6, h7⟩
  · refine Or.inl ⟨f :: c, g, n, hcons c h1, h2, ?_, ?_, h5⟩
    · show f ++ '/' :: e.file = _
      rw [h3, List.cons_append, join_cons_of_ne_nil _ f _ (by simp)]
      simp
    · show e.indent + 1 = _
      rw [h4]; rfl
  · refine Or.inr ⟨f :: c, x, n, hcons c h1, h2, h3, ?_, ?_, h6, h7⟩
    · show f ++ '/' :: e.file = _
      rw [h4, List.cons_append, join_cons_of_ne_nil _ f _ (by simp)]
      simp
    · show e.indent + 1 = _
      rw [h5]; rfl

mutual
theorem ownEntries_target (readFileSync : JsString → Option JsString)
    (toUpperCase : Char → JsString) :
    ∀ (n : TreeNode) (d : JsString), n.wellFormed = true → n.everyNode validFiles = true →
      ∀ e ∈ ownEntries readFileSync toUpperCase n d, EntryTarget (subNodes n d) d e
  | .mk files folders, d, hwf, hv, e, he => by
    rw [TreeNode.wellFormed] at hwf
    rw [ownEntries] at he
    rcases List.mem_append.mp he with he | he
    · rw [fileEntries, List.mem_map] at he
      obtain ⟨x, hx, rfl⟩ := he
      obtain ⟨hx1, hx2⟩ := List.mem_filter.mp hx
      have hvx : validName x = true :=
        List.all_eq_true.mp (everyNode_self _ _ hv) x hx1
      exact Or.inr ⟨[], x, .mk files folders, fun s hs => absurd hs (List.not_mem_nil _), hvx,
        by simpa using hx2, rfl, rfl, subNodes_self _ d, hx1⟩
    · exact EntryTarget.mono _ _ d e (subNodesList_sub files folders d)
        (folderBlocks_target readFileSync toUpperCase folders d hwf
          (everyNode_folders _ _ hv) e he)
theorem folderBlocks_target (readFileSync : JsString → Option JsString)
    (toUpperCase : Char → JsString) :
    ∀ (fl : List (JsString × TreeNode)) (d : JsString), wellFormedList fl = true →
      everyNodeList validFiles fl = true →
      ∀ e ∈ folderBlocks readFileSync toUpperCase fl d, EntryTarget (subNodesList fl d) d e
  | [], _, _, _, e, he => absurd he (List.not_mem_nil _)
  | (f, sub) :: rest, d, hwf, hv, e, he => by
    obtain ⟨hf, _, hsub, hrest⟩ := (wellFormedList_cons f sub rest).mp hwf
    have hvf := entryName_valid f hf
    rw [everyNodeList, Bool.and_eq_true] at hv
    rw [folderBlocks] at he
    rw [subNodesList]
    rcases List.mem_append.mp he with he | he
    · apply EntryTarget.mono (subNodes sub (pathJoin d f)) _ d e
        (fun q hq => List.mem_append_left _ hq)
      rcases List.mem_cons.mp he with rfl | he
      · refine Or.inl ⟨[], f, sub, fun s hs => absurd hs (List.not_mem_nil _), hvf, ?_, rfl,
          subNodes_self sub _⟩
        rw [folderNameContent, pathJoin_toc f hvf]
        simp [join]
      · obtain ⟨e0, he0, rfl⟩ := List.mem_map.mp he
        exact EntryTarget.adjust _ d f e0 hvf
          (ownEntries_target readFileSync toUpperCase sub (pathJoin d f) hsub hv.1 e0 he0)
    · exact EntryTarget.mono _ _ d e (fun q hq => List.mem_append_right _ hq)
        (folderBlocks_target readFileSync toUpperCase rest d hrest hv.2 e he)
end

/-- C12, as stated, fails: a folder named `..` has no `/` in its name, and in
the list of `docs` its link `../README.md` joins to `README.md`, which is not
`k + '/README.md'` for any key `k` of the map (the keys are `docs` and `.`). -/
theorem createContentMap_link_above_directory :
    createContentMap (fun _ => some []) asciiUpper
        (.mk [] [("..".toList, .mk ["a.md".toList] [])]) "docs".toList =
      some [("docs".toList, [⟨0, "../README.md".toList, some "..".toList⟩,
          ⟨1, "../a.md".toList, none⟩]),
        (".".toList, [⟨0, "a.md".toList, none⟩])] ∧
    pathJoin "docs".toList "../README.md".toList = "README.md".toList ∧
    ∀ k ∈ ["docs".toList, ".".toList],
      pathJoin "docs".toList "../README.md".toList ≠ k ++ "/README.md".toList := by
  decide

/-- C12, amended: for a tree node whose folder names are directory-entry
names (not empty, without `/`, neither `.` nor `..`), each once per folder, and
whose file names are directory-entry names, every entry `e` of the list under
a key `d` of `createContentMap(node, p)` is of one of two kinds. Either its
`file` is `chain/f/README.md` for folder names `chain`, `f`: then the path `k`
joined from `d` along them is a key of the map, its segments are those of `d`
followed by the names, and `d` joined with `e.file` is `k + '/README.md'`, the
path `createContentMarkdown` gives the document of `k`. Or its `file` is
`chain/x` for a file `x` other than `README.md` listed in the node of the
directory joined from `d` along `chain`, and `d` joined with `e.file` is the
path of `x` in that directory. -/
theorem createContentMap_link_targets (readFileSync : JsString → Option JsString)
    (toUpperCase : Char → JsString) (node : TreeNode) (p : JsString) (m : ContentMap)
    (hwf : node.wellFormed = true) (hfiles : node.everyNode validFiles = true)
    (hm : createContentMap readFileSync toUpperCase node p = some m)
    (d : JsString) (l : List Entry) (hd : JsObject.get m d = some l)
    (e : Entry) (he : e ∈ l) :
    (∃ (chain : List JsString) (f : JsString),
        (∀ s ∈ chain ++ [f], validName s = true) ∧
        e.file = join ['/'] (chain ++ [f, TOC_FILE_NAME]) ∧
        joinAll d (chain ++ [f]) ∈ JsObject.keys m ∧
        pathSegments (joinAll d (chain ++ [f])) = pathSegments d ++ (chain ++ [f]) ∧
        pathJoin d e.file = joinAll d (chain ++ [f]) ++ '/' :: TOC_FILE_NAME ∧
        (joinAll d (chain ++ [f]) ++ '/' :: TOC_FILE_NAME) ∈
          (createContentMarkdown toUpperCase m).map Document.path) ∨
      (∃ (chain : List JsString) (x : JsString) (n : TreeNode),
        (∀ s ∈ chain ++ [x], validName s = true) ∧ x ≠ TOC_FILE_NAME ∧
        e.file = join ['/'] (chain ++ [x]) ∧
        (joinAll d chain, n) ∈ subNodes node p ∧ x ∈ n.files ∧
        pathJoin d e.file = pathJoin (joinAll d chain) x) := by
  obtain ⟨nd, hnd, hndwf, rfl⟩ :=
    createContentMap_list_of_key readFileSync toUpperCase node p m hwf hm d l hd
  have hndv := everyNode_subNodes validFiles node p hfiles (d, nd) hnd
  have hsnoc : ∀ (c : List JsString) (x : JsString), (∀ s ∈ c, validName s = true) →
      validName x = true → ∀ s ∈ c ++ [x], validName s = true := by
    intro c x hc hx s hs
    rcases List.mem_append.mp hs with hs | hs
    · exact hc s hs
    · rw [List.mem_singleton.mp hs]; exact hx
  rcases ownEntries_target readFileSync toUpperCase nd d hndwf hndv e he with
    ⟨c, f, n, h1, h2, h3, _, h5⟩ | ⟨c, x, n, h1, h2, h3, h4, _, h6, h7⟩
  · have hv := hsnoc c f h1 h2
    have hkey := mem_keys_of_subNodes readFileSync toUpperCase node p m hwf hm _ n
      (subNodes_trans node p d nd hnd _ h5)
    refine Or.inl ⟨c, f, hv, h3, hkey, pathSegments_joinAll _ d hv, ?_, ?_⟩
    · have e1 : c ++ [f, TOC_FILE_NAME] = (c ++ [f]) ++ [TOC_FILE_NAME] := by simp
      rw [h3, e1, pathJoin_join_eq d TOC_FILE_NAME (c ++ [f]) hv (by decide),
        joinAll_toc d (c ++ [f]) (by simp) hv]
    · rw [createContentMarkdown, List.map_map]
      exact List.mem_map.mpr ⟨_, hkey, rfl⟩
  · refine Or.inr ⟨c, x, n, hsnoc c x h1 h2, h3, h4, subNodes_trans node p d nd hnd _ h6, h7, ?_⟩
    rw [h4, pathJoin_join_eq d x c h1 h2]

/-- In the tree `docs/a.md`, `docs/sub/b.md` the link `sub/README.md` of the list
of `docs` joins to `docs/sub/README.md`. -/
theorem createContentMap_link_targets_witness :
    (∃ (chain : List JsString) (f : JsString),
        (∀ s ∈ chain ++ [f], validName s = true) ∧
        "sub/README.md".toList = join ['/'] (chain ++ [f, TOC_FILE_NAME]) ∧
        joinAll "docs".toList (chain ++ [f]) ∈ ["docs".toList, "docs/sub".toList] ∧
        pathJoin "docs".toList "sub/README.md".toList =
          joinAll "docs".toList (chain ++ [f]) ++ '/' :: TOC_FILE_NAME) ∨
      (∃ (chain : List JsString) (x : JsString),
        x ≠ TOC_FILE_NAME ∧ "sub/README.md".toList = join ['/'] (chain ++ [x])) := by
  rcases createContentMap_link_targets exampleRead asciiUpper
    (.mk ["a.md".toList] [("sub".toList, .mk ["b.md".toList] [])]) "docs".toList
    [("docs".toList, [⟨0, "a.md".toList, some "Alpha".toList⟩,
        ⟨0, "sub/README.md".toList, some "Sub".toList⟩,
        ⟨1, "sub/b.md".toList, some "Beta".toList⟩]),
      ("docs/sub".toList, [⟨0, "b.md".toList, some "Beta".toList⟩])]
    (by decide) (by decide) (by decide) "docs".toList
    [⟨0, "a.md".toList, some "Alpha".toList⟩, ⟨0, "sub/README.md".toList, some "Sub".toList⟩,
      ⟨1, "sub/b.md".toList, some "Beta".toList⟩] (by decide)
    ⟨0, "sub/README.md".toList, some "Sub".toList⟩ (by decide) with
    ⟨c, f, h1, h2, h3, _, h5, _⟩ | ⟨c, x, _, _, h2, h3, _, _, _⟩
  · exact Or.inl ⟨c, f, h1, h2, h3, h5⟩
  · exact Or.inr ⟨c, x, h2, h3⟩

/-! ## The list of the root directory -/

mutual
theorem ownEntries_length (readFileSync : JsString → Option JsString)
    (toUpperCase : Char → JsString) :
    ∀ (n : TreeNode) (d : JsString),
      (ownEntries readFileSync toUpperCase n d).length = n.docCount + n.folderCount
  | .mk files folders, d => by
    rw [ownEntries, List.length_append, folderBlocks_length readFileSync toUpperCase folders d,
      TreeNode.docCount, TreeNode.folderCount, fileEntries, List.length_map]
    omega
theorem folderBlocks_length (readFileSync : JsString → Option JsString)
    (toUpperCase : Char → JsString) :
    ∀ (fl : List (JsString × TreeNode)) (d : JsString),
      (folderBlocks readFileSync toUpperCase fl d).length = docCountList fl + folderCountList fl
  | [], _ => rfl
  | (f, sub) :: rest, d => by
    rw [folderBlocks, List.length_append, List.length_cons, List.length_map,
      ownEntries_length readFileSync toUpperCase sub (pathJoin d f),
      folderBlocks_length readFileSync toUpperCase rest d, docCountList, folderCountList]
    omega
end

theorem mem_folderBlocks_link (readFileSync : JsString → Option JsString)
    (toUpperCase : Char → JsString) (d g : JsString) (sub : TreeNode) :
    ∀ fl : List (JsString × TreeNode), (g, sub) ∈ fl →
      folderNameContent toUpperCase g ∈ folderBlocks readFileSync toUpperCase fl d
  | [], h => absurd h (List.not_mem_nil _)
  | (f, s) :: rest, h => by
    rw [folderBlocks]
    rcases List.mem_cons.mp h with h | h
    · obtain ⟨h1, _⟩ := Prod.mk.inj h
      subst h1
      exact List.mem_append_left _ (List.mem_cons_self _ _)
    · exact List.mem_append_right _
        (mem_folderBlocks_link readFileSync toUpperCase d g sub rest h)

theorem mem_folderBlocks_adjust (readFileSync : JsString → Option JsString)
    (toUpperCase : Char → JsString) (d g : JsString) (sub : TreeNode) (e : Entry)
    (he : e ∈ ownEntries readFileSync toUpperCase sub (pathJoin d g)) :
    ∀ fl : List (JsString × TreeNode), (g, sub) ∈ fl →
      adjust g e ∈ folderBlocks readFileSync toUpperCase fl d
  | [], h => absurd h (List.not_mem_nil _)
  | (f, s) :: rest, h => by
    rw [folderBlocks]
    rcases List.mem_cons.mp h with h | h
    · obtain ⟨h1, h2⟩ := Prod.mk.inj h
      subst h1; subst h2
      exact List.mem_append_left _ (List.mem_cons_of_mem _ (List.mem_map.mpr ⟨e, he, rfl⟩))
    · exact List.mem_append_right _
        (mem_folderBlocks_adjust readFileSync toUpperCase d g sub e he rest h)

theorem descend_cons (g : JsString) (chain : List JsString) (n n2 : TreeNode)
    (h : descend (g :: chain) n = some n2) :
    ∃ sub, (g, sub) ∈ n.folders ∧ descend chain sub = some n2 := by
  rw [descend] at h
  cases hg : JsObject.get n.folders g with
  | none => rw [hg] at h; exact absurd h (by simp)
  | some sub =>
    rw [hg] at h
    exact ⟨sub, JsObject.mem_of_get _ g sub hg, h⟩

/-- A file of the directory reached along `chain` has an entry in the list,
at the depth of the directory and under its relative path. -/
theorem descend_file_entry (readFileSync : JsString → Option JsString)
    (toUpperCase : Char → JsString) (x : JsString) (hx : x ≠ TOC_FILE_NAME) :
    ∀ (chain : List JsString) (n : TreeNode) (d : JsString) (n2 : TreeNode),
      descend chain n = some n2 → x ∈ n2.files →
      ∃ e ∈ ownEntries readFileSync toUpperCase n d,
        e.file = join ['/'] (chain ++ [x]) ∧ e.indent = chain.length ∧
          e.title = (readFileSync (pathJoin (joinAll d chain) x)).bind titleOf
  | [], n, d, n2, h, hmem => by
    rw [descend] at h
    obtain rfl := Option.some.inj h
    refine ⟨⟨0, x, (readFileSync (pathJoin d x)).bind titleOf⟩, ?_, rfl, rfl, rfl⟩
    rw [ownEntries_eq]
    refine List.mem_append_left _ ?_
    rw [fileEntries]
    exact List.mem_map.mpr ⟨x, List.mem_filter.mpr ⟨hmem, by simpa using hx⟩, rfl⟩
  | g :: chain, n, d, n2, h, hmem => by
    obtain ⟨sub, hsub, hdesc⟩ := descend_cons g chain n n2 h
    obtain ⟨e, he, h1, h2, h3⟩ :=
      descend_file_entry readFileSync toUpperCase x hx chain sub (pathJoin d g) n2 hdesc hmem
    refine ⟨adjust g e, ?_, ?_, ?_, ?_⟩
    · rw [ownEntries_eq]
      exact List.mem_append_right _
        (mem_folderBlocks_adjust readFileSync toUpperCase d g sub e he _ hsub)
    · show g ++ '/' :: e.file = _
      rw [h1, List.cons_append, join_cons_of_ne_nil _ g _ (by simp)]
      simp
    · show e.indent + 1 = _
      rw [h2]; rfl
    · show e.title = _
      rw [h3, joinAll_cons]

/-- A folder of the directory reached along `chain` has its link entry in the
list, at the depth of the directory. -/
theorem descend_folder_entry (readFileSync : JsString → Option JsString)
    (toUpperCase : Char → JsString) (f : JsString) :
    ∀ (chain : List JsString) (n : TreeNode) (d : JsString) (n2 : TreeNode),
      n.wellFormed = true → descend chain n = some n2 → f ∈ JsObject.keys n2.folders →
      ∃ e ∈ ownEntries readFileSync toUpperCase n d,
        e.file = join ['/'] (chain ++ [f, TOC_FILE_NAME]) ∧ e.indent = chain.length ∧
          e.title = some (capitalize toUpperCase f)
  | [], n, d, n2, hwf, h, hmem => by
    rw [descend] at h
    obtain rfl := Option.some.inj h
    rw [TreeNode.wellFormed_eq] at hwf
    obtain ⟨q, hq, hqf⟩ := List.mem_map.mp hmem
    have hvf : validName f = true := by
      rw [← hqf]; exact entryName_valid _ (((wellFormedList_iff _).mp hwf).1 q hq).1
    refine ⟨folderNameContent toUpperCase f, ?_, ?_, rfl, rfl⟩
    · rw [ownEntries_eq]
      refine List.mem_append_right _
        (mem_folderBlocks_link readFileSync toUpperCase d f q.2 _ ?_)
      rw [← hqf]; exact hq
    · rw [folderNameContent, pathJoin_toc f hvf]
      simp [join]
  | g :: chain, n, d, n2, hwf, h, hmem => by
    obtain ⟨sub, hsub, hdesc⟩ := descend_cons g chain n n2 h
    rw [TreeNode.wellFormed_eq] at hwf
    have hsubwf := (((wellFormedList_iff _).mp hwf).1 (g, sub) hsub).2
    obtain ⟨e, he, h1, h2, h3⟩ :=
      descend_folder_entry readFileSync toUpperCase f chain sub (pathJoin d g) n2 hsubwf hdesc
        hmem
    refine ⟨adjust g e, ?_, ?_, ?_, h3⟩
    · rw [ownEntries_eq]
      exact List.mem_append_right _
        (mem_folderBlocks_adjust readFileSync toUpperCase d g sub e he _ hsub)
    · show g ++ '/' :: e.file = _
      rw [h1, List.cons_append, join_cons_of_ne_nil _ g _ (by simp)]
      simp
    · show e.indent + 1 = _
      rw [h2]; rfl

theorem slash_prefix_inj (f g a b : JsString) (hf : '/' ∉ f) (hg : '/' ∉ g)
    (h : f ++ '/' :: a = g ++ '/' :: b) : f = g := by
  have h2 : split (f ++ '/' :: a) ['/'] = split (g ++ '/' :: b) ['/'] := by rw [h]
  rw [split_char_cons _ _ _ hf, split_char_cons _ _ _ hg] at h2
  exact (List.cons.inj h2).1

theorem folderBlocks_file_shape (readFileSync : JsString → Option JsString)
    (toUpperCase : Char → JsString) (d : JsString) :
    ∀ fl : List (JsString × TreeNode), wellFormedList fl = true →
      ∀ e ∈ folderBlocks readFileSync toUpperCase fl d,
        ∃ g ∈ JsObject.keys fl, ∃ tail, validName g = true ∧ e.file = g ++ '/' :: tail
  | [], _, e, he => absurd he (List.not_mem_nil _)
  | (f, sub) :: rest, h, e, he => by
    obtain ⟨hf, _, _, hrest⟩ := (wellFormedList_cons f sub rest).mp h
    have hvf := entryName_valid f hf
    rw [folderBlocks] at he
    rw [JsObject.keys_cons]
    rcases List.mem_append.mp he with he | he
    · rcases List.mem_cons.mp he with rfl | he
      · exact ⟨f, List.mem_cons_self _ _, TOC_FILE_NAME, hvf, by
          rw [folderNameContent, pathJoin_toc f hvf]⟩
      · obtain ⟨x, _, rfl⟩ := List.mem_map.mp he
        exact ⟨f, List.mem_cons_self _ _, x.file, hvf, rfl⟩
    · obtain ⟨g, hg, tail, hvg, ht⟩ :=
        folderBlocks_file_shape readFileSync toUpperCase d rest hrest e he
      exact ⟨g, List.mem_cons_of_mem _ hg, tail, hvg, ht⟩

mutual
/-- No two entries of the list of a directory have the same `file`. -/
theorem ownEntries_nodup (readFileSync : JsString → Option JsString)
    (toUpperCase : Char → JsString) :
    ∀ (n : TreeNode) (d : JsString), n.wellFormed = true →
      n.everyNode validFiles = true → n.everyNode filesOnce = true →
      ((ownEntries readFileSync toUpperCase n d).map Entry.file).Nodup
  | .mk files folders, d, hwf, hv, ho => by
    rw [TreeNode.wellFormed] at hwf
    have hfiles : (fileEntries readFileSync d files).map Entry.file =
        files.filter (fun file => decide (file ≠ TOC_FILE_NAME)) := by
      rw [fileEntries, List.map_map]
      exact List.map_id _
    rw [ownEntries, List.map_append, hfiles]
    refine List.Nodup.append ?_ ?_ ?_
    · exact List.Nodup.filter _ (of_decide_eq_true (everyNode_self _ _ ho))
    · exact folderBlocks_nodup readFileSync toUpperCase folders d hwf
        (everyNode_folders _ _ hv) (everyNode_folders _ _ ho)
    · intro a ha hb
      have hva : validName a = true :=
        List.all_eq_true.mp (everyNode_self _ _ hv) a (List.mem_filter.mp ha).1
      obtain ⟨e, he, rfl⟩ := List.mem_map.mp hb
      obtain ⟨g, _, tail, _, ht⟩ :=
        folderBlocks_file_shape readFileSync toUpperCase d folders hwf e he
      exact ((validName_iff _).mp hva).2.1 (by rw [ht]; simp)
theorem folderBlocks_nodup (readFileSync : JsString → Option JsString)
    (toUpperCase : Char → JsString) :
    ∀ (fl : List (JsString × TreeNode)) (d : JsString), wellFormedList fl = true →
      everyNodeList validFiles fl = true → everyNodeList filesOnce fl = true →
      ((folderBlocks readFileSync toUpperCase fl d).map Entry.file).Nodup
  | [], _, _, _, _ => List.nodup_nil
  | (f, sub) :: rest, d, hwf, hv, ho => by
    obtain ⟨hf, hnot, hsub, hrest⟩ := (wellFormedList_cons f sub rest).mp hwf
    have hvf := entryName_valid f hf
    rw [everyNodeList, Bool.and_eq_true] at hv ho
    have hmap : ((ownEntries readFileSync toUpperCase sub (pathJoin d f)).map (adjust f)).map
        Entry.file =
        ((ownEntries readFileSync toUpperCase sub (pathJoin d f)).map Entry.file).map
          (fun s => f ++ '/' :: s) := by
      rw [List.map_map, List.map_map]
      rfl
    have hlink : (folderNameContent toUpperCase f).file = f ++ '/' :: TOC_FILE_NAME := by
      rw [folderNameContent, pathJoin_toc f hvf]
    rw [folderBlocks, List.map_append, List.map_cons, hmap, hlink]
    refine List.Nodup.append (List.nodup_cons.mpr ⟨?_, ?_⟩) ?_ ?_
    · intro hmem
      obtain ⟨s, hs, hse⟩ := List.mem_map.mp hmem
      obtain ⟨e0, he0, rfl⟩ := List.mem_map.mp hs
      have : e0.file = TOC_FILE_NAME := by
        have := List.append_cancel_left hse
        exact (List.cons.inj this).2
      exact ownEntries_file_ne readFileSync toUpperCase sub (pathJoin d f) hsub e0 he0 this
    · refine List.Nodup.map ?_
        (ownEntries_nodup readFileSync toUpperCase sub (pathJoin d f) hsub hv.1 ho.1)
      intro a b hab
      exact (List.cons.inj (List.append_cancel_left hab)).2
    · exact folderBlocks_nodup readFileSync toUpperCase rest d hrest hv.2 ho.2
    · intro a ha hb
      obtain ⟨e, he, rfl⟩ := List.mem_map.mp hb
      obtain ⟨g, hg, tail, hvg, ht⟩ :=
        folderBlocks_file_shape readFileSync toUpperCase d rest hrest e he
      have hshape : ∃ t, e.file = f ++ '/' :: t := by
        rcases List.mem_cons.mp ha with h | h
        · exact ⟨_, h⟩
        · obtain ⟨s, _, hs⟩ := List.mem_map.mp h
          exact ⟨s, hs.symm⟩
      obtain ⟨t, hte⟩ := hshape
      have hfg : f = g :=
        slash_prefix_inj f g t tail ((validName_iff f).mp hvf).2.1
          ((validName_iff g).mp hvg).2.1 (by rw [← hte, ht])
      exact hnot (by rw [hfg]; exact hg)
end

/-- C20, as stated, fails: a folder named `.` has no `/` in its name, its
joined path is the root key again, and `Object.assign` replaces the root list
by the folder's own: the tree holds two files and one folder, the list under
the root key holds one entry. -/
theorem createContentMap_root_list_replaced :
    createContentMap (fun _ => some []) asciiUpper
        (.mk ["a.md".toList] [(".".toList, .mk ["b.md".toList] [])]) "docs".toList =
      some [("docs".toList, [⟨0, "b.md".toList, none⟩])] ∧
    (TreeNode.mk ["a.md".toList] [(".".toList, .mk ["b.md".toList] [])]).docCount = 2 ∧
    (TreeNode.mk ["a.md".toList] [(".".toList, .mk ["b.md".toList] [])]).folderCount = 1 := by
  decide

/-- C20, amended: for a tree node whose folder names are directory-entry
names (not empty, without `/`, neither `.` nor `..`), each once per folder,
whose file names are directory-entry names listed once per directory, and
whose files can be read, `createContentMap` returns a map and the list under
the root key has as many entries as the tree holds files other than
`README.md` plus folders; each such file of the directory reached along
`chain` has an entry with `file` equal to `chain/x` and `indent` equal to the
length of the chain, each folder `f` of such a directory has an entry with
`file` equal to `chain/f/README.md` at that indent, and no two entries of the
list have the same `file`. -/
theorem createContentMap_root_list (readFileSync : JsString → Option JsString)
    (toUpperCase : Char → JsString) (node : TreeNode) (p : JsString)
    (hwf : node.wellFormed = true) (hvalid : node.everyNode validFiles = true)
    (honce : node.everyNode filesOnce = true)
    (hreads : readsOk readFileSync node p = true) :
    ∃ (m : ContentMap) (l : List Entry),
      createContentMap readFileSync toUpperCase node p = some m ∧
      JsObject.get m p = some l ∧
      l.length = node.docCount + node.folderCount ∧
      (∀ (chain : List JsString) (n : TreeNode) (x : JsString),
        descend chain node = some n → x ∈ n.files → x ≠ TOC_FILE_NAME →
        ∃ e ∈ l, e.file = join ['/'] (chain ++ [x]) ∧ e.indent = chain.length ∧
          e.title = (readFileSync (pathJoin (joinAll p chain) x)).bind titleOf) ∧
      (∀ (chain : List JsString) (n : TreeNode) (f : JsString),
        descend chain node = some n → f ∈ JsObject.keys n.folders →
        ∃ e ∈ l, e.file = join ['/'] (chain ++ [f, TOC_FILE_NAME]) ∧
          e.indent = chain.length ∧ e.title = some (capitalize toUpperCase f)) ∧
      (l.map Entry.file).Nodup := by
  obtain ⟨m, hm⟩ := createContentMap_some readFileSync toUpperCase node p hwf hreads
  refine ⟨m, ownEntries readFileSync toUpperCase node p, hm,
    createContentMap_get_self readFileSync toUpperCase node p m hwf hm,
    ownEntries_length readFileSync toUpperCase node p, ?_, ?_,
    ownEntries_nodup readFileSync toUpperCase node p hwf hvalid honce⟩
  · intro chain n x hd hx hne
    exact descend_file_entry readFileSync toUpperCase x hne chain node p n hd hx
  · intro chain n f hd hf
    exact descend_folder_entry readFileSync toUpperCase f chain node p n hwf hd hf

/-- The root list of the tree `docs/a.md`, `docs/sub/b.md` has three entries. -/
theorem createContentMap_root_list_witness :
    ∃ (m : ContentMap) (l : List Entry),
      createContentMap exampleRead asciiUpper
        (.mk ["a.md".toList] [("sub".toList, .mk ["b.md".toList] [])]) "docs".toList = some m ∧
      JsObject.get m "docs".toList = some l ∧ l.length = 3 ∧ (l.map Entry.file).Nodup := by
  obtain ⟨m, l, h1, h2, h3, _, _, h6⟩ := createContentMap_root_list exampleRead asciiUpper
    (.mk ["a.md".toList] [("sub".toList, .mk ["b.md".toList] [])]) "docs".toList
    (by decide) (by decide) (by decide) (by decide)
  exact ⟨m, l, h1, h2, h3, h6⟩

/-! ## Writing to the file system -/

theorem entryOf_cons (name : JsString) (c : JsString × FsEntry)
    (rest : List (JsString × FsEntry)) :
    entryOf name (c :: rest) = if c.1 = name then some c.2 else entryOf name rest := by
  rw [entryOf]

theorem entryOf_middle_ne (x name : JsString) (e : FsEntry) (h : x ≠ name) :
    ∀ A B : List (JsString × FsEntry), entryOf x (A ++ (name, e) :: B) = entryOf x (A ++ B)
  | [], B => by
    rw [List.nil_append, List.nil_append, entryOf_cons, if_neg (fun e2 => h e2.symm)]
  | a :: A, B => by
    rw [List.cons_append, List.cons_append, entryOf_cons, entryOf_cons,
      entryOf_middle_ne x name e h A B]

theorem entryOf_middle_self (name : JsString) (e : FsEntry) :
    ∀ A B : List (JsString × FsEntry), entryOf name A = none →
      entryOf name (A ++ (name, e) :: B) = some e
  | [], B, _ => by rw [List.nil_append, entryOf_cons, if_pos rfl]
  | a :: A, B, h => by
    rw [entryOf_cons] at h
    by_cases ha : a.1 = name
    · rw [if_pos ha] at h; exact absurd h (by simp)
    · rw [if_neg ha] at h
      rw [List.cons_append, entryOf_cons, if_neg ha, entryOf_middle_self name e A B h]

theorem entryOf_append_none (name : JsString) :
    ∀ A B : List (JsString × FsEntry), entryOf name (A ++ B) = none → entryOf name A = none
  | [], _, _ => rfl
  | a :: A, B, h => by
    rw [List.cons_append, entryOf_cons] at h
    rw [entryOf_cons]
    by_cases ha : a.1 = name
    · rw [if_pos ha] at h; exact absurd h (by simp)
    · rw [if_neg ha] at h ⊢
      exact entryOf_append_none name A B h

/-- The entry found under a name splits the listing at its first occurrence. -/
theorem entryOf_split (name : JsString) :
    ∀ (l : List (JsString × FsEntry)) (e : FsEntry), entryOf name l = some e →
      ∃ A B, l = A ++ (name, e) :: B ∧ entryOf name A = none ∧
        ∀ e2, replaceEntry name e2 l = A ++ (name, e2) :: B
  | [], _, h => absurd h (by simp [entryOf])
  | c :: rest, e, h => by
    rw [entryOf_cons] at h
    by_cases hc : c.1 = name
    · rw [if_pos hc] at h
      refine ⟨[], rest, ?_, rfl, ?_⟩
      · rw [← Option.some.inj h, ← hc]; rfl
      · intro e2
        rw [replaceEntry, if_pos hc, hc]; rfl
    · rw [if_neg hc] at h
      obtain ⟨A, B, h1, h2, h3⟩ := entryOf_split name rest e h
      refine ⟨c :: A, B, by rw [h1]; rfl, by rw [entryOf_cons, if_neg hc]; exact h2, ?_⟩
      intro e2
      rw [replaceEntry, if_neg hc, h3 e2]; rfl

/-- Writing to a file directly in the directory: either an existing file gets
the new text at its place, or a new file is listed somewhere. -/
theorem writeAt_single (place : List (JsString × FsEntry) → JsString → Nat)
    (name : JsString) (l l1 : List (JsString × FsEntry)) (data : JsString)
    (h : writeAt place [name] l data = some l1) :
    (∃ A B old, l = A ++ (name, .file old) :: B ∧ entryOf name A = none ∧
        l1 = A ++ (name, .file data) :: B) ∨
      (entryOf name l = none ∧ ∃ A B, l = A ++ B ∧ l1 = A ++ (name, .file data) :: B) := by
  rw [writeAt] at h
  split at h
  · exact absurd h (by simp)
  · next old he =>
    obtain ⟨A, B, h1, h2, h3⟩ := entryOf_split name l _ he
    refine Or.inl ⟨A, B, old, h1, h2, ?_⟩
    rw [← Option.some.inj h, h3]
  · next he =>
    refine Or.inr ⟨he, l.take (place l name), l.drop (place l name),
      (List.take_append_drop _ _).symm, ?_⟩
    rw [← Option.some.inj h]; rfl

/-- Writing below a sub-directory changes the listing of that sub-directory. -/
theorem writeAt_cons (place : List (JsString × FsEntry) → JsString → Nat)
    (name seg : JsString) (rest : List JsString) (l l1 : List (JsString × FsEntry))
    (data : JsString) (h : writeAt place (name :: seg :: rest) l data = some l1) :
    ∃ A B children children1, l = A ++ (name, .dir children) :: B ∧ entryOf name A = none ∧
      writeAt place (seg :: rest) children data = some children1 ∧
      l1 = A ++ (name, .dir children1) :: B := by
  rw [writeAt] at h
  split at h
  · next children he =>
    obtain ⟨A, B, h1, h2, h3⟩ := entryOf_split name l _ he
    cases hw : writeAt place (seg :: rest) children data with
    | none => rw [hw] at h; exact absurd h (by simp)
    | some children1 =>
      rw [hw, Option.map_some'] at h
      refine ⟨A, B, children, children1, h1, h2, hw, ?_⟩
      rw [← Option.some.inj h, h3]
  · exact absurd h (by simp)

theorem writeAt_single_isSome (place : List (JsString × FsEntry) → JsString → Nat)
    (name : JsString) (l : List (JsString × FsEntry)) (data : JsString) :
    (writeAt place [name] l data).isSome = true ↔ ∀ children, entryOf name l ≠ some (.dir children) := by
  rw [writeAt]
  split
  · next children he =>
    simp only [Option.isSome_none, Bool.false_eq_true, false_iff, not_forall, not_not]
    exact ⟨children, he⟩
  · next old he =>
    simp only [Option.isSome_some, true_iff]
    intro children hc
    rw [he] at hc
    exact FsEntry.noConfusion (Option.some.inj hc)
  · next he =>
    simp only [Option.isSome_some, true_iff]
    intro children hc
    rw [he] at hc
    exact Option.noConfusion hc

theorem writeAt_cons_isSome (place : List (JsString × FsEntry) → JsString → Nat)
    (name seg : JsString) (rest : List JsString) (l : List (JsString × FsEntry))
    (data : JsString) :
    (writeAt place (name :: seg :: rest) l data).isSome = true ↔
      ∃ children, entryOf name l = some (.dir children) ∧
        (writeAt place (seg :: rest) children data).isSome = true := by
  rw [writeAt]
  split
  · next children he =>
    rw [Option.isSome_map']
    constructor
    · intro h; exact ⟨children, he, h⟩
    · rintro ⟨ch, h1, h2⟩
      rw [he] at h1
      obtain rfl := FsEntry.dir.inj (Option.some.inj h1)
      exact h2
  · next hne =>
    simp only [Option.isSome_none, Bool.false_eq_true, false_iff, not_exists, not_and]
    intro ch hc
    exact absurd hc (hne ch)

/-- A write that succeeds still succeeds after any other write: writes
neither remove a directory nor put a directory where a file is written. -/
theorem writeAt_isSome_after (place : List (JsString × FsEntry) → JsString → Nat) :
    ∀ (segs2 segs : List JsString) (l l1 : List (JsString × FsEntry)) (d2 d : JsString),
      writeAt place segs2 l d2 = some l1 → (writeAt place segs l d).isSome = true →
      (writeAt place segs l1 d).isSome = true
  | [], _, _, _, _, _, h, _ => by rw [writeAt] at h; exact absurd h (by simp)
  | _ :: _, [], _, _, _, _, _, h => by rw [writeAt] at h; exact absurd h (by simp)
  | [n2], [name], l, l1, d2, d, h, hs => by
    rw [writeAt_single_isSome] at hs ⊢
    intro children hc
    by_cases hn : name = n2
    · subst hn
      rcases writeAt_single place name l l1 d2 h with ⟨A, B, old, _, h2, h3⟩ | ⟨h1, A, B, h2, h3⟩
      · rw [h3, entryOf_middle_self name _ A B h2] at hc
        exact FsEntry.noConfusion (Option.some.inj hc)
      · rw [h3, entryOf_middle_self name _ A B (entryOf_append_none name A B (h2 ▸ h1))] at hc
        exact FsEntry.noConfusion (Option.some.inj hc)
    · rcases writeAt_single place n2 l l1 d2 h with ⟨A, B, old, h1, _, h3⟩ | ⟨_, A, B, h2, h3⟩
      · rw [h3, entryOf_middle_ne name n2 _ hn A B,
          ← entryOf_middle_ne name n2 (.file old) hn A B, ← h1] at hc
        exact hs children hc
      · rw [h3, entryOf_middle_ne name n2 _ hn A B, ← h2] at hc
        exact hs children hc
  | [n2], name :: seg :: rest, l, l1, d2, d, h, hs => by
    rw [writeAt_cons_isSome] at hs ⊢
    obtain ⟨children, hc, hw⟩ := hs
    have hn : name ≠ n2 := by
      rintro rfl
      have := (writeAt_single_isSome place name l d2).mp (by rw [h]; rfl) children
      exact this hc
    refine ⟨children, ?_, hw⟩
    rcases writeAt_single place n2 l l1 d2 h with ⟨A, B, old, h1, _, h3⟩ | ⟨_, A, B, h2, h3⟩
    · rw [h3, entryOf_middle_ne name n2 _ hn A B,
        ← entryOf_middle_ne name n2 (.file old) hn A B, ← h1]
      exact hc
    · rw [h3, entryOf_middle_ne name n2 _ hn A B, ← h2]
      exact hc
  | n2 :: s2 :: r2, [name], l, l1, d2, d, h, hs => by
    rw [writeAt_single_isSome] at hs ⊢
    obtain ⟨A, B, ch, ch1, h1, h2, _, h4⟩ := writeAt_cons place n2 s2 r2 l l1 d2 h
    intro children hc
    by_cases hn : name = n2
    · subst hn
      exact hs ch (by rw [h1, entryOf_middle_self name _ A B h2])
    · rw [h4, entryOf_middle_ne name n2 _ hn A B,
        ← entryOf_middle_ne name n2 (.dir ch) hn A B, ← h1] at hc
      exact hs children hc
  | n2 :: s2 :: r2, name :: seg :: rest, l, l1, d2, d, h, hs => by
    rw [writeAt_cons_isSome] at hs ⊢
    obtain ⟨children, hc, hw⟩ := hs
    obtain ⟨A, B, ch, ch1, h1, h2, h3, h4⟩ := writeAt_cons place n2 s2 r2 l l1 d2 h
    by_cases hn : name = n2
    · subst hn
      rw [h1, entryOf_middle_self name _ A B h2] at hc
      obtain rfl := FsEntry.dir.inj (Option.some.inj hc)
      refine ⟨ch1, by rw [h4, entryOf_middle_self name _ A B h2], ?_⟩
      exact writeAt_isSome_after place (s2 :: r2) (seg :: rest) ch ch1 d2 d h3 hw
    · refine ⟨children, ?_, hw⟩
      rw [h4, entryOf_middle_ne name n2 _ hn A B,
        ← entryOf_middle_ne name n2 (.dir ch) hn A B, ← h1]
      exact hc

theorem writeAt_isSome_data (place : List (JsString × FsEntry) → JsString → Nat) :
    ∀ (segs : List JsString) (l : List (JsString × FsEntry)) (d d2 : JsString),
      (writeAt place segs l d).isSome = true → (writeAt place segs l d2).isSome = true
  | [], _, _, _, h => by rw [writeAt] at h; exact absurd h (by simp)
  | [name], l, d, d2, h => by
    rw [writeAt_single_isSome] at h ⊢
    exact h
  | name :: seg :: rest, l, d, d2, h => by
    rw [writeAt_cons_isSome] at h ⊢
    obtain ⟨children, hc, hw⟩ := h
    exact ⟨children, hc, writeAt_isSome_data place (seg :: rest) children d d2 hw⟩

theorem entryOf_of_write_single (place : List (JsString × FsEntry) → JsString → Nat)
    (name x : JsString) (l l1 : List (JsString × FsEntry)) (data : JsString)
    (h : writeAt place [name] l data = some l1) (hx : x ≠ name) :
    entryOf x l1 = entryOf x l := by
  rcases writeAt_single place name l l1 data h with ⟨A, B, old, h1, _, h3⟩ | ⟨_, A, B, h2, h3⟩
  · rw [h3, h1, entryOf_middle_ne x name _ hx A B, entryOf_middle_ne x name _ hx A B]
  · rw [h3, h2, entryOf_middle_ne x name _ hx A B]

theorem entryOf_of_write_single_self (place : List (JsString × FsEntry) → JsString → Nat)
    (name : JsString) (l l1 : List (JsString × FsEntry)) (data : JsString)
    (h : writeAt place [name] l data = some l1) :
    entryOf name l1 = some (.file data) ∧
      (entryOf name l = none ∨ ∃ old, entryOf name l = some (.file old)) := by
  rcases writeAt_single place name l l1 data h with ⟨A, B, old, h1, h2, h3⟩ | ⟨h1, A, B, h2, h3⟩
  · exact ⟨by rw [h3, entryOf_middle_self name _ A B h2],
      Or.inr ⟨old, by rw [h1, entryOf_middle_self name _ A B h2]⟩⟩
  · exact ⟨by rw [h3, entryOf_middle_self name _ A B (entryOf_append_none name A B (h2 ▸ h1))],
      Or.inl h1⟩

theorem entryOf_of_write_cons (place : List (JsString × FsEntry) → JsString → Nat)
    (name seg x : JsString) (rest : List JsString) (l l1 : List (JsString × FsEntry))
    (data : JsString) (h : writeAt place (name :: seg :: rest) l data = some l1)
    (hx : x ≠ name) : entryOf x l1 = entryOf x l := by
  obtain ⟨A, B, ch, ch1, h1, _, _, h4⟩ := writeAt_cons place name seg rest l l1 data h
  rw [h4, h1, entryOf_middle_ne x name _ hx A B, entryOf_middle_ne x name _ hx A B]

theorem entryOf_of_write_cons_self (place : List (JsString × FsEntry) → JsString → Nat)
    (name seg : JsString) (rest : List JsString) (l l1 : List (JsString × FsEntry))
    (data : JsString) (h : writeAt place (name :: seg :: rest) l data = some l1) :
    ∃ children children1, entryOf name l = some (.dir children) ∧
      entryOf name l1 = some (.dir children1) ∧
      writeAt place (seg :: rest) children data = some children1 := by
  obtain ⟨A, B, ch, ch1, h1, h2, h3, h4⟩ := writeAt_cons place name seg rest l l1 data h
  exact ⟨ch, ch1, by rw [h1, entryOf_middle_self name _ A B h2],
    by rw [h4, entryOf_middle_self name _ A B h2], h3⟩

/-- Writing a file called `toc` leaves the text of every file of another name
as it was. -/
theorem fileAt_writeAt (place : List (JsString × FsEntry) → JsString → Nat) (toc : JsString) :
    ∀ (segs2 segs : List JsString) (l l1 : List (JsString × FsEntry)) (data : JsString),
      segs2.getLast? = some toc → segs.getLast? ≠ some toc →
      writeAt place segs2 l data = some l1 → fileAt segs l1 = fileAt segs l
  | [], _, _, _, _, _, _, h => by rw [writeAt] at h; exact absurd h (by simp)
  | _ :: _, [], _, _, _, _, _, _ => by rw [fileAt, fileAt]
  | [n2], [x], l, l1, data, h2, hx, h => by
    have hn : x ≠ n2 := by
      rintro rfl
      exact hx (by simpa using h2)
    rw [fileAt, fileAt, entryOf_of_write_single place n2 x l l1 data h hn]
  | [n2], x :: y :: rest, l, l1, data, _, _, h => by
    rw [fileAt, fileAt]
    by_cases hn : x = n2
    · subst hn
      obtain ⟨e1, e2⟩ := entryOf_of_write_single_self place x l l1 data h
      rw [e1]
      rcases e2 with e2 | ⟨old, e2⟩ <;> rw [e2]
    · rw [entryOf_of_write_single place n2 x l l1 data h hn]
  | n2 :: s2 :: r2, [x], l, l1, data, _, _, h => by
    rw [fileAt, fileAt]
    by_cases hn : x = n2
    · subst hn
      obtain ⟨ch, ch1, e1, e2, _⟩ := entryOf_of_write_cons_self place x s2 r2 l l1 data h
      rw [e1, e2]
    · rw [entryOf_of_write_cons place n2 s2 x r2 l l1 data h hn]
  | n2 :: s2 :: r2, x :: y :: rest, l, l1, data, h2, hx, h => by
    rw [fileAt, fileAt]
    by_cases hn : x = n2
    · subst hn
      obtain ⟨ch, ch1, e1, e2, e3⟩ := entryOf_of_write_cons_self place x s2 r2 l l1 data h
      rw [e1, e2]
      exact fileAt_writeAt place toc (s2 :: r2) (y :: rest) ch ch1 data
        (by rw [← h2, List.getLast?_cons_cons])
        (by rw [← List.getLast?_cons_cons (a := x)]; exact hx) e3
    · rw [entryOf_of_write_cons place n2 s2 x r2 l l1 data h hn]

/-! ## The scan after a write -/

theorem stripTocList_eq_map :
    ∀ fl : List (JsString × TreeNode),
      stripTocList fl = fl.map (fun q => (q.1, stripToc q.2))
  | [] => rfl
  | (f, sub) :: rest => by
    rw [stripTocList, stripTocList_eq_map rest]; rfl

theorem stripToc_eq (t : TreeNode) :
    stripToc t = .mk (t.files.filter (fun file => decide (file ≠ TOC_FILE_NAME)))
      (t.folders.map (fun q => (q.1, stripToc q.2))) := by
  cases t with
  | mk files folders => rw [stripToc, stripTocList_eq_map]; rfl

theorem JsObject.has_map_snd {α β : Type} (g : α → β) (k : JsString) :
    ∀ o : JsObject α, JsObject.has (o.map (fun q => (q.1, g q.2))) k = JsObject.has o k
  | [] => rfl
  | x :: rest => by
    have := JsObject.has_map_snd g k rest
    simp only [JsObject.has, List.map_cons, List.any_cons] at this ⊢
    rw [this]

theorem JsObject.insertIndex_map_snd {α β : Type} (g : α → β) (n : Nat) (k : JsString)
    (v : α) :
    ∀ o : JsObject α, (JsObject.insertIndex n k v o).map (fun q => (q.1, g q.2)) =
      JsObject.insertIndex n k (g v) (o.map (fun q => (q.1, g q.2)))
  | [] => rfl
  | p :: rest => by
    rw [JsObject.insertIndex, List.map_cons, JsObject.insertIndex]
    cases hp : arrayIndex p.1 with
    | none => rfl
    | some m =>
      simp only
      by_cases hm : m < n
      · rw [if_pos hm, if_pos hm, List.map_cons, JsObject.insertIndex_map_snd g n k v rest]
      · rw [if_neg hm, if_neg hm]; rfl

/-- Assigning a property commutes with applying a function to the values. -/
theorem JsObject.set_map_snd {α β : Type} (g : α → β) (o : JsObject α) (k : JsString)
    (v : α) :
    (JsObject.set o k v).map (fun q => (q.1, g q.2)) =
      JsObject.set (o.map (fun q => (q.1, g q.2))) k (g v) := by
  rw [JsObject.set, JsObject.set, JsObject.has_map_snd]
  by_cases hh : JsObject.has o k = true
  · rw [if_pos hh, if_pos hh, List.map_map, List.map_map]
    apply List.map_congr_left
    intro p _
    simp only [Function.comp]
    by_cases hp : p.1 = k
    · rw [if_pos hp, if_pos hp]
    · rw [if_neg hp, if_neg hp]
  · rw [if_neg hh, if_neg hh]
    cases hk : arrayIndex k with
    | none => simp
    | some n => exact JsObject.insertIndex_map_snd g n k v o

theorem JsObject.foldl_set_map_snd {α β : Type} (g : α → β) :
    ∀ (ps : List (JsString × α)) (o : JsObject α),
      (ps.foldl (fun o p => JsObject.set o p.1 p.2) o).map (fun q => (q.1, g q.2)) =
        (ps.map (fun q => (q.1, g q.2))).foldl (fun o p => JsObject.set o p.1 p.2)
          (o.map (fun q => (q.1, g q.2)))
  | [], _ => rfl
  | p :: ps, o => by
    rw [List.foldl_cons, JsObject.foldl_set_map_snd g ps, JsObject.set_map_snd, List.map_cons,
      List.foldl_cons]

/-- The stripped scan of a listing, from the names and the kept folders. -/
theorem stripToc_createFolderTree (excludedArray : List JsString)
    (startPath includeText : JsString) (excludes : List JsString)
    (l : List (JsString × FsEntry)) :
    stripToc (createFolderTree excludedArray startPath includeText excludes (some l)) =
      .mk (((l.map Prod.fst).filter (pushesFile excludedArray includeText startPath)).filter
          (fun file => decide (file ≠ TOC_FILE_NAME)))
        (((l.filterMap (keptFolder excludedArray includeText excludes startPath)).map
          (fun q => (q.1, stripToc q.2))).foldl (fun o p => JsObject.set o p.1 p.2) []) := by
  rw [stripToc_eq, createFolderTree_files, createFolderTree_folders,
    JsObject.foldl_set_map_snd]
  rfl

theorem keys_map_snd {α β : Type} (g : α → β) (o : JsObject α) :
    JsObject.keys (o.map (fun q => (q.1, g q.2))) = JsObject.keys o := by
  rw [JsObject.keys, JsObject.keys, List.map_map]
  rfl

/-- A node that is not empty stays so when its stripped form is kept and its
`files` do not get shorter. -/
theorem nonEmpty_of_stripToc (t t1 : TreeNode) (hs : stripToc t1 = stripToc t)
    (hlen : t.files.length ≤ t1.files.length) (hne : t.nonEmpty = true) :
    t1.nonEmpty = true := by
  rw [stripToc_eq, stripToc_eq] at hs
  have hk : JsObject.keys t1.folders = JsObject.keys t.folders := by
    have := congrArg (fun n => JsObject.keys n.folders) hs
    simpa only [TreeNode.folders, keys_map_snd] using this
  simp only [TreeNode.nonEmpty, decide_eq_true_eq] at hne ⊢
  rw [hk]
  omega

theorem keptFolder_file (excludedArray : List JsString) (includeText : JsString)
    (excludes : List JsString) (startPath name content : JsString) :
    keptFolder excludedArray includeText excludes startPath (name, .file content) = none := rfl

/-- Changing the text of a file changes nothing in the scan. -/
theorem createFolderTree_file_change (excludedArray : List JsString)
    (startPath includeText : JsString) (excludes : List JsString)
    (A B : List (JsString × FsEntry)) (name old data : JsString) :
    createFolderTree excludedArray startPath includeText excludes
        (some (A ++ (name, .file data) :: B)) =
      createFolderTree excludedArray startPath includeText excludes
        (some (A ++ (name, .file old) :: B)) := by
  rw [← TreeNode.mk_files_folders (createFolderTree excludedArray startPath includeText excludes
      (some (A ++ (name, .file data) :: B))),
    ← TreeNode.mk_files_folders (createFolderTree excludedArray startPath includeText excludes
      (some (A ++ (name, .file old) :: B))),
    createFolderTree_files, createFolderTree_files, createFolderTree_folders,
    createFolderTree_folders]
  simp only [List.map_append, List.map_cons, List.filterMap_append, List.filterMap_cons,
    keptFolder_file]

/-- A new index document changes nothing in the stripped scan, and the
`files` of the scan do not get shorter. -/
theorem createFolderTree_file_insert (excludedArray : List JsString)
    (startPath includeText : JsString) (excludes : List JsString)
    (A B : List (JsString × FsEntry)) (data : JsString) :
    stripToc (createFolderTree excludedArray startPath includeText excludes
        (some (A ++ (TOC_FILE_NAME, .file data) :: B))) =
      stripToc (createFolderTree excludedArray startPath includeText excludes (some (A ++ B))) ∧
    (createFolderTree excludedArray startPath includeText excludes (some (A ++ B))).files.length ≤
      (createFolderTree excludedArray startPath includeText excludes
        (some (A ++ (TOC_FILE_NAME, .file data) :: B))).files.length := by
  constructor
  · rw [stripToc_createFolderTree, stripToc_createFolderTree]
    simp only [List.map_append, List.map_cons, List.filterMap_append, List.filterMap_cons,
      keptFolder_file, List.filter_append, List.filter_cons]
    by_cases hp : pushesFile excludedArray includeText startPath TOC_FILE_NAME = true
    · simp [hp]
    · simp [hp]
  · rw [createFolderTree_files, createFolderTree_files]
    simp only [List.map_append, List.map_cons, List.filter_append, List.filter_cons,
      List.length_append]
    split
    · simp
    · exact Nat.le_refl _

/-- Replacing the listing of a kept sub-directory by one with the same
stripped scan that is kept too changes nothing in the stripped scan, and
nothing in the `files`. -/
theorem createFolderTree_dir_change (excludedArray : List JsString)
    (startPath includeText : JsString) (excludes : List JsString)
    (A B : List (JsString × FsEntry)) (g : JsString) (ch ch1 : List (JsString × FsEntry))
    (hex : pathJoin startPath g ∉ excludedArray)
    (hne : (createFolderTree excludedArray (pathJoin startPath g) includeText excludes
      (some ch)).nonEmpty = true)
    (hne1 : (createFolderTree excludedArray (pathJoin startPath g) includeText excludes
      (some ch1)).nonEmpty = true)
    (hs : stripToc (createFolderTree excludedArray (pathJoin startPath g) includeText excludes
        (some ch1)) =
      stripToc (createFolderTree excludedArray (pathJoin startPath g) includeText excludes
        (some ch))) :
    stripToc (createFolderTree excludedArray startPath includeText excludes
        (some (A ++ (g, .dir ch1) :: B))) =
      stripToc (createFolderTree excludedArray startPath includeText excludes
        (some (A ++ (g, .dir ch) :: B))) ∧
    (createFolderTree excludedArray startPath includeText excludes
        (some (A ++ (g, .dir ch1) :: B))).files =
      (createFolderTree excludedArray startPath includeText excludes
        (some (A ++ (g, .dir ch) :: B))).files := by
  constructor
  · rw [stripToc_createFolderTree, stripToc_createFolderTree]
    simp only [List.map_append, List.map_cons, List.filterMap_append, List.filterMap_cons,
      keptFolder_dir excludedArray includeText excludes startPath g ch hex hne,
      keptFolder_dir excludedArray includeText excludes startPath g ch1 hex hne1, hs]
  · rw [createFolderTree_files, createFolderTree_files]
    simp only [List.map_append, List.map_cons]

theorem keptChain_nil (excludedArray : List JsString) (includeText : JsString)
    (excludes : List JsString) (startPath : JsString) (l : List (JsString × FsEntry)) :
    keptChain excludedArray includeText excludes startPath [] l = true := by
  rw [keptChain]

theorem keptChain_cons (excludedArray : List JsString) (includeText : JsString)
    (excludes : List JsString) (startPath g : JsString) (chain : List JsString)
    (l : List (JsString × FsEntry)) :
    keptChain excludedArray includeText excludes startPath (g :: chain) l = true ↔
      ∃ children, entryOf g l = some (.dir children) ∧
        pathJoin startPath g ∉ excludedArray ∧
        (createFolderTree excludedArray (pathJoin startPath g) includeText excludes
          (some children)).nonEmpty = true ∧
        keptChain excludedArray includeText excludes (pathJoin startPath g) chain children =
          true := by
  rw [keptChain]
  split
  · next children he =>
    rw [Bool.and_eq_true, Bool.and_eq_true, Bool.not_eq_true', ← Bool.not_eq_true,
      excludedArrayContains_iff]
    constructor
    · rintro ⟨⟨h1, h2⟩, h3⟩
      exact ⟨children, he, h1, h2, h3⟩
    · rintro ⟨ch, h0, h1, h2, h3⟩
      rw [he] at h0
      obtain rfl := FsEntry.dir.inj (Option.some.inj h0)
      exact ⟨⟨h1, h2⟩, h3⟩
  · next hne =>
    simp only [Bool.false_eq_true, false_iff, not_exists, not_and]
    intro ch hc
    exact absurd hc (hne ch)

theorem snoc_eq_cons (c : List JsString) (x : JsString) : ∃ seg rest, c ++ [x] = seg :: rest := by
  cases c with
  | nil => exact ⟨x, [], rfl⟩
  | cons a b => exact ⟨a, b ++ [x], rfl⟩

/-- Writing the index document of a kept directory changes nothing in the
stripped scan, and the `files` of the scan do not get shorter. -/
theorem createFolderTree_writeAt (excludedArray : List JsString) (includeText : JsString)
    (excludes : List JsString) (place : List (JsString × FsEntry) → JsString → Nat) :
    ∀ (chain : List JsString) (startPath : JsString) (l l1 : List (JsString × FsEntry))
      (data : JsString),
      keptChain excludedArray includeText excludes startPath chain l = true →
      writeAt place (chain ++ [TOC_FILE_NAME]) l data = some l1 →
      stripToc (createFolderTree excludedArray startPath includeText excludes (some l1)) =
        stripToc (createFolderTree excludedArray startPath includeText excludes (some l)) ∧
      (createFolderTree excludedArray startPath includeText excludes (some l)).files.length ≤
        (createFolderTree excludedArray startPath includeText excludes (some l1)).files.length
  | [], sp, l, l1, data, _, h => by
    rw [List.nil_append] at h
    rcases writeAt_single place TOC_FILE_NAME l l1 data h with
      ⟨A, B, old, h1, _, h3⟩ | ⟨_, A, B, h2, h3⟩
    · rw [h3, h1, createFolderTree_file_change excludedArray sp includeText excludes A B
        TOC_FILE_NAME old data]
      exact ⟨rfl, Nat.le_refl _⟩
    · rw [h3, h2]
      exact createFolderTree_file_insert excludedArray sp includeText excludes A B data
  | g :: chain, sp, l, l1, data, hk, h => by
    obtain ⟨seg, rest, hsr⟩ := snoc_eq_cons chain TOC_FILE_NAME
    rw [List.cons_append, hsr] at h
    obtain ⟨A, B, ch, ch1, h1, h2, h3, h4⟩ := writeAt_cons place g seg rest l l1 data h
    obtain ⟨ch0, he, hex, hne, hkc⟩ := (keptChain_cons _ _ _ sp g chain l).mp hk
    rw [h1, entryOf_middle_self g _ A B h2] at he
    obtain rfl := FsEntry.dir.inj (Option.some.inj he)
    rw [← hsr] at h3
    obtain ⟨ih1, ih2⟩ := createFolderTree_writeAt excludedArray includeText excludes place chain
      (pathJoin sp g) ch ch1 data hkc h3
    have hne1 := nonEmpty_of_stripToc _ _ ih1 ih2 hne
    obtain ⟨r1, r2⟩ := createFolderTree_dir_change excludedArray sp includeText excludes A B g
      ch ch1 hex hne hne1 ih1
    rw [h4, h1]
    exact ⟨r1, by rw [r2]⟩

/-- A kept chain of directories stays one after the index document of a kept
directory is written. -/
theorem keptChain_writeAt (excludedArray : List JsString) (includeText : JsString)
    (excludes : List JsString) (place : List (JsString × FsEntry) → JsString → Nat) :
    ∀ (chain2 chain : List JsString) (startPath : JsString)
      (l l1 : List (JsString × FsEntry)) (data : JsString),
      keptChain excludedArray includeText excludes startPath chain2 l = true →
      writeAt place (chain2 ++ [TOC_FILE_NAME]) l data = some l1 →
      keptChain excludedArray includeText excludes startPath chain l = true →
      keptChain excludedArray includeText excludes startPath chain l1 = true
  | _, [], sp, _, l1, _, _, _, _ => keptChain_nil _ _ _ sp l1
  | [], g :: chain, sp, l, l1, data, _, h, hk => by
    rw [List.nil_append] at h
    obtain ⟨ch, he, hex, hne, hkc⟩ := (keptChain_cons _ _ _ sp g chain l).mp hk
    have hg : g ≠ TOC_FILE_NAME := by
      rintro rfl
      exact (writeAt_single_isSome place TOC_FILE_NAME l data).mp (by rw [h]; rfl) ch he
    exact (keptChain_cons _ _ _ sp g chain l1).mpr
      ⟨ch, by rw [entryOf_of_write_single place TOC_FILE_NAME g l l1 data h hg]; exact he,
        hex, hne, hkc⟩
  | g2 :: chain2, g :: chain, sp, l, l1, data, hk2, h, hk => by
    obtain ⟨seg, rest, hsr⟩ := snoc_eq_cons chain2 TOC_FILE_NAME
    rw [List.cons_append, hsr] at h
    obtain ⟨ch, he, hex, hne, hkc⟩ := (keptChain_cons _ _ _ sp g chain l).mp hk
    by_cases hg : g = g2
    · subst hg
      obtain ⟨ch2, ch1, e1, e2, e3⟩ := entryOf_of_write_cons_self place g seg rest l l1 data h
      rw [he] at e1
      obtain rfl := FsEntry.dir.inj (Option.some.inj e1)
      obtain ⟨ch3, he3, _, _, hkc2⟩ := (keptChain_cons _ _ _ sp g chain2 l).mp hk2
      rw [he] at he3
      obtain rfl := FsEntry.dir.inj (Option.some.inj he3)
      rw [← hsr] at e3
      obtain ⟨s1, s2⟩ := createFolderTree_writeAt excludedArray includeText excludes place
        chain2 (pathJoin sp g) ch ch1 data hkc2 e3
      exact (keptChain_cons _ _ _ sp g chain l1).mpr
        ⟨ch1, e2, hex, nonEmpty_of_stripToc _ _ s1 s2 hne,
          keptChain_writeAt excludedArray includeText excludes place chain2 chain
            (pathJoin sp g) ch ch1 data hkc2 e3 hkc⟩
    · exact (keptChain_cons _ _ _ sp g chain l1).mpr
        ⟨ch, by rw [entryOf_of_write_cons place g2 seg g rest l l1 data h hg]; exact he,
          hex, hne, hkc⟩

/-! ## The content map of a scan with index documents -/

theorem filesLoop_filter (readFileSync : JsString → Option JsString) (p : JsString) :
    ∀ (files : List JsString) (content : List Entry),
      filesLoop readFileSync p (files.filter (fun file => decide (file ≠ TOC_FILE_NAME)))
        content = filesLoop readFileSync p files content
  | [], _ => rfl
  | file :: files, content => by
    by_cases hf : file = TOC_FILE_NAME
    · rw [List.filter_cons_of_neg (by simpa using hf), filesLoop_filter readFileSync p files]
      conv_rhs => rw [filesLoop, if_pos hf]
    · rw [List.filter_cons_of_pos (by simpa using hf), filesLoop, filesLoop, if_neg hf,
        if_neg hf]
      cases readFileSync (pathJoin p file) with
      | none => rfl
      | some markdownFile => exact filesLoop_filter readFileSync p files _

mutual
/-- The index documents listed in `files` have no part in the content map. -/
theorem createContentMap_stripToc (readFileSync : JsString → Option JsString)
    (toUpperCase : Char → JsString) :
    ∀ (t : TreeNode) (p : JsString),
      createContentMap readFileSync toUpperCase (stripToc t) p =
        createContentMap readFileSync toUpperCase t p
  | .mk files folders, p => by
    rw [stripToc, createContentMap, createContentMap, filesLoop_filter]
    cases filesLoop readFileSync p files [] with
    | none => rfl
    | some content =>
      simp only
      rw [foldersLoop_stripTocList readFileSync toUpperCase folders p]
theorem foldersLoop_stripTocList (readFileSync : JsString → Option JsString)
    (toUpperCase : Char → JsString) :
    ∀ (fl : List (JsString × TreeNode)) (p : JsString) (st : MapState),
      foldersLoop readFileSync toUpperCase p (stripTocList fl) st =
        foldersLoop readFileSync toUpperCase p fl st
  | [], _, _ => rfl
  | (f, sub) :: rest, p, st => by
    rw [stripTocList, foldersLoop, foldersLoop,
      createContentMap_stripToc readFileSync toUpperCase sub (pathJoin p f)]
    cases createContentMap readFileSync toUpperCase sub (pathJoin p f) with
    | none => rfl
    | some subFolderContent =>
      simp only
      cases JsObject.get subFolderContent (pathJoin p f) with
      | none => rfl
      | some subList =>
        simp only
        exact foldersLoop_stripTocList readFileSync toUpperCase rest p _
end

theorem filesLoop_congr (readFileSync readFileSync2 : JsString → Option JsString)
    (p : JsString) :
    ∀ (files : List JsString) (content : List Entry),
      (∀ x ∈ files, x ≠ TOC_FILE_NAME →
        readFileSync2 (pathJoin p x) = readFileSync (pathJoin p x)) →
      filesLoop readFileSync2 p files content = filesLoop readFileSync p files content
  | [], _, _ => rfl
  | file :: files, content, h => by
    rw [filesLoop, filesLoop]
    have hrest : ∀ x ∈ files, x ≠ TOC_FILE_NAME →
        readFileSync2 (pathJoin p x) = readFileSync (pathJoin p x) :=
      fun x hx => h x (List.mem_cons_of_mem _ hx)
    by_cases hf : file = TOC_FILE_NAME
    · rw [if_pos hf, if_pos hf]
      exact filesLoop_congr readFileSync readFileSync2 p files content hrest
    · rw [if_neg hf, if_neg hf, h file (List.mem_cons_self _ _) hf]
      cases readFileSync (pathJoin p file) with
      | none => rfl
      | some markdownFile => exact filesLoop_congr readFileSync readFileSync2 p files _ hrest

mutual
/-- The content map depends on the file system only through the texts of the
files it reads. -/
theorem createContentMap_congr (readFileSync readFileSync2 : JsString → Option JsString)
    (toUpperCase : Char → JsString) :
    ∀ (t : TreeNode) (p : JsString),
      (∀ q ∈ subNodes t p, ∀ x ∈ q.2.files, x ≠ TOC_FILE_NAME →
        readFileSync2 (pathJoin q.1 x) = readFileSync (pathJoin q.1 x)) →
      createContentMap readFileSync2 toUpperCase t p =
        createContentMap readFileSync toUpperCase t p
  | .mk files folders, p, h => by
    rw [createContentMap, createContentMap,
      filesLoop_congr readFileSync readFileSync2 p files []
        (fun x hx => h (p, .mk files folders) (subNodes_self _ p) x hx)]
    cases filesLoop readFileSync p files [] with
    | none => rfl
    | some content =>
      simp only
      rw [foldersLoop_congr readFileSync readFileSync2 toUpperCase folders p _
        (fun q hq => h q (subNodesList_sub files folders p q hq))]
theorem foldersLoop_congr (readFileSync readFileSync2 : JsString → Option JsString)
    (toUpperCase : Char → JsString) :
    ∀ (fl : List (JsString × TreeNode)) (p : JsString) (st : MapState),
      (∀ q ∈ subNodesList fl p, ∀ x ∈ q.2.files, x ≠ TOC_FILE_NAME →
        readFileSync2 (pathJoin q.1 x) = readFileSync (pathJoin q.1 x)) →
      foldersLoop readFileSync2 toUpperCase p fl st =
        foldersLoop readFileSync toUpperCase p fl st
  | [], _, _, _ => rfl
  | (f, sub) :: rest, p, st, h => by
    rw [subNodesList] at h
    rw [foldersLoop, foldersLoop,
      createContentMap_congr readFileSync readFileSync2 toUpperCase sub (pathJoin p f)
        (fun q hq => h q (List.mem_append_left _ hq))]
    cases createContentMap readFileSync toUpperCase sub (pathJoin p f) with
    | none => rfl
    | some subFolderContent =>
      simp only
      cases JsObject.get subFolderContent (pathJoin p f) with
      | none => rfl
      | some subList =>
        simp only
        exact foldersLoop_congr readFileSync readFileSync2 toUpperCase rest p _
          (fun q hq => h q (List.mem_append_right _ hq))
end

/-! ## The directories of the scan -/

theorem everyNodeList_iff (P : TreeNode → Bool) :
    ∀ fl : List (JsString × TreeNode),
      everyNodeList P fl = true ↔ ∀ q ∈ fl, q.2.everyNode P = true
  | [] => by
    rw [everyNodeList]
    exact ⟨fun _ q hq => absurd hq (List.not_mem_nil _), fun _ => rfl⟩
  | (f, sub) :: rest => by
    rw [everyNodeList, Bool.and_eq_true, everyNodeList_iff P rest]
    constructor
    · rintro ⟨h1, h2⟩ q hq
      rcases List.mem_cons.mp hq with rfl | hq
      · exact h1
      · exact h2 q hq
    · intro h
      exact ⟨h (f, sub) (List.mem_cons_self _ _), fun q hq => h q (List.mem_cons_of_mem _ hq)⟩

theorem everyNode_eq (P : TreeNode → Bool) (t : TreeNode) :
    t.everyNode P = (P t && everyNodeList P t.folders) := by
  cases t with
  | mk files folders => rw [TreeNode.everyNode]; rfl

/-- With the files of the kept folders of a listing valid, those of the scanned
node are. -/
theorem createFolderTree_validFiles_of_kept (excludedArray : List JsString)
    (startPath includeText : JsString) (excludes : List JsString)
    (filePaths : List (JsString × FsEntry)) (hl : listingWellFormed filePaths = true)
    (hk : ∀ fs ∈ filePaths.filterMap (keptFolder excludedArray includeText excludes startPath),
      fs.2.everyNode validFiles = true) :
    (createFolderTree excludedArray startPath includeText excludes
      (some filePaths)).everyNode validFiles = true := by
  have hperm := createFolderTree_folders_perm excludedArray startPath includeText excludes
    filePaths hl
  rw [everyNode_eq, Bool.and_eq_true, everyNodeList_iff]
  constructor
  · rw [validFiles, createFolderTree_files, List.all_eq_true]
    intro x hx
    obtain ⟨c, hc, rfl⟩ := List.mem_map.mp (List.mem_filter.mp hx).1
    exact entryName_valid _ (entryName_of_mem_listing filePaths hl c hc)
  · intro q hq
    exact hk q (hperm.mem_iff.mp hq)

theorem kept_validFiles (excludedArray : List JsString) (includeText : JsString)
    (excludes : List JsString) :
    ∀ (l : List (JsString × FsEntry)) (startPath : JsString), listingWellFormed l = true →
      ∀ fs ∈ l.filterMap (keptFolder excludedArray includeText excludes startPath),
        fs.2.everyNode validFiles = true
  | [], _, _, fs, h => absurd h (List.not_mem_nil _)
  | (name, .file content) :: rest, startPath, hl, fs, h => by
    obtain ⟨_, _, _, h4⟩ := (listingWellFormed_cons _ _ rest).mp hl
    rw [List.filterMap_cons, keptFolder_file] at h
    exact kept_validFiles excludedArray includeText excludes rest startPath h4 fs h
  | (name, .dir children) :: rest, startPath, hl, fs, h => by
    obtain ⟨_, _, h3, h4⟩ := (listingWellFormed_cons _ _ rest).mp hl
    rw [FsEntry.wellFormed] at h3
    rw [List.filterMap_cons] at h
    cases hk : keptFolder excludedArray includeText excludes startPath
        (name, FsEntry.dir children) with
    | none =>
      rw [hk] at h
      exact kept_validFiles excludedArray includeText excludes rest startPath h4 fs h
    | some p =>
      rw [hk] at h
      rcases List.mem_cons.mp h with rfl | h
      · obtain ⟨children2, hdir, hp, _, _⟩ := keptFolder_some _ _ _ _ _ fs hk
        have hc : children2 = children := by
          simp only [FsEntry.dir.injEq] at hdir
          exact hdir.symm
        subst hc
        rw [hp]
        exact createFolderTree_validFiles_of_kept excludedArray _ includeText excludes
          children2 h3
          (kept_validFiles excludedArray includeText excludes children2 _ h3)
      · exact kept_validFiles excludedArray includeText excludes rest startPath h4 fs h

/-- The names in the `files` of the scan of a well-formed listing are
directory-entry names, at every depth. -/
theorem createFolderTree_validFiles (excludedArray : List JsString)
    (startPath includeText : JsString) (excludes : List JsString)
    (filePaths : List (JsString × FsEntry)) (hl : listingWellFormed filePaths = true) :
    (createFolderTree excludedArray startPath includeText excludes
      (some filePaths)).everyNode validFiles = true :=
  createFolderTree_validFiles_of_kept excludedArray startPath includeText excludes filePaths hl
    (kept_validFiles excludedArray includeText excludes filePaths startPath hl)

theorem entryOf_of_mem :
    ∀ (l : List (JsString × FsEntry)) (name : JsString) (e : FsEntry),
      (l.map Prod.fst).Nodup → (name, e) ∈ l → entryOf name l = some e
  | [], _, _, _, h => absurd h (List.not_mem_nil _)
  | c :: rest, name, e, hn, h => by
    rw [List.map_cons, List.nodup_cons] at hn
    rw [entryOf_cons]
    rcases List.mem_cons.mp h with h | h
    · rw [← h, if_pos rfl]
    · have : c.1 ≠ name := by
        intro hc
        exact hn.1 (List.mem_map.mpr ⟨(name, e), h, hc.symm⟩)
      rw [if_neg this]
      exact entryOf_of_mem rest name e hn.2 h

theorem wellFormed_of_mem_listing :
    ∀ (l : List (JsString × FsEntry)), listingWellFormed l = true →
      ∀ c ∈ l, c.2.wellFormed = true
  | [], _, c, hc => absurd hc (List.not_mem_nil _)
  | (name, entry) :: rest, hl, c, hc => by
    obtain ⟨_, _, h3, h4⟩ := (listingWellFormed_cons name entry rest).mp hl
    rcases List.mem_cons.mp hc with rfl | hc
    · exact h3
    · exact wellFormed_of_mem_listing rest h4 c hc

/-- The folders followed from the scan of a listing are directories that the
scanner keeps. -/
theorem keptChain_of_descend (excludedArray : List JsString) (includeText : JsString)
    (excludes : List JsString) :
    ∀ (chain : List JsString) (startPath : JsString) (l : List (JsString × FsEntry))
      (n : TreeNode), listingWellFormed l = true →
      descend chain (createFolderTree excludedArray startPath includeText excludes (some l)) =
        some n →
      keptChain excludedArray includeText excludes startPath chain l = true
  | [], sp, l, _, _, _ => keptChain_nil _ _ _ sp l
  | g :: chain, sp, l, n, hl, h => by
    obtain ⟨sub, hsub, hdesc⟩ := descend_cons g chain _ n h
    have hmem := (createFolderTree_folders_perm excludedArray sp includeText excludes l
      hl).mem_iff.mp hsub
    obtain ⟨c, hc, hk⟩ := List.mem_filterMap.mp hmem
    obtain ⟨children, hdir, hp, hex, hne⟩ := keptFolder_some _ _ _ _ c (g, sub) hk
    obtain ⟨hg, hs⟩ := Prod.mk.inj hp
    have hc2 : (g, FsEntry.dir children) ∈ l := by
      rw [hg, ← hdir]; exact hc
    have hch : listingWellFormed children = true := by
      have := wellFormed_of_mem_listing l hl _ hc2
      rw [FsEntry.wellFormed] at this
      exact this
    rw [hs, ← hg] at hdesc
    refine (keptChain_cons _ _ _ sp g chain l).mpr
      ⟨children, entryOf_of_mem l g _ (listingWellFormed_nodup l hl) hc2, ?_, ?_,
        keptChain_of_descend excludedArray includeText excludes chain (pathJoin sp g) children n
          hch hdesc⟩
    · rw [hg]; exact hex
    · have := hne
      rw [hp] at this
      rw [hg]; exact this

mutual
/-- Every directory of a well-formed tree is reached from the root along a
chain of folder names, and its joined path is joined along that chain. -/
theorem subNodes_descend :
    ∀ (t : TreeNode) (p : JsString), t.wellFormed = true →
      ∀ q ∈ subNodes t p, ∃ chain : List JsString,
        (∀ s ∈ chain, validName s = true) ∧ descend chain t = some q.2 ∧ q.1 = joinAll p chain
  | .mk files folders, p, hwf, q, hq => by
    rw [subNodes] at hq
    rcases List.mem_cons.mp hq with rfl | hq
    · exact ⟨[], fun s hs => absurd hs (List.not_mem_nil _), rfl, rfl⟩
    · rw [TreeNode.wellFormed] at hwf
      obtain ⟨f, sub, chain, hmem, hv, hd, hj⟩ := subNodesList_descend folders p hwf q hq
      have hget : JsObject.get folders f = some sub :=
        JsObject.get_of_mem folders f sub ((wellFormedList_iff folders).mp hwf).2 hmem
      have hvf : validName f = true :=
        entryName_valid f (((wellFormedList_iff folders).mp hwf).1 (f, sub) hmem).1
      refine ⟨f :: chain, ?_, ?_, ?_⟩
      · intro s hs
        rcases List.mem_cons.mp hs with rfl | hs
        · exact hvf
        · exact hv s hs
      · rw [descend]
        show (JsObject.get folders f).bind (descend chain) = some q.2
        rw [hget]
        exact hd
      · rw [joinAll_cons]; exact hj
theorem subNodesList_descend :
    ∀ (fl : List (JsString × TreeNode)) (p : JsString), wellFormedList fl = true →
      ∀ q ∈ subNodesList fl p, ∃ (f : JsString) (sub : TreeNode) (chain : List JsString),
        (f, sub) ∈ fl ∧ (∀ s ∈ chain, validName s = true) ∧ descend chain sub = some q.2 ∧
          q.1 = joinAll (pathJoin p f) chain
  | [], _, _, q, hq => absurd hq (List.not_mem_nil _)
  | (f, sub) :: rest, p, hwf, q, hq => by
    obtain ⟨_, _, hsub, hrest⟩ := (wellFormedList_cons f sub rest).mp hwf
    rw [subNodesList] at hq
    rcases List.mem_append.mp hq with hq | hq
    · obtain ⟨chain, hv, hd, hj⟩ := subNodes_descend sub (pathJoin p f) hsub q hq
      exact ⟨f, sub, chain, List.mem_cons_self _ _, hv, hd, hj⟩
    · obtain ⟨g, sub2, chain, hmem, hv, hd, hj⟩ := subNodesList_descend rest p hrest q hq
      exact ⟨g, sub2, chain, List.mem_cons_of_mem _ hmem, hv, hd, hj⟩
end

/-! ## Running the script twice -/

theorem writeAt_isSome_place (place place2 : List (JsString × FsEntry) → JsString → Nat) :
    ∀ (segs : List JsString) (l : List (JsString × FsEntry)) (d : JsString),
      (writeAt place segs l d).isSome = true → (writeAt place2 segs l d).isSome = true
  | [], _, _, h => by rw [writeAt] at h; exact absurd h (by simp)
  | [name], l, d, h => by
    rw [writeAt_single_isSome] at h ⊢
    exact h
  | name :: seg :: rest, l, d, h => by
    rw [writeAt_cons_isSome] at h ⊢
    obtain ⟨children, hc, hw⟩ := h
    exact ⟨children, hc, writeAt_isSome_place place place2 (seg :: rest) children d hw⟩

theorem writeDocuments_cons (place : List (JsString × FsEntry) → JsString → Nat)
    (doc : Document) (rest : List Document) (s s1 : List (JsString × FsEntry))
    (h : writeDocuments place (doc :: rest) s = some s1) :
    ∃ s0, writeAt place (pathSegments doc.path) s doc.data = some s0 ∧
      writeDocuments place rest s0 = some s1 := by
  rw [writeDocuments] at h
  cases hw : fs.writeFileSync place s doc.path doc.data with
  | none => rw [hw] at h; exact absurd h (by simp)
  | some s0 =>
    rw [hw] at h
    exact ⟨s0, hw, h⟩

/-- A write that succeeds still succeeds after the documents are written. -/
theorem writeDocuments_isSome_after (place : List (JsString × FsEntry) → JsString → Nat)
    (segs : List JsString) (d : JsString) :
    ∀ (docs : List Document) (s s1 : List (JsString × FsEntry)),
      writeDocuments place docs s = some s1 → (writeAt place segs s d).isSome = true →
      (writeAt place segs s1 d).isSome = true
  | [], s, s1, h, hs => by
    rw [writeDocuments] at h
    rw [← Option.some.inj h]; exact hs
  | doc :: rest, s, s1, h, hs => by
    obtain ⟨s0, h1, h2⟩ := writeDocuments_cons place doc rest s s1 h
    exact writeDocuments_isSome_after place segs d rest s0 s1 h2
      (writeAt_isSome_after place _ segs s s0 doc.data d h1 hs)

/-- Every document that was written can be written again afterwards. -/
theorem writeDocuments_all_after (place : List (JsString × FsEntry) → JsString → Nat) :
    ∀ (docs : List Document) (s s1 : List (JsString × FsEntry)),
      writeDocuments place docs s = some s1 →
      ∀ doc ∈ docs, (writeAt place (pathSegments doc.path) s1 doc.data).isSome = true
  | [], _, _, _, doc, hd => absurd hd (List.not_mem_nil _)
  | d0 :: rest, s, s1, h, doc, hd => by
    obtain ⟨s0, h1, h2⟩ := writeDocuments_cons place d0 rest s s1 h
    rcases List.mem_cons.mp hd with rfl | hd
    · exact writeDocuments_isSome_after place _ _ rest s0 s1 h2
        (writeAt_isSome_after place _ _ s s0 doc.data doc.data h1 (by rw [h1]; rfl))
    · exact writeDocuments_all_after place rest s0 s1 h2 doc hd

/-- Documents that can each be written can all be written one after the
other. -/
theorem writeDocuments_isSome (place : List (JsString × FsEntry) → JsString → Nat) :
    ∀ (docs : List Document) (s : List (JsString × FsEntry)),
      (∀ doc ∈ docs, (writeAt place (pathSegments doc.path) s doc.data).isSome = true) →
      ∃ s1, writeDocuments place docs s = some s1
  | [], s, _ => ⟨s, rfl⟩
  | d0 :: rest, s, h => by
    have h0 := h d0 (List.mem_cons_self _ _)
    cases hw : writeAt place (pathSegments d0.path) s d0.data with
    | none => rw [hw] at h0; exact absurd h0 (by simp)
    | some s0 =>
      obtain ⟨s1, hs1⟩ := writeDocuments_isSome place rest s0
        (fun doc hd => writeAt_isSome_after place _ _ s s0 d0.data doc.data hw
          (h doc (List.mem_cons_of_mem _ hd)))
      refine ⟨s1, ?_⟩
      rw [writeDocuments]
      show (match writeAt place (pathSegments d0.path) s d0.data with
        | none => none
        | some root1 => writeDocuments place rest root1) = some s1
      rw [hw]
      exact hs1

theorem TocInvariant.refl (excludedArray : List JsString) (chains : List (List JsString))
    (root : List (JsString × FsEntry))
    (h : ∀ chain ∈ chains,
      keptChain excludedArray ".md".toList excludedArray ['.'] chain root = true) :
    TocInvariant excludedArray chains root root :=
  ⟨h, rfl, fun _ _ => rfl⟩

/-- Writing the index document of one of the directories keeps the invariant. -/
theorem TocInvariant.write (excludedArray : List JsString) (chains : List (List JsString))
    (place : List (JsString × FsEntry) → JsString → Nat)
    (root s s1 : List (JsString × FsEntry)) (chain : List JsString) (data : JsString)
    (hinv : TocInvariant excludedArray chains root s) (hc : chain ∈ chains)
    (h : writeAt place (chain ++ [TOC_FILE_NAME]) s data = some s1) :
    TocInvariant excludedArray chains root s1 := by
  obtain ⟨h1, h2, h3⟩ := hinv
  refine ⟨?_, ?_, ?_⟩
  · intro c2 hc2
    exact keptChain_writeAt excludedArray ".md".toList excludedArray place chain c2 ['.'] s s1
      data (h1 chain hc) h (h1 c2 hc2)
  · rw [(createFolderTree_writeAt excludedArray ".md".toList excludedArray place chain ['.'] s
      s1 data (h1 chain hc) h).1, h2]
  · intro segs hsegs
    rw [fileAt_writeAt place TOC_FILE_NAME (chain ++ [TOC_FILE_NAME]) segs s s1 data
      (by simp) hsegs h, h3 segs hsegs]

theorem tocInvariant_writeDocuments (excludedArray : List JsString)
    (chains : List (List JsString)) (place : List (JsString × FsEntry) → JsString → Nat)
    (root : List (JsString × FsEntry)) :
    ∀ (docs : List Document) (s s1 : List (JsString × FsEntry)),
      (∀ doc ∈ docs, ∃ chain ∈ chains, pathSegments doc.path = chain ++ [TOC_FILE_NAME]) →
      TocInvariant excludedArray chains root s → writeDocuments place docs s = some s1 →
      TocInvariant excludedArray chains root s1
  | [], s, s1, _, hinv, h => by
    rw [writeDocuments] at h
    rw [← Option.some.inj h]; exact hinv
  | d0 :: rest, s, s1, hd, hinv, h => by
    obtain ⟨s0, h1, h2⟩ := writeDocuments_cons place d0 rest s s1 h
    obtain ⟨chain, hc, hp⟩ := hd d0 (List.mem_cons_self _ _)
    rw [hp] at h1
    exact tocInvariant_writeDocuments excludedArray chains place root rest s0 s1
      (fun doc hdoc => hd doc (List.mem_cons_of_mem _ hdoc))
      (TocInvariant.write excludedArray chains place root s s0 chain d0.data hinv hc h1) h2

/-- Every document of the map of a scan is the index document of a directory
that the scanner keeps. -/
theorem document_keptChain (excludedArray : List JsString) (toUpperCase : Char → JsString)
    (readFileSync : JsString → Option JsString)
    (root : List (JsString × FsEntry)) (hwf : listingWellFormed root = true)
    (m : ContentMap)
    (hm : createContentMap readFileSync toUpperCase
      (createFolderTree excludedArray ['.'] ".md".toList excludedArray (some root)) ['.'] =
      some m) :
    ∀ doc ∈ createContentMarkdown toUpperCase m, ∃ chain : List JsString,
      keptChain excludedArray ".md".toList excludedArray ['.'] chain root = true ∧
        pathSegments doc.path = chain ++ [TOC_FILE_NAME] := by
  intro doc hdoc
  have htwf := createFolderTree_wellFormed excludedArray ['.'] ".md".toList excludedArray
    (some root) (fun fp e => by rw [← Option.some.inj e]; exact hwf)
  rw [createContentMarkdown] at hdoc
  obtain ⟨k, hk, rfl⟩ := List.mem_map.mp hdoc
  have hperm := createContentMap_perm readFileSync toUpperCase _ ['.'] m htwf hm
  have hk2 := (JsObject.keys_perm hperm).subset hk
  rw [expectedMap_eq_map, JsObject.keys, List.map_map] at hk2
  obtain ⟨q, hq, hqk⟩ := List.mem_map.mp hk2
  obtain ⟨chain, hv, hd, hj⟩ := subNodes_descend _ ['.'] htwf q hq
  have hkj : k = joinAll ['.'] chain := by rw [← hj]; exact hqk.symm
  refine ⟨chain, keptChain_of_descend excludedArray ".md".toList excludedArray chain ['.'] root
    q.2 hwf hd, ?_⟩
  show pathSegments (k ++ '/' :: TOC_FILE_NAME) = chain ++ [TOC_FILE_NAME]
  by_cases hc : chain = []
  · rw [hkj, hc]
    decide
  · rw [hkj, ← joinAll_toc ['.'] chain hc hv, pathSegments_pathJoin _ _ (by decide),
      pathSegments_joinAll chain ['.'] hv]
    have : pathSegments ['.'] = [] := by decide
    rw [this, List.nil_append]

/-- C11: when the script runs without error in a working directory whose
listing is well formed (a tree of files and directories, every listed name a
directory-entry name listed once), rendering `docs` and leaving the file system
`root1` with the documents written, then a second run in `root1` with the same
exclusion list runs without error too and renders the same documents, paths and
data, in the same order. A new file may be listed at any position of its
directory, chosen by `place`, and differently in the second run. -/
theorem generateToc_idempotent (excludedArray : List JsString)
    (toUpperCase : Char → JsString)
    (place place2 : List (JsString × FsEntry) → JsString → Nat)
    (root : List (JsString × FsEntry)) (docs : List Document)
    (root1 : List (JsString × FsEntry))
    (hwf : listingWellFormed root = true)
    (h : generateToc excludedArray toUpperCase place root = some (docs, root1)) :
    ∃ root2, generateToc excludedArray toUpperCase place2 root1 = some (docs, root2) := by
  have htwf := createFolderTree_wellFormed excludedArray ['.'] ".md".toList excludedArray
    (some root) (fun fp e => by rw [← Option.some.inj e]; exact hwf)
  have hvalid := createFolderTree_validFiles excludedArray ['.'] ".md".toList excludedArray
    root hwf
  rw [generateToc] at h
  simp only at h
  cases hm : createContentMap (fs.readFileSync root) toUpperCase
      (createFolderTree excludedArray ['.'] ".md".toList excludedArray (some root)) ['.'] with
  | none => rw [hm] at h; exact absurd h (by simp)
  | some m =>
    rw [hm] at h
    simp only at h
    cases hw : writeDocuments place (createContentMarkdown toUpperCase m) root with
    | none => rw [hw] at h; exact absurd h (by simp)
    | some r =>
      rw [hw, Option.map_some'] at h
      obtain ⟨hdocs, hr⟩ := Prod.mk.inj (Option.some.inj h)
      subst hr
      have hchain := document_keptChain excludedArray toUpperCase (fs.readFileSync root) root
        hwf m hm
      rw [hdocs] at hchain hw
      have hinv : TocInvariant excludedArray
          (docs.map (fun doc => (pathSegments doc.path).dropLast)) root r := by
        refine tocInvariant_writeDocuments excludedArray _ place root docs root r ?_
          (TocInvariant.refl excludedArray _ root ?_) hw
        · intro doc hdoc
          obtain ⟨chain, _, hp⟩ := hchain doc hdoc
          refine ⟨chain, List.mem_map.mpr ⟨doc, hdoc, ?_⟩, hp⟩
          rw [hp, List.dropLast_concat]
        · intro chain hc
          obtain ⟨doc, hdoc, rfl⟩ := List.mem_map.mp hc
          obtain ⟨chain, hk, hp⟩ := hchain doc hdoc
          rw [hp, List.dropLast_concat]
          exact hk
      obtain ⟨_, hstrip, hfile⟩ := hinv
      have hm2 : createContentMap (fs.readFileSync r) toUpperCase
          (createFolderTree excludedArray ['.'] ".md".toList excludedArray (some r)) ['.'] =
          some m := by
        rw [← createContentMap_stripToc, hstrip, createContentMap_stripToc, ← hm]
        apply createContentMap_congr
        intro q hq x hx hne
        have hvx : validName x = true :=
          List.all_eq_true.mp
            (everyNode_self _ _ (everyNode_subNodes validFiles _ ['.'] hvalid q hq)) x hx
        rw [fs.readFileSync, fs.readFileSync]
        apply hfile
        rw [pathSegments_pathJoin q.1 x hvx]
        simpa using hne
      have hall := writeDocuments_all_after place docs root r hw
      obtain ⟨root2, hroot2⟩ := writeDocuments_isSome place2 docs r
        (fun doc hdoc => writeAt_isSome_place place place2 _ r doc.data (hall doc hdoc))
      refine ⟨root2, ?_⟩
      rw [generateToc]
      simp only
      rw [hm2]
      simp only
      rw [hdocs, hroot2]
      rfl

/-- In the example tree `a.md`, `sub/b.md` the script writes `README.md` and
`sub/README.md`; run again on the result, it renders the same two documents. -/
theorem generateToc_idempotent_witness :
    ∃ root2,
      generateToc ["node_modules".toList] asciiUpper (fun _ _ => 1) exampleListingAfter =
        some (exampleDocuments, root2) :=
  generateToc_idempotent ["node_modules".toList] asciiUpper (fun _ _ => 0) (fun _ _ => 1)
    exampleListing exampleDocuments exampleListingAfter (by decide) (by rfl)

end GenerateToc
